import Mathlib

/-!
Verification development for the sails-sqlite adapter.

This file gives a shallow embedding, in Lean, of the adapter's core logic:

* the statement compiler (`lib/private/machines/private/compile-statement.js`),
  including its internal `buildWhereClause`;
* the interpolating WHERE-clause builder
  (`lib/private/machines/private/build-sqlite-where-clause.js`), with
  `buildConstraint` and `sqliteEscape`;
* the record marshaler (`reify-values-to-set.js`, `process-native-record.js`);
* the native-error normalizer (`process-native-error.js`);
* the operation machines `join`, `create-each-record`, the `Update (records)`
  machine, and the `Sum (records)` machine.

JavaScript values are modeled by explicit inductive types; JS objects are
modeled by association lists in insertion order; JS mutation is modeled by
state passing; JS `throw` is modeled by `Except`.  JS runtime builtins that
the adapter calls (`JSON.stringify`/`JSON.parse`, `String.prototype.split`,
template-literal stringification, the SQLite engine itself) are not part of
this repository; they are modeled explicitly below, each marked in its doc
comment.  All definitions are executable and use structural recursion, so
concrete runs reduce with `decide`.
-/
/-! ## Basic character-list utilities (models of JS string builtins) -/
deriving instance DecidableEq for Except

/-- The backtick character, used by the compiler to quote SQL identifiers. -/
def btick : Char := Char.ofNat 96

/-- The question-mark character, the SQL positional placeholder. -/
def qmark : Char := Char.ofNat 63

/-- The single-quote character, used by `sqliteEscape`. -/
def squote : Char := Char.ofNat 39

/-- Number of `?` placeholders in a piece of SQL text. -/
def countQ (s : String) : Nat := s.data.countP (fun c => c == qmark)

/-- True when a string contains no `?` character (so interpolating it into SQL
text cannot create a spurious placeholder). -/
def noQ (s : String) : Bool := s.data.all (fun c => !(c == qmark))

/-- Model of JS `Array.prototype.join(sep)` restricted to string elements
(the only use in the compiler). -/
def joinSep (sep : String) : List String → String
  | [] => ""
  | [x] => x
  | x :: y :: rest => x ++ sep ++ joinSep sep (y :: rest)

/-- Model of JS `String.prototype.includes` on explicit character lists. -/
def listHasSub (needle : List Char) : List Char → Bool
  | [] => needle.isEmpty
  | c :: t => needle.isPrefixOf (c :: t) || listHasSub needle t

/-- Model of JS `String.prototype.includes`. -/
def jsIncludes (hay needle : String) : Bool := listHasSub needle.data hay.data

/-- Model of JS `String.prototype.split(sep)` for a non-empty separator, on
character lists; the fuel argument (instantiated with the input length) keeps
the recursion structural so terms reduce in the kernel. -/
def splitChars (needle : List Char) : Nat → List Char → List (List Char)
  | _, [] => [[]]
  | 0, cs => [cs]
  | fuel + 1, c :: rest =>
      if needle ≠ [] ∧ needle.isPrefixOf (c :: rest) then
        [] :: splitChars needle fuel ((c :: rest).drop needle.length)
      else
        match splitChars needle fuel rest with
        | [] => [[c]]
        | h :: t => (c :: h) :: t

/-- Model of JS `String.prototype.split('.')`. -/
def jsSplitDot (s : String) : List String :=
  (splitChars [Char.ofNat 46] s.data.length s.data).map String.mk

/-- Model of JS `String.prototype.split(' as ')`. -/
def jsSplitAs (s : String) : List String :=
  (splitChars [Char.ofNat 32, Char.ofNat 97, Char.ofNat 115, Char.ofNat 32]
    s.data.length s.data).map String.mk

/-- Model of JS `String.prototype.trim` (ASCII whitespace at both ends). -/
def jsTrim (s : String) : String :=
  String.mk ((s.data.dropWhile (fun c => c.isWhitespace)).reverse.dropWhile
    (fun c => c.isWhitespace)).reverse

/-- Model of JS `String.prototype.toLowerCase` (ASCII). -/
def jsToLower (s : String) : String := String.mk (s.data.map Char.toLower)

/-- Little-endian base-10 digits with explicit fuel, so it reduces in the
kernel.  Agrees with `Nat.digits 10` whenever the fuel suffices. -/
def toDigitsLE (fuel n : Nat) : List Nat :=
  match fuel with
  | 0 => []
  | f + 1 => if n = 0 then [] else (n % 10) :: toDigitsLE f (n / 10)

/-- Decimal digit characters of a natural number, most significant first. -/
def natChars (n : Nat) : List Char :=
  if n = 0 then [Char.ofNat 48] else ((toDigitsLE n n).map Nat.digitChar).reverse

/-- Model of JS number-to-string coercion for integral numbers. -/
def intToString (n : Int) : String :=
  match n with
  | .ofNat m => String.mk (natChars m)
  | .negSucc m => String.mk (Char.ofNat 45 :: natChars (m + 1))

/-! ## The stage-three `where` tree

A stage-three `where` clause is a JS object.  Its entries (in insertion
order) either carry, under the keys `and`/`or`, an array of sub-clauses, or
carry a field constraint: a bare scalar (equality) or a dictionary of
operator/operand pairs.  Operand values are scalars, or arrays of scalars for
`in`/`nin`.  (Nested objects in operand position and arrays outside
`and`/`or` are outside the model; every theorem below quantifies only over
trees of this shape, which is the shape upstream normalization guarantees.) -/
inductive SqlVal where
  | vnull
  | vbool (b : Bool)
  | vint (n : Int)
  | vstr (s : String)
deriving DecidableEq, Repr

inductive OpVal where
  | scalar (v : SqlVal)
  | arrv (vs : List SqlVal)
deriving DecidableEq, Repr

inductive FieldVal where
  | lit (v : SqlVal)
  | ops (ps : List (String × OpVal))
deriving DecidableEq, Repr

mutual
inductive WhereNode where
  | node (entries : EntryList)
deriving DecidableEq
inductive EntryList where
  | nil
  | cons (key : String) (v : EntryVal) (rest : EntryList)
deriving DecidableEq
inductive EntryVal where
  | branches (ws : NodeList)
  | field (c : FieldVal)
deriving DecidableEq
inductive NodeList where
  | nil
  | cons (w : WhereNode) (rest : NodeList)
deriving DecidableEq
end

/-- Model of JS template-literal coercion of a scalar to a string. -/
def scalarToString : SqlVal → String
  | .vnull => "null"
  | .vbool true => "true"
  | .vbool false => "false"
  | .vint n => intToString n
  | .vstr s => s

/-- Model of JS `Array.prototype.toString` element coercion (null becomes
the empty string inside an array join). -/
def arrElemToString : SqlVal → String
  | .vnull => ""
  | v => scalarToString v

/-- Model of JS template-literal coercion of an operand value. -/
def opValToString : OpVal → String
  | .scalar v => scalarToString v
  | .arrv vs => joinSep (",") (vs.map arrElemToString)

/-- Backtick-quote an identifier, as `compile-statement.js` does. -/
def quoteIdent (s : String) : String := String.mk (btick :: (s.data ++ [btick]))

/-- Column-name formatting in `buildWhereClause`
(`compile-statement.js` lines 247-259): `table.column` keys are split and
each part backtick-quoted; other keys are backtick-quoted whole. -/
def fmtColKey (key : String) : String :=
  if jsIncludes key (".") then
    match jsSplitDot key with
    | [t, c] => quoteIdent t ++ "." ++ quoteIdent c
    | _ => key
  else quoteIdent key

/-- Classification of an operator string, rendering the dispatch of the
`switch (operator)` in `buildWhereClause` (`compile-statement.js` lines
266-321); `!=` and `ne` share a case by fallthrough in the source, and every
other operator string falls to the default case. -/
inductive OpKind where
  | inK | ninK | gtK | geK | ltK | leK | neK | likeK | containsK | startsK | endsK | otherK
deriving DecidableEq, Repr

/-- Which `switch` case an operator string selects. -/
def classifyOp (op : String) : OpKind :=
  if op == ("in") then .inK
  else if op == ("nin") then .ninK
  else if op == (">") then .gtK
  else if op == (">=") then .geK
  else if op == ("<") then .ltK
  else if op == ("<=") then .leK
  else if op == ("!=") || op == ("ne") then .neK
  else if op == ("like") then .likeK
  else if op == ("contains") then .containsK
  else if op == ("startsWith") then .startsK
  else if op == ("endsWith") then .endsK
  else .otherK

/-- One iteration of the operator `switch` in `buildWhereClause`
(`compile-statement.js` lines 263-321): the conditions emitted and the
bindings pushed for one operator/operand pair.  `in`/`nin` with a non-array
or empty-array operand emit nothing; pattern operators push their
wildcard-wrapped operand as the binding; the default case emits an equality
comparison for any unrecognized operator. -/
def bwcOp1 (columnName op : String) (ov : OpVal) : List String × List OpVal :=
  match classifyOp op with
  | .inK =>
      match ov with
      | .arrv vs =>
          if vs.length > 0 then
            ([columnName ++ " IN (" ++ joinSep (", ") (vs.map (fun _ => "?")) ++ ")"],
             vs.map OpVal.scalar)
          else ([], [])
      | .scalar _ => ([], [])
  | .ninK =>
      match ov with
      | .arrv vs =>
          if vs.length > 0 then
            ([columnName ++ " NOT IN (" ++ joinSep (", ") (vs.map (fun _ => "?")) ++ ")"],
             vs.map OpVal.scalar)
          else ([], [])
      | .scalar _ => ([], [])
  | .gtK => ([columnName ++ " > ?"], [ov])
  | .geK => ([columnName ++ " >= ?"], [ov])
  | .ltK => ([columnName ++ " < ?"], [ov])
  | .leK => ([columnName ++ " <= ?"], [ov])
  | .neK => ([columnName ++ " != ?"], [ov])
  | .likeK => ([columnName ++ " LIKE ?"], [ov])
  | .containsK => ([columnName ++ " LIKE ?"], [.scalar (.vstr ("%" ++ opValToString ov ++ "%"))])
  | .startsK => ([columnName ++ " LIKE ?"], [.scalar (.vstr (opValToString ov ++ "%"))])
  | .endsK => ([columnName ++ " LIKE ?"], [.scalar (.vstr ("%" ++ opValToString ov))])
  | .otherK => ([columnName ++ " = ?"], [ov])

/-- The `Object.keys(value).forEach` loop over a field's operator dictionary
(`compile-statement.js` lines 263-322). -/
def bwcOps (columnName : String) : List (String × OpVal) → List String × List OpVal
  | [] => ([], [])
  | (op, ov) :: rest =>
      let r := bwcOp1 columnName op ov
      let rr := bwcOps columnName rest
      (r.1 ++ rr.1, r.2 ++ rr.2)

mutual
/-- Shallow embedding of `buildWhereClause` from `compile-statement.js`
(lines 201-334): handles the `and` group, then the `or` group, then the
field conditions, collecting conditions and bindings in that order and
joining the conditions with `" AND "`. -/
def bwc : WhereNode → String × List OpVal
  | .node entries =>
      let ag := bwcGroup ("and") entries
      let og := bwcGroup ("or") entries
      let fp := bwcFields entries
      let conds :=
        (if ag.1.isEmpty then [] else [("(") ++ joinSep (" AND ") ag.1 ++ (")")]) ++
        (if og.1.isEmpty then [] else [("(") ++ joinSep (" OR ") og.1 ++ (")")]) ++
        fp.1
      (joinSep (" AND ") conds, ag.2 ++ og.2 ++ fp.2)
/-- Look up the `and`/`or` property of the object and compile its children
(`compile-statement.js` lines 209-237). -/
def bwcGroup (k : String) : EntryList → List String × List OpVal
  | .nil => ([], [])
  | .cons k2 v rest =>
      if k2 == k then
        match v with
        | .branches ws => bwcChildren ws
        | .field _ => ([], [])
      else bwcGroup k rest
/-- Compile each child of an `and`/`or` group, skipping children that
compile to an empty clause (the source pushes conditions and bindings only
inside `if (result.clause)`). -/
def bwcChildren : NodeList → List String × List OpVal
  | .nil => ([], [])
  | .cons w rest =>
      let r := bwc w
      let rr := bwcChildren rest
      if r.1 == ("") then rr else (r.1 :: rr.1, r.2 ++ rr.2)
/-- Field-condition loop of `buildWhereClause` (`compile-statement.js`
lines 240-328): every key other than `and`/`or` becomes a condition. -/
def bwcFields : EntryList → List String × List OpVal
  | .nil => ([], [])
  | .cons k v rest =>
      let rr := bwcFields rest
      if k == ("and") || k == ("or") then rr
      else
        match v with
        | .field (.lit sv) => ((fmtColKey k ++ " = ?") :: rr.1, .scalar sv :: rr.2)
        | .field (.ops ps) =>
            let o := bwcOps (fmtColKey k) ps
            (o.1 ++ rr.1, o.2 ++ rr.2)
        | .branches _ => rr
end

/-- The compiled WHERE result of `buildWhereClause`: clause text and
positional bindings. -/
def buildWhereClause (w : WhereNode) : String × List OpVal := bwc w

/-! ## Specification-side binding order

The spec states that bindings appear in the same order as the corresponding
placeholders, namely the depth-first visit order of the leaves (the `and`
group's children first, then the `or` group's, then the field constraints in
insertion order).  `specDfs` renders that sentence directly, without the
empty-clause gating that `buildWhereClause` performs while accumulating. -/
/-- Operand values contributed to the binding list by one leaf
operator/operand pair, per the spec (pattern operators contribute their
wildcard-wrapped pattern; `in`/`nin` contribute their elements). -/
def specOp1 (op : String) (ov : OpVal) : List OpVal :=
  match classifyOp op with
  | .inK | .ninK =>
      match ov with
      | .arrv vs => if vs.length > 0 then vs.map OpVal.scalar else []
      | .scalar _ => []
  | .containsK => [.scalar (.vstr ("%" ++ opValToString ov ++ "%"))]
  | .startsK => [.scalar (.vstr (opValToString ov ++ "%"))]
  | .endsK => [.scalar (.vstr ("%" ++ opValToString ov))]
  | _ => [ov]

/-- Leaf operands of a whole operator dictionary, in order. -/
def specOps : List (String × OpVal) → List OpVal
  | [] => []
  | (op, ov) :: rest => specOp1 op ov ++ specOps rest

mutual
/-- Depth-first leaf operands of a predicate tree, in the spec's visit
order. -/
def specDfs : WhereNode → List OpVal
  | .node entries =>
      specDfsGroup ("and") entries ++ specDfsGroup ("or") entries ++ specDfsFields entries
def specDfsGroup (k : String) : EntryList → List OpVal
  | .nil => []
  | .cons k2 v rest =>
      if k2 == k then
        match v with
        | .branches ws => specDfsChildren ws
        | .field _ => []
      else specDfsGroup k rest
def specDfsChildren : NodeList → List OpVal
  | .nil => []
  | .cons w rest => specDfs w ++ specDfsChildren rest
def specDfsFields : EntryList → List OpVal
  | .nil => []
  | .cons k v rest =>
      if k == ("and") || k == ("or") then specDfsFields rest
      else
        match v with
        | .field (.lit sv) => .scalar sv :: specDfsFields rest
        | .field (.ops ps) => specOps ps ++ specDfsFields rest
        | .branches _ => specDfsFields rest
end

mutual
/-- Every key in the tree is free of `?` characters.  Keys are schema
identifiers (attribute/column names, already validated upstream per the
spec), so this holds for every real stage-three query. -/
def noQKeysW : WhereNode → Bool
  | .node entries => noQKeysE entries
def noQKeysE : EntryList → Bool
  | .nil => true
  | .cons k v rest => noQ k && noQKeysV v && noQKeysE rest
def noQKeysV : EntryVal → Bool
  | .branches ws => noQKeysL ws
  | .field _ => true
def noQKeysL : NodeList → Bool
  | .nil => true
  | .cons w rest => noQKeysW w && noQKeysL rest
end

/-! ## The statement compiler (`compile-statement.js`) -/
/-- Model of JS `String.prototype.toUpperCase` (ASCII). -/
def jsToUpper (s : String) : String := String.mk (s.data.map Char.toUpper)

/-- An `orderBy` entry: either a bare column string or a one-key object
mapping a column to a direction. -/
inductive OrderItem where
  | ostr (s : String)
  | okey (k : String) (dir : String)
deriving DecidableEq, Repr

/-- One `leftOuterJoin` entry: the joined table expression and the `on`
dictionary (table name to column name, in insertion order). -/
structure JoinOn where
  joinFrom : String
  onPairs : List (String × String)
deriving DecidableEq, Repr

/-- A single-SELECT statement, as consumed by `compileStatement`
(`compile-statement.js` lines 62-193).  Field `seFrom` models
`statement.from` and `whereC` models `statement.where` (both source names
are Lean keywords).  `Option` models presence of the JS property; a
`limit`/`skip` is compiled only when present as a number. -/
structure BaseStmt where
  select : Option (List String)
  seFrom : Option String
  leftOuterJoin : List JoinOn
  whereC : Option WhereNode
  orderBy : Option (List OrderItem)
  limit : Option Int
  skip : Option Int
deriving DecidableEq

/-- A statement is a plain SELECT or a `unionAll` list of SELECTs
(`compile-statement.js` lines 16-60).  Union members are plain SELECTs,
which is the only shape the join machine produces. -/
inductive Statement where
  | base (s : BaseStmt)
  | unionAll (ss : List BaseStmt)
deriving DecidableEq

/-- Column formatting of the SELECT clause (`compile-statement.js` lines
66-100): alias handling via `' as '`, table qualification via `'.'`.  The
column-part formatting is the same logic the source repeats in the WHERE
builder, so `fmtColKey` is reused for it. -/
def fmtSelectCol (col : String) : String :=
  if jsIncludes col (" as ") then
    match jsSplitAs col with
    | columnPart :: aliasPart :: _ => fmtColKey columnPart ++ " AS " ++ jsTrim aliasPart
    | _ => col
  else fmtColKey col

/-- FROM-clause formatting with table aliases (`compile-statement.js` lines
106-115). -/
def fmtFromClause (f : String) : String :=
  if jsIncludes f (" as ") then
    match jsSplitAs f with
    | t :: a :: _ => " FROM " ++ quoteIdent (jsTrim t) ++ " AS " ++ quoteIdent (jsTrim a)
    | _ => " FROM " ++ quoteIdent f
  else " FROM " ++ quoteIdent f

/-- Joined-table formatting with aliases (`compile-statement.js` lines
121-128). -/
def fmtJoinTable (jf : String) : String :=
  if jsIncludes jf (" as ") then
    match jsSplitAs jf with
    | t :: a :: _ => quoteIdent (jsTrim t) ++ " AS " ++ quoteIdent (jsTrim a)
    | _ => quoteIdent jf
  else quoteIdent jf

/-- ON-condition assembly (`compile-statement.js` lines 132-149): exactly
two conditions join with `=`, otherwise with `AND`. -/
def fmtJoinOn (onPairs : List (String × String)) : String :=
  let onConditions := onPairs.map (fun p => quoteIdent p.1 ++ "." ++ quoteIdent p.2)
  match onConditions with
  | [a, b] => a ++ " = " ++ b
  | l => joinSep (" AND ") l

/-- The LEFT OUTER JOIN clauses (`compile-statement.js` lines 117-152);
`from` and `on` are always present on join instructions built by the join
machine, so the source's presence guard is always taken. -/
def compileJoins (joins : List JoinOn) : String :=
  joins.foldl
    (fun acc j => acc ++ " LEFT OUTER JOIN " ++ fmtJoinTable j.joinFrom ++ " ON " ++
      fmtJoinOn j.onPairs) ""

/-- One ORDER BY entry (`compile-statement.js` lines 169-180). -/
def fmtOrderItem : OrderItem → String
  | .ostr s => quoteIdent s ++ " ASC"
  | .okey k dir => quoteIdent k ++ " " ++ (if jsToUpper dir == ("DESC") then "DESC" else "ASC")

/-- The ORDER BY clause (`compile-statement.js` lines 163-182 and 38-57):
emitted only for a present, non-empty array. -/
def fmtOrderClause (orderBy : Option (List OrderItem)) : String :=
  match orderBy with
  | some items =>
      if items.length > 0 then " ORDER BY " ++ joinSep (", ") (items.map fmtOrderItem)
      else ""
  | none => ""

/-- The SELECT clause (`compile-statement.js` lines 64-104): a non-empty
select list is formatted column by column, an empty one becomes `*`. -/
def selectClauseOf (cols : List String) : String :=
  if cols.length > 0 then "SELECT " ++ joinSep (", ") (cols.map fmtSelectCol)
  else "SELECT *"

/-- The FROM clause when the `from` property is present. -/
def fromClauseOf : Option String → String
  | some f => fmtFromClause f
  | none => ""

/-- The WHERE clause and its bindings (`compile-statement.js` lines
154-161): appended only when the compiled clause is non-empty. -/
def whereResOf : Option WhereNode → String × List OpVal
  | some w =>
      let wr := buildWhereClause w
      if wr.1 == ("") then ("", []) else (" WHERE " ++ wr.1, wr.2)
  | none => ("", [])

/-- The LIMIT clause, present only for a numeric `limit`. -/
def limitClauseOf : Option Int → String
  | some nv => " LIMIT " ++ intToString nv
  | none => ""

/-- The OFFSET clause, present only for a numeric `skip`. -/
def skipClauseOf : Option Int → String
  | some nv => " OFFSET " ++ intToString nv
  | none => ""

/-- Compile a single SELECT statement (`compile-statement.js` lines
62-195).  With no `select` property the source never enters the SELECT
block and returns empty SQL. -/
def compileBase (st : BaseStmt) : String × List OpVal :=
  match st.select with
  | none => ("", [])
  | some cols =>
      let whereRes := whereResOf st.whereC
      (selectClauseOf cols ++ fromClauseOf st.seFrom ++ compileJoins st.leftOuterJoin ++
        whereRes.1 ++ fmtOrderClause st.orderBy ++ limitClauseOf st.limit ++
        skipClauseOf st.skip,
       whereRes.2)

/-- The first union member whose `orderBy` property is present (the
source captures `globalOrderBy` from the first truthy `orderBy`). -/
def findFirstOrderBy : List BaseStmt → Option (List OrderItem)
  | [] => none
  | m :: rest =>
      match m.orderBy with
      | some items => some items
      | none => findFirstOrderBy rest

/-- Shallow embedding of `compileStatement` (`compile-statement.js`):
a `unionAll` statement compiles each member with `orderBy`/`limit`/`skip`
removed, concatenates the members' bindings in order, joins the SQL with
`UNION ALL` and appends the global ORDER BY; a plain statement compiles
directly. -/
def compileStatement : Statement → String × List OpVal
  | .base st => compileBase st
  | .unionAll members =>
      let compiled := members.map
        (fun m => compileBase { m with orderBy := none, limit := none, skip := none })
      let sql := joinSep (" UNION ALL ") (compiled.map Prod.fst)
      let bindings := (compiled.map Prod.snd).flatten
      (sql ++ fmtOrderClause (findFirstOrderBy members), bindings)

/-- The operator strings the spec lists as supported. -/
def supportedOp (op : String) : Bool :=
  [("="), ("!="), ("ne"), ("<"), ("<="), (">"), (">="), ("in"), ("nin"),
   ("like"), ("contains"), ("startsWith"), ("endsWith")].contains op

mutual
/-- The predicate tree uses only supported operators. -/
def suppW : WhereNode → Bool
  | .node entries => suppE entries
def suppE : EntryList → Bool
  | .nil => true
  | .cons _ v rest => suppV v && suppE rest
def suppV : EntryVal → Bool
  | .branches ws => suppL ws
  | .field (.lit _) => true
  | .field (.ops ps) => ps.all (fun p => supportedOp p.1)
def suppL : NodeList → Bool
  | .nil => true
  | .cons w rest => suppW w && suppL rest
end

/-- All identifiers interpolated into SQL text by `compileBase` are free of
`?` characters (schema identifiers validated upstream). -/
def baseNoQ (st : BaseStmt) : Bool :=
  (match st.select with | some cols => cols.all noQ | none => true) &&
  (match st.seFrom with | some f => noQ f | none => true) &&
  st.leftOuterJoin.all
    (fun j => noQ j.joinFrom && j.onPairs.all (fun p => noQ p.1 && noQ p.2)) &&
  (match st.whereC with | some w => noQKeysW w | none => true) &&
  (match st.orderBy with
   | some items => items.all
      (fun it => match it with | OrderItem.ostr s => noQ s | OrderItem.okey k _ => noQ k)
   | none => true)

/-- Identifier hygiene for whole statements. -/
def stmtNoQ : Statement → Bool
  | .base st => baseNoQ st
  | .unionAll ms => ms.all baseNoQ

/-- Supported-operator condition for whole statements. -/
def stmtSupported : Statement → Bool
  | .base st => (match st.whereC with | some w => suppW w | none => true)
  | .unionAll ms =>
      ms.all (fun m => match m.whereC with | some w => suppW w | none => true)

/-- Spec-side depth-first leaf operands of one SELECT statement. -/
def baseSpecDfs (st : BaseStmt) : List OpVal :=
  match st.select with
  | none => []
  | some _ => match st.whereC with | some w => specDfs w | none => []

/-- Spec-side depth-first leaf operands of a whole statement: union members
contribute in member order. -/
def stmtSpecDfs : Statement → List OpVal
  | .base st => baseSpecDfs st
  | .unionAll ms => (ms.map baseSpecDfs).flatten

/-! ## The interpolating WHERE builder (`build-sqlite-where-clause.js`)

The simple CRUD machines (find, sum, avg, count, update, destroy) do not use
`compileStatement`; they build their WHERE clause with
`buildSqliteWhereClause`, which interpolates escaped operand values directly
into the SQL text and returns a plain string with no binding list. -/
/-- The `meta` query key, as the machines consult it. -/
structure QMeta where
  fetch : Bool := false
  makeLikeModifierCaseInsensitive : Bool := false
deriving DecidableEq, Repr

/-- Escape of single quotes inside string literals
(`value.replace(/'/g, "''")`). -/
def escQuotes : List Char → List Char
  | [] => []
  | c :: rest => if c = squote then squote :: squote :: escQuotes rest else c :: escQuotes rest

/-- Shallow embedding of `sqliteEscape` (`build-sqlite-where-clause.js`
lines 77-89): strings are quoted with doubled inner quotes, booleans become
the decimal literals `1.0`/`0.0`, null becomes `NULL`, and numbers are
returned as-is (stringified on interpolation). -/
def sqliteEscape : SqlVal → String
  | .vstr s => String.mk (squote :: (escQuotes s.data ++ [squote]))
  | .vbool true => "1.0"
  | .vbool false => "0.0"
  | .vnull => "NULL"
  | .vint n => intToString n

/-- Interpolation of `sqliteEscape`'s result for an operand value; a JS
array operand passes through `sqliteEscape` unchanged and stringifies as its
comma-joined elements. -/
def sqliteEscapeOp : OpVal → String
  | .scalar v => sqliteEscape v
  | .arrv vs => joinSep (",") (vs.map arrElemToString)

/-- Dispatch of the `switch (modifierKind)` in `buildConstraint`
(`build-sqlite-where-clause.js` lines 44-74).  Note the case list differs
from `compileStatement`: there is no `ne`, `contains`, `startsWith` or
`endsWith` case here — those fall to the default, which throws. -/
inductive P3Kind where
  | ltK | leK | gtK | geK | neK | ninK | inK | likeK | otherK
deriving DecidableEq, Repr

/-- Which `switch` case a modifier string selects in `buildConstraint`. -/
def part3Classify (op : String) : P3Kind :=
  if op == ("<") then .ltK
  else if op == ("<=") then .leK
  else if op == (">") then .gtK
  else if op == (">=") then .geK
  else if op == ("!=") then .neK
  else if op == ("nin") then .ninK
  else if op == ("in") then .inK
  else if op == ("like") then .likeK
  else .otherK

/-- The fatal error message `buildConstraint` throws for an unknown
modifier. -/
def p3ConsistencyMsg (modifierKind : String) : String :=
  "Consistency violation: `where` clause modifier `" ++ modifierKind ++
  "` is not valid! This should never happen-- a stage 3 query should have already been normalized in Waterline core."

/-- Global replace of `([^\\])%` by `$1.*` in the like-pattern rewrite
(scanning resumes after each match, as a JS global regex does).  The fuel is
instantiated with the input length to keep recursion structural. -/
def repPercent : Nat → List Char → List Char
  | _, [] => []
  | 0, cs => cs
  | fuel + 1, c1 :: rest =>
      match rest with
      | c2 :: rest2 =>
          if c1 ≠ Char.ofNat 92 ∧ c2 = Char.ofNat 37 then
            c1 :: Char.ofNat 46 :: Char.ofNat 42 :: repPercent fuel rest2
          else c1 :: repPercent fuel rest
      | [] => [c1]

/-- Global replace of `\\%` by `%`. -/
def repEscPercent : Nat → List Char → List Char
  | _, [] => []
  | 0, cs => cs
  | fuel + 1, c1 :: rest =>
      match rest with
      | c2 :: rest2 =>
          if c1 = Char.ofNat 92 ∧ c2 = Char.ofNat 37 then
            Char.ofNat 37 :: repEscPercent fuel rest2
          else c1 :: repEscPercent fuel rest
      | [] => [c1]

/-- The like-pattern rewrite of `buildConstraint` (`build-sqlite-where-clause.js`
lines 59-64): leading `%` becomes `.*`, unescaped `%` becomes `.*`, escaped
`\\%` becomes a literal `%`, and the result is anchored. -/
def likeRegexpPattern (modifier : String) : String :=
  let s1 := match modifier.data with
    | c :: rest => if c = Char.ofNat 37 then Char.ofNat 46 :: Char.ofNat 42 :: rest else c :: rest
    | [] => []
  let s2 := repPercent s1.length s1
  let s3 := repEscPercent s2.length s2
  String.mk (Char.ofNat 94 :: (s3 ++ [Char.ofNat 36]))

/-- Shallow embedding of `buildConstraint` (`build-sqlite-where-clause.js`
lines 36-75).  A non-object constraint compiles to an escaped equality; an
object constraint dispatches on its first key only.  `in`/`nin` interpolate
the escaped elements (an empty array yields `IN ()`); `like` builds a
REGEXP clause, lower-cased when `meta.makeLikeModifierCaseInsensitive` is
set; any other modifier throws a consistency violation.  JS type errors
(`.map` on a non-array, `.replace` on a non-string) are modeled as
`Except.error` as well, since they too abort compilation. -/
def buildConstraint (columnName : String) (constraint : FieldVal) (meta : Option QMeta) :
    Except String String :=
  match constraint with
  | .lit v => .ok (columnName ++ " = " ++ sqliteEscape v)
  | .ops ps =>
      match ps with
      | [] => .error (p3ConsistencyMsg ("undefined"))
      | (modifierKind, modifier) :: _ =>
          match part3Classify modifierKind with
          | .ltK => .ok (columnName ++ " < " ++ sqliteEscapeOp modifier)
          | .leK => .ok (columnName ++ " <= " ++ sqliteEscapeOp modifier)
          | .gtK => .ok (columnName ++ " > " ++ sqliteEscapeOp modifier)
          | .geK => .ok (columnName ++ " >= " ++ sqliteEscapeOp modifier)
          | .neK => .ok (columnName ++ " != " ++ sqliteEscapeOp modifier)
          | .ninK =>
              match modifier with
              | .arrv vs =>
                  .ok (columnName ++ " NOT IN (" ++ joinSep (", ") (vs.map sqliteEscape) ++ ")")
              | .scalar _ => .error "TypeError: modifier.map is not a function"
          | .inK =>
              match modifier with
              | .arrv vs =>
                  .ok (columnName ++ " IN (" ++ joinSep (", ") (vs.map sqliteEscape) ++ ")")
              | .scalar _ => .error "TypeError: modifier.map is not a function"
          | .likeK =>
              match modifier with
              | .scalar (.vstr s) =>
                  let likePattern := likeRegexpPattern s
                  if (match meta with
                      | some m => m.makeLikeModifierCaseInsensitive
                      | none => false) then
                    .ok ("LOWER(" ++ columnName ++ ") REGEXP " ++ String.mk [squote] ++
                      jsToLower likePattern ++ String.mk [squote])
                  else
                    .ok (columnName ++ " REGEXP " ++ String.mk [squote] ++ likePattern ++
                      String.mk [squote])
              | _ => .error "TypeError: modifier.replace is not a function"
          | .otherK => .error (p3ConsistencyMsg modifierKind)

mutual
/-- The `recurse` helper of `buildSqliteWhereClause`
(`build-sqlite-where-clause.js` lines 20-31): entries are processed in
insertion order; `and`/`or` entries compile their children and join them
parenthesized with the upper-cased key; other entries compile via
`buildConstraint`; the entry clauses join with `" AND "`. -/
def bswcNode (meta : Option QMeta) : WhereNode → Except String String
  | .node entries => do
      let clauses ← bswcEntries meta entries
      .ok (joinSep (" AND ") clauses)
def bswcEntries (meta : Option QMeta) : EntryList → Except String (List String)
  | .nil => .ok []
  | .cons k v rest =>
      if k == ("and") || k == ("or") then
        match v with
        | .branches ws => do
            let subs ← bswcList meta ws
            let rest2 ← bswcEntries meta rest
            .ok ((("(") ++ joinSep (" " ++ jsToUpper k ++ " ") subs ++ (")")) :: rest2)
        | .field _ => .error "TypeError: value.map is not a function"
      else
        match v with
        | .field c => do
            let s ← buildConstraint k c meta
            let rest2 ← bswcEntries meta rest
            .ok (s :: rest2)
        | .branches _ => .error (p3ConsistencyMsg ("0"))
def bswcList (meta : Option QMeta) : NodeList → Except String (List String)
  | .nil => .ok []
  | .cons w rest => do
      let s ← bswcNode meta w
      let r ← bswcList meta rest
      .ok (s :: r)
end

/-- Whether the entry list is empty (`Object.keys(whereClause).length === 0`). -/
def entriesEmpty : EntryList → Bool
  | .nil => true
  | .cons _ _ _ => false

/-- Shallow embedding of `buildSqliteWhereClause`
(`build-sqlite-where-clause.js`): the empty `where` clause compiles to the
empty string; otherwise the tree is compiled recursively, interpolating all
operand values (escaped) into the SQL text.  The `WLModel` parameter of the
source is unused by its body and omitted here. -/
def buildSqliteWhereClause (whereClause : WhereNode) (meta : Option QMeta) :
    Except String String :=
  match whereClause with
  | .node entries =>
      if entriesEmpty entries then .ok ""
      else bswcNode meta (.node entries)

/-! ## Value erasure

`eraseW` replaces every operand value in a predicate tree by `null`,
keeping keys, operators and array arities.  `compileStatement`'s SQL text is
invariant under erasure, which formalizes that operand values never appear
in the text: they travel only in the binding list. -/
/-- Erase an operand value (array arity is preserved). -/
def eraseOpVal : OpVal → OpVal
  | .scalar _ => .scalar .vnull
  | .arrv vs => .arrv (vs.map (fun _ => SqlVal.vnull))

/-- Erase a field constraint. -/
def eraseFieldVal : FieldVal → FieldVal
  | .lit _ => .lit .vnull
  | .ops ps => .ops (ps.map (fun p => (p.1, eraseOpVal p.2)))

mutual
/-- Erase every operand value in a tree. -/
def eraseW : WhereNode → WhereNode
  | .node entries => .node (eraseE entries)
def eraseE : EntryList → EntryList
  | .nil => .nil
  | .cons k v rest => .cons k (eraseV v) (eraseE rest)
def eraseV : EntryVal → EntryVal
  | .branches ws => .branches (eraseL ws)
  | .field c => .field (eraseFieldVal c)
def eraseL : NodeList → NodeList
  | .nil => .nil
  | .cons w rest => .cons (eraseW w) (eraseL rest)
end

/-- Erase operand values in a statement's `where` tree. -/
def eraseBase (st : BaseStmt) : BaseStmt := { st with whereC := st.whereC.map eraseW }

/-- Erase operand values in a whole statement. -/
def eraseStmt : Statement → Statement
  | .base st => .base (eraseBase st)
  | .unionAll ms => .unionAll (ms.map eraseBase)

/-! ## Claims about the statement compiler -/
/-- A sample statement used to witness the compiler claims: a nested
predicate with an `and` group, an `in` list, a comparison, a pattern
operator and a plain equality, plus sort/limit/skip. -/
def exampleStmt1 : Statement :=
  .base
    { select := some [("a"), ("t.b as c")]
      seFrom := some ("t")
      leftOuterJoin := []
      whereC := some (.node (.cons ("and")
        (.branches (.cons (.node (.cons ("a")
            (.field (.ops [(("in"), .arrv [.vint 1, .vint 2]), ((">"), .scalar (.vint 0))]))
            .nil))
          (.cons (.node (.cons ("b") (.field (.ops [(("contains"), .scalar (.vstr ("x")))]))
            .nil)) .nil)))
        (.cons ("c") (.field (.lit (.vstr ("y")))) .nil)))
      orderBy := some [.okey ("a") ("desc")]
      limit := some 30
      skip := some 10 }

/-! ## JSON values and the builtin codec

The marshaler calls `JSON.stringify`/`JSON.parse`, which are JS runtime
builtins, not code of this repository.  Modelled from the spec: JSON logical
values serialize to text on write and parse back from text on read.  The
serializer below emits the builtin's compact format (no whitespace; quotes
and backslashes escaped); the parser accepts that format. -/
def nC : Char := Char.ofNat 110

def tC : Char := Char.ofNat 116

def fC : Char := Char.ofNat 102

def dquoteC : Char := Char.ofNat 34

def bslashC : Char := Char.ofNat 92

def lbrackC : Char := Char.ofNat 91

def rbrackC : Char := Char.ofNat 93

def lbraceC : Char := Char.ofNat 123

def rbraceC : Char := Char.ofNat 125

def commaC : Char := Char.ofNat 44

def colonC : Char := Char.ofNat 58

def minusC : Char := Char.ofNat 45

mutual
/-- A JSON value (the JSON-representable fragment of JS values). -/
inductive JVal where
  | jnull
  | jbool (b : Bool)
  | jnum (n : Int)
  | jstr (s : String)
  | jarr (elems : JArr)
  | jobj (fields : JObj)
deriving DecidableEq
inductive JArr where
  | anil
  | acons (v : JVal) (rest : JArr)
deriving DecidableEq
inductive JObj where
  | onil
  | ocons (k : String) (v : JVal) (rest : JObj)
deriving DecidableEq
end

mutual
def sizeJ : JVal → Nat
  | .jnull => 1
  | .jbool _ => 1
  | .jnum _ => 1
  | .jstr _ => 1
  | .jarr a => 1 + sizeA a
  | .jobj o => 1 + sizeO o
def sizeA : JArr → Nat
  | .anil => 1
  | .acons v rest => 1 + sizeJ v + sizeA rest
def sizeO : JObj → Nat
  | .onil => 1
  | .ocons _ v rest => 1 + sizeJ v + sizeO rest
end

/-- JSON string-content escaping (quote and backslash). -/
def escJson : List Char → List Char
  | [] => []
  | c :: rest =>
      if c = dquoteC then bslashC :: dquoteC :: escJson rest
      else if c = bslashC then bslashC :: bslashC :: escJson rest
      else c :: escJson rest

/-- Decimal characters of an integer. -/
def intChars (n : Int) : List Char :=
  match n with
  | .ofNat m => natChars m
  | .negSucc m => minusC :: natChars (m + 1)

mutual
/-- Serialize a JSON value (model of `JSON.stringify`'s output format). -/
def emitJ : JVal → List Char
  | .jnull => [nC, Char.ofNat 117, Char.ofNat 108, Char.ofNat 108]
  | .jbool true => [tC, Char.ofNat 114, Char.ofNat 117, Char.ofNat 101]
  | .jbool false => [fC, Char.ofNat 97, Char.ofNat 108, Char.ofNat 115, Char.ofNat 101]
  | .jnum n => intChars n
  | .jstr s => dquoteC :: (escJson s.data ++ [dquoteC])
  | .jarr a => lbrackC :: emitArr a
  | .jobj o => lbraceC :: emitObj o
def emitArr : JArr → List Char
  | .anil => [rbrackC]
  | .acons v rest => emitJ v ++ emitArrRest rest
def emitArrRest : JArr → List Char
  | .anil => [rbrackC]
  | .acons v rest => commaC :: (emitJ v ++ emitArrRest rest)
def emitObj : JObj → List Char
  | .onil => [rbraceC]
  | .ocons k v rest =>
      (dquoteC :: (escJson k.data ++ [dquoteC])) ++ (colonC :: (emitJ v ++ emitObjRest rest))
def emitObjRest : JObj → List Char
  | .onil => [rbraceC]
  | .ocons k v rest =>
      commaC :: ((dquoteC :: (escJson k.data ++ [dquoteC])) ++
        (colonC :: (emitJ v ++ emitObjRest rest)))
end

/-- Value of a decimal digit character. -/
def charVal (c : Char) : Nat := c.toNat - 48

mutual
/-- Parse JSON string content up to the closing quote, undoing `escJson`. -/
def parseStrChars : List Char → Option (List Char × List Char)
  | [] => none
  | c :: rest =>
      if c = dquoteC then some ([], rest)
      else if c = bslashC then pscEsc rest
      else
        match parseStrChars rest with
        | some (s, r) => some (c :: s, r)
        | none => none
/-- The character after a backslash is taken literally. -/
def pscEsc : List Char → Option (List Char × List Char)
  | [] => none
  | e :: rest2 =>
      match parseStrChars rest2 with
      | some (s, r) => some (e :: s, r)
      | none => none
end

mutual
/-- Parse one JSON value (model of `JSON.parse` on the serializer's output
format); fuel keeps the recursion structural. -/
def parseJ : Nat → List Char → Option (JVal × List Char)
  | 0, _ => none
  | fuel + 1, cs =>
      match cs with
      | [] => none
      | c :: rest =>
          if c = nC then
            if [Char.ofNat 117, Char.ofNat 108, Char.ofNat 108].isPrefixOf rest then
              some (.jnull, rest.drop 3)
            else none
          else if c = tC then
            if [Char.ofNat 114, Char.ofNat 117, Char.ofNat 101].isPrefixOf rest then
              some (.jbool true, rest.drop 3)
            else none
          else if c = fC then
            if [Char.ofNat 97, Char.ofNat 108, Char.ofNat 115, Char.ofNat 101].isPrefixOf rest then
              some (.jbool false, rest.drop 4)
            else none
          else if c = dquoteC then
            match parseStrChars rest with
            | some (s, r) => some (.jstr (String.mk s), r)
            | none => none
          else if c = lbrackC then
            match rest with
            | [] => none
            | d :: r2 =>
                if d = rbrackC then some (.jarr .anil, r2)
                else
                  match parseJ fuel rest with
                  | some (v, r1) =>
                      match parseArrRest fuel r1 with
                      | some (a, r3) => some (.jarr (.acons v a), r3)
                      | none => none
                  | none => none
          else if c = lbraceC then
            match rest with
            | [] => none
            | d :: r2 =>
                if d = rbraceC then some (.jobj .onil, r2)
                else if d = dquoteC then
                  match parseStrChars r2 with
                  | some (k, r3) =>
                      match r3 with
                      | e :: r4 =>
                          if e = colonC then
                            match parseJ fuel r4 with
                            | some (v, r5) =>
                                match parseObjRest fuel r5 with
                                | some (o, r6) => some (.jobj (.ocons (String.mk k) v o), r6)
                                | none => none
                            | none => none
                          else none
                      | [] => none
                  | none => none
                else none
          else if c = minusC then
            let run := rest.takeWhile (fun d => d.isDigit)
            if run.isEmpty then none
            else
              some (.jnum (Int.negOfNat (Nat.ofDigits 10 ((run.map charVal).reverse))),
                rest.dropWhile (fun d => d.isDigit))
          else if c.isDigit then
            let run := (c :: rest).takeWhile (fun d => d.isDigit)
            some (.jnum (Int.ofNat (Nat.ofDigits 10 ((run.map charVal).reverse))),
              (c :: rest).dropWhile (fun d => d.isDigit))
          else none
/-- Parse the remainder of an array after one element. -/
def parseArrRest : Nat → List Char → Option (JArr × List Char)
  | 0, _ => none
  | fuel + 1, cs =>
      match cs with
      | [] => none
      | c :: rest =>
          if c = rbrackC then some (.anil, rest)
          else if c = commaC then
            match parseJ fuel rest with
            | some (v, r1) =>
                match parseArrRest fuel r1 with
                | some (a, r2) => some (.acons v a, r2)
                | none => none
            | none => none
          else none
/-- Parse the remainder of an object after one field. -/
def parseObjRest : Nat → List Char → Option (JObj × List Char)
  | 0, _ => none
  | fuel + 1, cs =>
      match cs with
      | [] => none
      | c :: rest =>
          if c = rbraceC then some (.onil, rest)
          else if c = commaC then
            match rest with
            | d :: r2 =>
                if d = dquoteC then
                  match parseStrChars r2 with
                  | some (k, r3) =>
                      match r3 with
                      | e :: r4 =>
                          if e = colonC then
                            match parseJ fuel r4 with
                            | some (v, r5) =>
                                match parseObjRest fuel r5 with
                                | some (o, r6) => some (.ocons (String.mk k) v o, r6)
                                | none => none
                            | none => none
                          else none
                      | [] => none
                  | none => none
                else none
            | [] => none
          else none
end

/-- Model of `JSON.stringify` restricted to JSON-representable values. -/
def jsonStringify (v : JVal) : String := String.mk (emitJ v)

/-- Model of `JSON.parse`: parse the whole input or fail. -/
def jsonParse (s : String) : Option JVal :=
  match parseJ (s.data.length + 1) s.data with
  | some (v, []) => some v
  | _ => none

/-- The first character of the list is not a digit (or the list is empty). -/
def headNotDigit : List Char → Prop
  | [] => True
  | c :: _ => c.isDigit = false

instance (cs : List Char) : Decidable (headNotDigit cs) := by
  cases cs <;> simp only [headNotDigit] <;> infer_instance

/-- Follow-set condition for the parser: a serialized number must not be
followed directly by another digit. -/
def numFollowOk (v : JVal) (rest : List Char) : Prop :=
  match v with
  | .jnum _ => headNotDigit rest
  | _ => True

instance (v : JVal) (rest : List Char) : Decidable (numFollowOk v rest) := by
  cases v <;> simp only [numFollowOk] <;> infer_instance

/-! ## The record marshaler

`reify-values-to-set.js` converts a logical record to native form in place;
`process-native-record.js` converts a native record back to logical form.
Records are ordered key/value maps (JS object own-property order).  Values
are the JSON-representable JS values plus `Date` objects; a `Date` is
identified by its ISO-8601 rendering, which is all the marshaler observes
of it. -/
/-- A JS runtime value as seen by the marshaler: a JSON-representable value
or a `Date` object. -/
inductive RVal where
  | js : JVal → RVal
  | date : String → RVal
deriving DecidableEq

/-- Modelled from the spec: JS truthiness on JSON values (`false`, `0`, the
empty string and `null` are falsy; arrays and objects are truthy). -/
def jsTruthyJ : JVal → Bool
  | .jnull => false
  | .jbool b => b
  | .jnum n => if n = 0 then false else true
  | .jstr s => if s = "" then false else true
  | .jarr _ => true
  | .jobj _ => true

/-- Modelled from the spec: JS truthiness (`Date` objects are truthy). -/
def jsTruthy : RVal → Bool
  | .js v => jsTruthyJ v
  | .date _ => true

/-- Property read on a record (`undefined` when the key is absent). -/
def getVal : List (String × RVal) → String → Option RVal
  | [], _ => none
  | (k, v) :: rest, key => if k = key then some v else getVal rest key

/-- Property write on a record: updates in place, appends when absent. -/
def setVal : List (String × RVal) → String → RVal → List (String × RVal)
  | [], key, v => [(key, v)]
  | (k, w) :: rest, key, v =>
      if k = key then (k, v) :: rest else (k, w) :: setVal rest key v

/-- Property deletion on a record (`delete obj[key]`). -/
def delVal : List (String × RVal) → String → List (String × RVal)
  | [], _ => []
  | (k, w) :: rest, key =>
      if k = key then delVal rest key else (k, w) :: delVal rest key

/-- The attribute-definition fields read by the marshaler. -/
structure AttrDef where
  columnName : Option String
  type : String
  model : Option String
  foreignKey : Bool
deriving DecidableEq

/-- The model fields read by the marshaler. -/
structure WLModelM where
  primaryKey : String
  attributes : List (String × AttrDef)
deriving DecidableEq

/-- JS `a || b` where `a` is an optional string (`undefined` and `""` are
falsy). -/
def jsOrStr (o : Option String) (d : String) : String :=
  match o with
  | some c => if c = "" then d else c
  | none => d

/-- `WLModel.attributes[name]`. -/
def lookupAttr : List (String × AttrDef) → String → Option AttrDef
  | [], _ => none
  | (k, d) :: rest, key => if k = key then some d else lookupAttr rest key

/-- Modelled from the spec: `JSON.stringify` on a marshaler value — a `Date`
serializes through `toJSON` as its ISO-8601 string. -/
def jsonStringifyR : RVal → String
  | .js v => jsonStringify v
  | .date s => jsonStringify (.jstr s)

/-- Modelled from the spec: `Date.parse` recognizes ISO-8601-like strings
(four digits, a dash, and so on) and yields `NaN` on anything else; the
model keeps the recognized string itself as the date's identity. -/
def jsDateParse (s : String) : Option String :=
  match s.data with
  | c1 :: c2 :: c3 :: c4 :: c5 :: _ =>
      if c1.isDigit && c2.isDigit && c3.isDigit && c4.isDigit && c5 = Char.ofNat 45
      then some s else none
  | _ => none

/-- One attribute step of `reifyValuesToSet` (the body of the
`Object.entries(WLModel.attributes).forEach`): serialize JSON values to
text, `Date`s of `ref` attributes to ISO strings, and booleans to `1`/`0`;
each branch re-reads the (possibly already rewritten) current value. -/
def reifyAttr (vts : List (String × RVal)) (attrName : String) (attrDef : AttrDef) :
    List (String × RVal) :=
  let columnName := jsOrStr attrDef.columnName attrName
  match getVal vts columnName with
  | none => vts
  | some v0 =>
      let vts1 :=
        if attrDef.type = "json" ∧ ¬(v0 = .js .jnull)
        then setVal vts columnName (.js (.jstr (jsonStringifyR v0)))
        else vts
      let v1 := (getVal vts1 columnName).getD v0
      let vts2 :=
        if attrDef.type = "ref" then
          match v1 with
          | .date iso => setVal vts1 columnName (.js (.jstr iso))
          | _ => vts1
        else vts1
      let v2 := (getVal vts2 columnName).getD v0
      if attrDef.type = "boolean"
      then setVal vts2 columnName (.js (.jnum (if jsTruthy v2 then 1 else 0)))
      else vts2

/-- The `forEach` over `WLModel.attributes` in `reifyValuesToSet`. -/
def reifyAttrs : List (String × AttrDef) → List (String × RVal) → List (String × RVal)
  | [], vts => vts
  | (an, ad) :: rest, vts => reifyAttrs rest (reifyAttr vts an ad)

/-- Shallow embedding of `reifyValuesToSet` (`reify-values-to-set.js`): the
primary-key value is dropped when `null` and rejected when neither number
nor string; then every attribute value is serialized in place. -/
def reifyValuesToSet (vts : List (String × RVal)) (model : WLModelM) :
    Except String (List (String × RVal)) :=
  let pkStep : Except String (List (String × RVal)) :=
    if ¬(model.primaryKey = "") then
      match lookupAttr model.attributes model.primaryKey with
      | some pkDef =>
          let pkCol := jsOrStr pkDef.columnName model.primaryKey
          match getVal vts pkCol with
          | none => .ok vts
          | some (.js .jnull) => .ok (delVal vts pkCol)
          | some (.js (.jnum _)) => .ok vts
          | some (.js (.jstr _)) => .ok vts
          | some _ =>
              .error ("Invalid primary key value provided for `" ++ model.primaryKey
                ++ "`. Must be a number or string.")
      | none => .ok vts
    else .ok vts
  match pkStep with
  | .error e => .error e
  | .ok vts1 => .ok (reifyAttrs model.attributes vts1)

/-- One attribute step of `processNativeRecord`: parse JSON text (leaving
the text as-is when parsing fails), revive date strings of `ref`
attributes, coerce booleans by truthiness (materializing an absent column
as `false`), and check the foreign-key sanity asserts. -/
def processAttr (rec : List (String × RVal)) (attrDef : AttrDef) :
    Except String (List (String × RVal)) :=
  let phKey :=
    match attrDef.columnName with
    | some c => c
    | none => "undefined"
  let rec1 :=
    if attrDef.type = "json" then
      match getVal rec phKey with
      | some (.js (.jstr s)) =>
          match jsonParse s with
          | some v => setVal rec phKey (.js v)
          | none => rec
      | _ => rec
    else rec
  let rec2 :=
    if attrDef.type = "ref" then
      match getVal rec1 phKey with
      | some (.js (.jstr s)) =>
          match jsDateParse s with
          | some iso => setVal rec1 phKey (.date iso)
          | none => rec1
      | _ => rec1
    else rec1
  let rec3 :=
    if attrDef.type = "boolean" then
      match getVal rec2 phKey with
      | some v => setVal rec2 phKey (.js (.jbool (jsTruthy v)))
      | none => setVal rec2 phKey (.js (.jbool false))
    else rec2
  let isForeignKey :=
    match attrDef.model with
    | some m => if m = "" then false else true
    | none => false
  if isForeignKey then
    if attrDef.foreignKey then .ok rec3
    else .error "attribute has a `model` property, but wl-schema did not give it `foreignKey: true`!"
  else
    if attrDef.foreignKey then
      .error "wl-schema gave this attribute `foreignKey: true`, but it has no `model` property!"
    else .ok rec3

/-- The `forEach` over `WLModel.attributes` in `processNativeRecord` (an
assert abort stops the iteration). -/
def processAttrs : List (String × AttrDef) → List (String × RVal) →
    Except String (List (String × RVal))
  | [], rec => .ok rec
  | (_, ad) :: rest, rec =>
      match processAttr rec ad with
      | .error e => .error e
      | .ok rec2 => processAttrs rest rec2

/-- Shallow embedding of `processNativeRecord`
(`process-native-record.js`). -/
def processNativeRecord (rec : List (String × RVal)) (model : WLModelM) :
    Except String (List (String × RVal)) :=
  processAttrs model.attributes rec

/-- Attribute definitions in scope for the marshaling round trip: a named,
non-empty column, no foreign-key markings, and a boolean, JSON or numeric
logical type. -/
def goodAttrDef (p : String × AttrDef) : Prop :=
  ∃ c, p.2.columnName = some c ∧ ¬(c = "") ∧ p.2.model = none ∧ p.2.foreignKey = false ∧
    (p.2.type = "number" ∨ p.2.type = "boolean" ∨ p.2.type = "json")

/-- The effective column key of an attribute. -/
def colOf (p : String × AttrDef) : String := jsOrStr p.2.columnName p.1

/-- Values of the record match the attribute types (numbers for `number`,
booleans for `boolean`, JSON values for `json`), and every attribute column
is present. -/
def goodVal (r : List (String × RVal)) (p : String × AttrDef) : Prop :=
  (p.2.type = "number" → ∃ n, getVal r (colOf p) = some (.js (.jnum n))) ∧
  (p.2.type = "boolean" → ∃ b, getVal r (colOf p) = some (.js (.jbool b))) ∧
  (p.2.type = "json" → ∃ j, getVal r (colOf p) = some (.js j))

/-- The primary-key attribute, when declared, has numeric type. -/
def pkNumeric (model : WLModelM) : Bool :=
  match lookupAttr model.attributes model.primaryKey with
  | some d => d.type == "number"
  | none => true

def wit6Model : WLModelM :=
  { primaryKey := "id",
    attributes :=
      [("id", ⟨some "id", "number", none, false⟩),
       ("ok", ⟨some "ok", "boolean", none, false⟩),
       ("blob", ⟨some "blob", "json", none, false⟩)] }

def wit6Rec : List (String × RVal) :=
  [("id", .js (.jnum 7)),
   ("ok", .js (.jbool true)),
   ("blob", .js (.jobj (.ocons "a" (.jnum (-2)) (.ocons "b" (.jstr "x\"y") .onil))))]

/-! ## The error normalizer

`processNativeError` (the error normalizer) classifies a native
better-sqlite3 error by its string error code and stamps a `footprint` on
the result.  The regular expression
`UNIQUE constraint failed: \w+.(\w+)` is embedded as an explicit scan. -/
/-- A native driver error as the normalizer reads it: string code, message,
stack rendering, and whether a `footprint` property is already present. -/
structure NativeErr where
  code : String
  message : String
  stack : String
  hasFootprint : Bool
deriving DecidableEq

/-- The `footprint.identity` (plus keys) stamped on normalized errors. -/
inductive Footprint where
  | notUnique (keys : List String)
  | violation
  | busy
  | readonly
  | full
  | catchall
deriving DecidableEq

/-- A normalized error: either the consistency-violation `Error` for a
pre-existing footprint, or a flaverr-built error carrying name, code,
message and footprint. -/
inductive NormalizedErr where
  | consistency (msg : String)
  | flav (name code message : String) (fp : Footprint)
deriving DecidableEq

/-- JS regex `\w`: ASCII letter, digit or underscore. -/
def isWordChar (c : Char) : Bool := c.isAlphanum || c = Char.ofNat 95

/-- The literal part of the uniqueness regex. -/
def uniqLit : List Char := "UNIQUE constraint failed: ".data

/-- Match `UNIQUE constraint failed: \w+.(\w+)` at the head of the input,
returning the captured column name. -/
def matchUniqueAt (cs : List Char) : Option String :=
  if uniqLit.isPrefixOf cs then
    let rest := cs.drop uniqLit.length
    let w1 := rest.takeWhile isWordChar
    let rest2 := rest.dropWhile isWordChar
    if w1.isEmpty then none
    else
      match rest2 with
      | c :: rest3 =>
          if c = Char.ofNat 46 then
            let w2 := rest3.takeWhile isWordChar
            if w2.isEmpty then none else some (String.mk w2)
          else none
      | [] => none
  else none

/-- Leftmost match of the uniqueness regex (`String.prototype.match`). -/
def scanUnique : List Char → Option String
  | [] => none
  | c :: rest =>
      match matchUniqueAt (c :: rest) with
      | some s => some s
      | none => scanUnique rest

/-- `match && match[1] ? [match[1]] : []`. -/
def uniqueKeys (message : String) : List String :=
  match scanUnique message.data with
  | some k => [k]
  | none => []

/-- Shallow embedding of `processNativeError` (the error normalizer): a
pre-existing footprint yields a consistency-violation `Error`; otherwise
the error is classified by its string code, with the two constraint codes
sharing the uniqueness check. -/
def processNativeError (err : NativeErr) : NormalizedErr :=
  if err.hasFootprint then
    .consistency ("Consistency violation: Raw error from SQLite arrived with a pre-existing `footprint` property! Should never happen... but maybe this error didn\x27t actually come from SQLite..? Here\x27s the error:\n\n```\n"
      ++ err.stack ++ "\n```\n")
  else if err.code = "SQLITE_CONSTRAINT" ∨ err.code = "SQLITE_CONSTRAINT_UNIQUE" then
    if err.code = "SQLITE_CONSTRAINT_UNIQUE"
        ∨ jsIncludes err.message "UNIQUE constraint failed" = true then
      .flav "UsageError" "E_UNIQUE" err.message (.notUnique (uniqueKeys err.message))
    else .flav "UsageError" "E_CONSTRAINT" err.message .violation
  else if err.code = "SQLITE_BUSY" then .flav "UsageError" "E_BUSY" err.message .busy
  else if err.code = "SQLITE_READONLY" then
    .flav "UsageError" "E_READONLY" err.message .readonly
  else if err.code = "SQLITE_FULL" then .flav "UsageError" "E_FULL" err.message .full
  else .flav "Error" "E_UNKNOWN" err.message .catchall

def wit7Err : NativeErr :=
  { code := "SQLITE_CONSTRAINT_UNIQUE",
    message := "UNIQUE constraint failed: user.email",
    stack := "",
    hasFootprint := false }

/-! ## A row-level engine model and the sum operation

The SQLite engine itself is not part of this repository.  Modelled from the
spec: a table is a list of rows; the engine applies the compiled criteria
to each row, and `SELECT COALESCE(SUM(col), 0)` returns the sum of the
column over the matching rows, with `0` substituted when `SUM` is `NULL`
(no non-null addend). -/
/-- A stored table row. -/
abbrev Row := List (String × SqlVal)

/-- Column read on a row. -/
def getRowVal : List (String × SqlVal) → String → Option SqlVal
  | [], _ => none
  | (k, v) :: rest, key => if k = key then some v else getRowVal rest key

/-- Modelled from the spec: SQL `=` (comparisons with `NULL` are not
true). -/
def sqlEqB : Option SqlVal → SqlVal → Bool
  | some (.vint m), .vint n => decide (m = n)
  | some (.vstr s), .vstr t => decide (s = t)
  | some (.vbool a), .vbool b => decide (a = b)
  | _, _ => false

/-- Modelled from the spec: SQL `<`. -/
def sqlLtB : Option SqlVal → SqlVal → Bool
  | some (.vint m), .vint n => decide (m < n)
  | some (.vstr s), .vstr t => decide (s < t)
  | _, _ => false

/-- Modelled from the spec: SQL `<=`. -/
def sqlLeB : Option SqlVal → SqlVal → Bool
  | some (.vint m), .vint n => decide (m ≤ n)
  | some (.vstr s), .vstr t => decide (s ≤ t)
  | _, _ => false

/-- Modelled from the spec: SQL `>`. -/
def sqlGtB : Option SqlVal → SqlVal → Bool
  | some (.vint m), .vint n => decide (n < m)
  | some (.vstr s), .vstr t => decide (t < s)
  | _, _ => false

/-- Modelled from the spec: SQL `>=`. -/
def sqlGeB : Option SqlVal → SqlVal → Bool
  | some (.vint m), .vint n => decide (n ≤ m)
  | some (.vstr s), .vstr t => decide (t ≤ s)
  | _, _ => false

/-- Modelled from the spec: SQL `!=` (not true on `NULL`). -/
def sqlNeB : Option SqlVal → SqlVal → Bool
  | none, _ => false
  | some .vnull, _ => false
  | some _, .vnull => false
  | some a, b => !(decide (a = b))

/-- Modelled from the spec: SQL `IN`. -/
def sqlInB (cell : Option SqlVal) (vs : List SqlVal) : Bool :=
  vs.any (fun v => sqlEqB cell v)

/-- Modelled from the spec: SQL `LIKE` with `%` wildcards (fueled so it
reduces in the kernel). -/
def likeMatch : Nat → List Char → List Char → Bool
  | 0, p, s => p.isEmpty && s.isEmpty
  | _ + 1, [], s => s.isEmpty
  | fuel + 1, c :: p, s =>
      if c = Char.ofNat 37 then
        likeMatch fuel p s ||
          (match s with
           | [] => false
           | _ :: s2 => likeMatch fuel (c :: p) s2)
      else
        match s with
        | [] => false
        | d :: s2 => decide (c = d) && likeMatch fuel p s2

/-- Modelled from the spec: the `like` modifier on a text cell. -/
def sqlLikeB (pattern : String) (cell : Option SqlVal) : Bool :=
  match cell with
  | some (.vstr s) =>
      likeMatch (pattern.data.length + s.data.length + 1) pattern.data s.data
  | _ => false

/-- Modelled from the spec: whether one modifier holds of a cell. -/
def opMatches (cell : Option SqlVal) (op : String) (v : OpVal) : Bool :=
  match part3Classify op with
  | .ltK => match v with | .scalar x => sqlLtB cell x | .arrv _ => false
  | .leK => match v with | .scalar x => sqlLeB cell x | .arrv _ => false
  | .gtK => match v with | .scalar x => sqlGtB cell x | .arrv _ => false
  | .geK => match v with | .scalar x => sqlGeB cell x | .arrv _ => false
  | .neK => match v with | .scalar x => sqlNeB cell x | .arrv _ => false
  | .ninK => match v with | .arrv vs => !(sqlInB cell vs) | .scalar _ => false
  | .inK => match v with | .arrv vs => sqlInB cell vs | .scalar _ => false
  | .likeK => match v with | .scalar (.vstr pat) => sqlLikeB pat cell | _ => false
  | .otherK => false

/-- Modelled from the spec: whether a field constraint holds of a row. -/
def fieldMatches (r : List (String × SqlVal)) (k : String) : FieldVal → Bool
  | .lit v => sqlEqB (getRowVal r k) v
  | .ops ps => ps.all (fun p => opMatches (getRowVal r k) p.1 p.2)

mutual
/-- Modelled from the spec: whether a row satisfies a `where` tree (entries
conjoined; `and`/`or` entries combine their branches). -/
def rowMatchesW (r : List (String × SqlVal)) : WhereNode → Bool
  | .node entries => rowMatchesE r entries
def rowMatchesE (r : List (String × SqlVal)) : EntryList → Bool
  | .nil => true
  | .cons k v rest =>
      (if k == ("and") || k == ("or") then
        match v with
        | .branches ws => if k == ("or") then rowMatchesAny r ws else rowMatchesAll r ws
        | .field _ => false
      else
        match v with
        | .field c => fieldMatches r k c
        | .branches _ => false) && rowMatchesE r rest
def rowMatchesAll (r : List (String × SqlVal)) : NodeList → Bool
  | .nil => true
  | .cons w rest => rowMatchesW r w && rowMatchesAll r rest
def rowMatchesAny (r : List (String × SqlVal)) : NodeList → Bool
  | .nil => false
  | .cons w rest => rowMatchesW r w || rowMatchesAny r rest
end

/-- Modelled from the spec: `SUM(col)` — `NULL` (`none`) when no addend,
ignoring non-numeric and `NULL` cells. -/
def sumField (field : String) : List Row → Option Int
  | [] => none
  | r :: rest =>
      match getRowVal r field, sumField field rest with
      | some (.vint n), some s => some (n + s)
      | some (.vint n), none => some n
      | _, some s => some s
      | _, none => none

/-- Modelled from the spec: `COALESCE(SUM(col), 0)`. -/
def coalesceSum (field : String) (rows : List Row) : Int :=
  (sumField field rows).getD 0

/-- A registered model as the sum operation reads it. -/
structure DryModel where
  tableName : String
deriving DecidableEq

/-- The model lookup loop at the top of the sum operation. -/
def findModel : List DryModel → String → Option DryModel
  | [], _ => none
  | m :: rest, t => if m.tableName = t then some m else findModel rest t

/-- Shallow embedding of the sum operation (its machine `fn`): model lookup,
`buildSqliteWhereClause`, the `COALESCE(SUM(...), 0)` query text, and the
engine's reply on the given table rows.  Returns the SQL text together with
the scalar handed to `exits.success`. -/
def sumFn (models : List DryModel) (tableName numericFieldName : String)
    (whereC : WhereNode) (meta : Option QMeta) (rows : List Row) :
    Except String (String × Int) :=
  match findModel models tableName with
  | none =>
      .error ("No model with that tableName (`" ++ tableName
        ++ "`) has been registered with this adapter. Were any unexpected modifications made to the stage 3 query? Could the adapter\x27s internal state have been corrupted? (This error is usually due to a bug in this adapter\x27s implementation.)")
  | some _ =>
      match buildSqliteWhereClause whereC meta with
      | .error e => .error e
      | .ok whereClause =>
          let base := "SELECT COALESCE(SUM(`" ++ numericFieldName
            ++ "`), 0) as total FROM `" ++ tableName ++ "`"
          let sumQuery := if whereClause = "" then base
            else base ++ " WHERE " ++ whereClause
          .ok (sumQuery, coalesceSum numericFieldName
            (rows.filter (fun r => rowMatchesW r whereC)))

def wit10Where : WhereNode := .node (.cons "name" (.field (.lit (.vstr "bob"))) .nil)

def wit10Rows : List Row :=
  [[("name", .vstr "al"), ("age", .vint 3)],
   [("name", .vstr "cy"), ("age", .vint 5)]]

/-! ## The join operation's control flow

`join.js` compiles and runs the parent statement first, and only reaches
the instruction-processing and child-statement phase when the query has a
`joins` key and the parent produced at least one row.  That later phase
leans on the external waterline-utils query cache; it is abstracted here as
the `childPhase` argument, which receives the parent rows and returns the
combined records together with the trace of child queries it executed. -/
/-- Shallow embedding of the join machine's `fn` (`join.js`): the database
is a function from compiled SQL and bindings to rows; the result pairs the
records handed to `exits.success` with the trace of executed queries
(parent first). -/
def joinFn (hasJoins : Bool) (parentStatement : Statement)
    (db : String → List OpVal → List Row)
    (childPhase : List Row → List Row × List String) :
    List Row × List String :=
  let compiled := compileStatement parentStatement
  let parentResults := db compiled.1 compiled.2
  if !hasJoins || parentResults.isEmpty then
    (parentResults, [compiled.1])
  else
    let rest := childPhase parentResults
    (rest.1, compiled.1 :: rest.2)

/-! ## The createEach operation

`create-each-record.js` batch-inserts N records with one multi-row INSERT
and, with fetch enabled, re-selects them through the contiguous rowid range
ending at `lastInsertRowid`.  Modelled from the spec: the engine is a
single-writer table whose integer primary key aliases the rowid; an insert
assigns consecutive rowids starting at `nextRowid`, and a rowid-range
select returns the stored rows in rowid order. -/
/-- The single-writer engine state: the primary-key/rowid column name, the
next rowid the auto-increment will assign, and the stored rows (in
insertion, i.e. rowid, order). -/
structure Engine where
  pkCol : String
  nextRowid : Int
  rows : List (Int × List (String × RVal))

/-- Modelled from the spec: storing a record assigns the rowid to the
integer-primary-key column when the record does not set it. -/
def storeWithPk (pkCol : String) (rid : Int) (r : List (String × RVal)) :
    List (String × RVal) :=
  match getVal r pkCol with
  | none => setVal r pkCol (.js (.jnum rid))
  | some _ => r

/-- Modelled from the spec: insert one record at the next rowid. -/
def engineInsertOne (e : Engine) (r : List (String × RVal)) : Engine :=
  { e with
      nextRowid := e.nextRowid + 1,
      rows := e.rows ++ [(e.nextRowid, storeWithPk e.pkCol e.nextRowid r)] }

/-- Modelled from the spec: a multi-row insert stores the records in
order. -/
def engineInsertAll (e : Engine) : List (List (String × RVal)) → Engine
  | [] => e
  | r :: rest => engineInsertAll (engineInsertOne e r) rest

/-- Modelled from the spec:
`SELECT * FROM t WHERE rowid >= a AND rowid <= b ORDER BY rowid`. -/
def engineSelectRange (e : Engine) (a b : Int) : List (List (String × RVal)) :=
  (e.rows.filter (fun p => decide (a ≤ p.1) && decide (p.1 ≤ b))).map Prod.snd

/-- A registered model as createEach reads it. -/
structure TModel where
  tableName : String
  wl : WLModelM

/-- The model lookup loop at the top of createEach. -/
def findTModel : List TModel → String → Option TModel
  | [], _ => none
  | m :: rest, t => if m.tableName = t then some m else findTModel rest t

/-- The `forEach` calling `reifyValuesToSet` on every new record (an
exception aborts the loop). -/
def reifyEach (wl : WLModelM) : List (List (String × RVal)) →
    Except String (List (List (String × RVal)))
  | [] => .ok []
  | r :: rest =>
      match reifyValuesToSet r wl with
      | .error e => .error e
      | .ok r2 =>
          match reifyEach wl rest with
          | .error e => .error e
          | .ok rest2 => .ok (r2 :: rest2)

/-- `Object.keys(record)`. -/
def recKeys (r : List (String × RVal)) : List String := r.map Prod.fst

/-- The batch-insert validation: some record has a column set differing
from the first record's. -/
def ceInvalid (recs : List (List (String × RVal))) : Bool :=
  match recs with
  | [] => false
  | first :: _ =>
      recs.any (fun r =>
        !((recKeys r).length == (recKeys first).length) ||
          !((recKeys r).all (fun c => (recKeys first).contains c)))

/-- The multi-row INSERT text built by createEach. -/
def ceInsertSql (tableName : String) (cols : List String) (n : Nat) : String :=
  "INSERT INTO `" ++ tableName ++ "` ("
    ++ joinSep (", ") (cols.map (fun c => "`" ++ c ++ "`"))
    ++ ") VALUES "
    ++ joinSep (", ")
      (List.replicate n ("(" ++ joinSep (", ") (cols.map (fun _ => "?")) ++ ")"))

/-- The rowid-range re-select text. -/
def ceSelectSql (tableName : String) : String :=
  "SELECT * FROM `" ++ tableName ++ "` WHERE rowid >= ? AND rowid <= ? ORDER BY rowid"

/-- The flattened binding list of the batch insert. -/
def ceAllValues (cols : List String) (recs : List (List (String × RVal))) : List RVal :=
  (recs.map (fun r => cols.map (fun c => (getVal r c).getD (.js .jnull)))).flatten

/-- The `forEach` calling `processNativeRecord` on every fetched record. -/
def processEachRec (wl : WLModelM) : List (List (String × RVal)) →
    Except String (List (List (String × RVal)))
  | [] => .ok []
  | r :: rest =>
      match processNativeRecord r wl with
      | .error e => .error e
      | .ok r2 =>
          match processEachRec wl rest with
          | .error e => .error e
          | .ok rest2 => .ok (r2 :: rest2)

/-- The post-select consistency check, then the per-record
`processNativeRecord` pass. -/
def ceFetchCheck (wl : WLModelM) (recordCount : Nat)
    (phRecords : List (List (String × RVal))) :
    Except String (List (List (String × RVal))) :=
  if ¬(phRecords.length = recordCount) then
    .error ("Consistency violation: Expected " ++ String.mk (natChars recordCount)
      ++ " records but retrieved " ++ String.mk (natChars phRecords.length))
  else processEachRec wl phRecords

/-- Shallow embedding of createEach (`create-each-record.js`): model lookup,
per-record reification, batch validation, one multi-row INSERT, and — with
fetch enabled — the rowid-range re-select, consistency check and
per-record processing.  Returns the optional fetched records, the new
engine state and the executed queries with their bindings. -/
def createEachFn (models : List TModel) (tableName : String)
    (newRecords : List (List (String × RVal))) (fetch : Bool) (e : Engine) :
    Except String (Option (List (List (String × RVal))) × Engine
      × List (String × List RVal)) :=
  match findTModel models tableName with
  | none =>
      .error ("No model with that tableName (`" ++ tableName
        ++ "`) has been registered with this adapter. Were any unexpected modifications made to the stage 3 query? Could the adapter\x27s internal state have been corrupted? (This error is usually due to a bug in this adapter\x27s implementation.)")
  | some tm =>
      match reifyEach tm.wl newRecords with
      | .error e1 => .error e1
      | .ok recs =>
          match recs with
          | [] => .error "Cannot create records: no data provided or invalid data format"
          | first :: _ =>
              if ceInvalid recs then
                .error "All records must have the same columns for batch insert"
              else
                let cols := recKeys first
                let sql := ceInsertSql tableName cols recs.length
                let e2 := engineInsertAll e recs
                let trace1 := [(sql, ceAllValues cols recs)]
                if !fetch then .ok (none, e2, trace1)
                else
                  let lastInsertRowid := e2.nextRowid - 1
                  let recordCount := recs.length
                  let firstInsertRowid := lastInsertRowid - recordCount + 1
                  let phRecords := engineSelectRange e2 firstInsertRowid lastInsertRowid
                  match ceFetchCheck tm.wl recordCount phRecords with
                  | .error msg => .error msg
                  | .ok processed =>
                      .ok (some processed, e2,
                        trace1 ++ [(ceSelectSql tableName,
                          [.js (.jnum firstInsertRowid), .js (.jnum lastInsertRowid)])])

/-- The rows a multi-row insert appends: consecutive rowids from `rid`. -/
def storedList (pkCol : String) (rid : Int) :
    List (List (String × RVal)) → List (Int × List (String × RVal))
  | [] => []
  | r :: rest => (rid, storeWithPk pkCol rid r) :: storedList pkCol (rid + 1) rest

def wit8E : Engine := ⟨"id", 1, []⟩

def wit8New : List (List (String × RVal)) :=
  [[("ok", RVal.js (.jbool true))], [("ok", RVal.js (.jbool false))]]

def wit8Recs : List (List (String × RVal)) :=
  [[("ok", RVal.js (.jnum 1))], [("ok", RVal.js (.jnum 0))]]

/-! ## The update operation

The update machine wraps its work in an explicit transaction; with fetch
enabled it first selects the primary keys of the matching rows
(`affectedIds`), runs the UPDATE, and — when the values to set assign the
primary key while more than one row was matched — rolls back with a
consistency-violation error.  Modelled from the spec: the engine applies
the UPDATE verbatim to every matching row (the storage engine's own
uniqueness enforcement is outside this model), and a rolled-back
transaction leaves the stored rows unchanged. -/
/-- Modelled from the spec: a marshaler value as a SQL comparison value
(objects and dates do not compare). -/
def cellToSql : RVal → Option SqlVal
  | .js .jnull => some .vnull
  | .js (.jbool b) => some (.vbool b)
  | .js (.jnum n) => some (.vint n)
  | .js (.jstr s) => some (.vstr s)
  | _ => none

/-- A stored cell read as a SQL comparison value. -/
def getCellSql (r : List (String × RVal)) (k : String) : Option SqlVal :=
  match getVal r k with
  | some v => cellToSql v
  | none => none

/-- Modelled from the spec: whether a field constraint holds of a stored
row. -/
def fieldMatchesR (r : List (String × RVal)) (k : String) : FieldVal → Bool
  | .lit v => sqlEqB (getCellSql r k) v
  | .ops ps => ps.all (fun p => opMatches (getCellSql r k) p.1 p.2)

mutual
/-- Modelled from the spec: whether a stored row satisfies a `where`
tree. -/
def rowMatchesRW (r : List (String × RVal)) : WhereNode → Bool
  | .node entries => rowMatchesRE r entries
def rowMatchesRE (r : List (String × RVal)) : EntryList → Bool
  | .nil => true
  | .cons k v rest =>
      (if k == ("and") || k == ("or") then
        match v with
        | .branches ws => if k == ("or") then rowMatchesRAny r ws else rowMatchesRAll r ws
        | .field _ => false
      else
        match v with
        | .field c => fieldMatchesR r k c
        | .branches _ => false) && rowMatchesRE r rest
def rowMatchesRAll (r : List (String × RVal)) : NodeList → Bool
  | .nil => true
  | .cons w rest => rowMatchesRW r w && rowMatchesRAll r rest
def rowMatchesRAny (r : List (String × RVal)) : NodeList → Bool
  | .nil => false
  | .cons w rest => rowMatchesRW r w || rowMatchesRAny r rest
end

/-- Modelled from the spec: what the driver can bind as a statement
parameter (numbers, strings and null; not booleans, objects or dates). -/
def bindableR : RVal → Bool
  | .js .jnull => true
  | .js (.jnum _) => true
  | .js (.jstr _) => true
  | _ => false

/-- Applying the SET clause to one row. -/
def applySetR (pairs : List (String × RVal)) (r : List (String × RVal)) :
    List (String × RVal) :=
  pairs.foldl (fun acc p => setVal acc p.1 p.2) r

/-- A registered model as the update operation reads it. -/
structure UModel where
  tableName : String
  wl : WLModelM

/-- `dryOrm.models.find(model => model.tableName === tableName)`. -/
def findUModel : List UModel → String → Option UModel
  | [], _ => none
  | m :: rest, t => if m.tableName = t then some m else findUModel rest t

/-- The tail of the update after the primary-key checks: commit (returning
nothing, or the re-fetched and processed records), rolling back if record
processing aborts. -/
def updateTail (wl : WLModelM) (fetch : Bool)
    (rows newRows : List (List (String × RVal)))
    (pkColumnName : String) (affected : List (Option RVal)) :
    (Except String (Option (List (List (String × RVal)))))
      × List (List (String × RVal)) × List String :=
  if !fetch then (.ok none, newRows, ["BEGIN TRANSACTION", "COMMIT"])
  else
    let phRecords := newRows.filter (fun r => affected.contains (getVal r pkColumnName))
    match processEachRec wl phRecords with
    | .error e => (.error e, rows, ["BEGIN TRANSACTION", "ROLLBACK"])
    | .ok processed =>
        (.ok (some processed), newRows, ["BEGIN TRANSACTION", "COMMIT"])

/-- Shallow embedding of the update machine's `fn`: model lookup,
reification of the values to set, WHERE compilation, then the transaction:
the `affectedIds` select (only with fetch enabled), the UPDATE itself, the
changed-primary-key bookkeeping with its multiple-rows consistency check,
and commit or rollback.  Both statement templates interpolate the compiled
clause unguarded (`... WHERE ${sqliteWhere}`), so an empty compiled clause
makes the first prepared statement of the transaction malformed: it fails
at prepare and the catch rolls back.  Returns the exit value, the
resulting stored rows and the executed transaction commands. -/
def updateFn (models : List UModel) (tableName : String)
    (valuesToSet : List (String × RVal)) (whereC : WhereNode) (meta : Option QMeta)
    (fetch : Bool) (rows : List (List (String × RVal))) :
    (Except String (Option (List (List (String × RVal)))))
      × List (List (String × RVal)) × List String :=
  match findUModel models tableName with
  | none =>
      (.error ("No model with that tableName (`" ++ tableName
        ++ "`) has been registered with this adapter. Were any unexpected modifications made to the stage 3 query? Could the adapter\x27s internal state have been corrupted? (This error is usually due to a bug in this adapter\x27s implementation.)"),
       rows, [])
  | some um =>
      match lookupAttr um.wl.attributes um.wl.primaryKey with
      | none =>
          (.error "TypeError: Cannot read properties of undefined (reading \x27columnName\x27)",
           rows, [])
      | some pkDef =>
          let pkColumnName :=
            match pkDef.columnName with
            | some c => c
            | none => "undefined"
          match reifyValuesToSet valuesToSet um.wl with
          | .error e1 => (.error e1, rows, [])
          | .ok vts =>
              match buildSqliteWhereClause whereC meta with
              | .error e2 => (.error e2, rows, [])
              | .ok sqliteWhere =>
                  if sqliteWhere = "" then
                    (.error "SqliteError: incomplete input",
                     rows, ["BEGIN TRANSACTION", "ROLLBACK"])
                  else
                  let affectedIds : List (Option RVal) :=
                    if fetch then
                      (rows.filter (fun r => rowMatchesRW r whereC)).map
                        (fun r => getVal r pkColumnName)
                    else []
                  if ¬(vts.all (fun p => bindableR p.2) = true) then
                    (.error "TypeError: SQLite3 can only bind numbers, strings, bigints, buffers, and null",
                     rows, ["BEGIN TRANSACTION", "ROLLBACK"])
                  else
                    let newRows := rows.map (fun r =>
                      if rowMatchesRW r whereC then applySetR vts r else r)
                    if ¬(getVal vts pkColumnName = none) ∧ affectedIds.length = 1 then
                      updateTail um.wl fetch rows newRows pkColumnName
                        [getVal vts pkColumnName]
                    else if ¬(getVal vts pkColumnName = none) ∧ 1 < affectedIds.length then
                      (.error "Consistency violation: Updated multiple records to have the same primary key value. (PK values should be unique!)",
                       rows, ["BEGIN TRANSACTION", "ROLLBACK"])
                    else
                      updateTail um.wl fetch rows newRows pkColumnName affectedIds

theorem toDigitsLE_eq (fuel n : Nat) (h : n ≤ fuel) :
    toDigitsLE fuel n = Nat.digits 10 n := by
  induction fuel generalizing n with
  | zero => interval_cases n; simp [toDigitsLE]
  | succ f ih =>
    by_cases hn : n = 0
    · simp [toDigitsLE, hn]
    · rw [toDigitsLE, if_neg hn, Nat.digits_def' (by norm_num) (Nat.pos_of_ne_zero hn), ih]
      exact Nat.le_of_lt_succ
        (Nat.lt_of_lt_of_le (Nat.div_lt_self (Nat.pos_of_ne_zero hn) (by norm_num)) h)

theorem countQ_append (s t : String) : countQ (s ++ t) = countQ s + countQ t := by
  simp [countQ, String.data_append, List.countP_append]

theorem countQ_of_noQ (s : String) (h : noQ s = true) : countQ s = 0 := by
  simp only [countQ, noQ, List.all_eq_true] at *
  rw [List.countP_eq_zero]
  intro c hc
  simpa using h c hc

theorem countQ_mk (l : List Char) : countQ (String.mk l) = l.countP (fun c => c == qmark) := rfl

theorem noQ_digitChar (d : Nat) (hd : d < 10) : (Nat.digitChar d == qmark) = false := by
  interval_cases d <;> decide

theorem countQ_natChars (n : Nat) :
    (natChars n).countP (fun c => c == qmark) = 0 := by
  rw [List.countP_eq_zero]
  intro c hc
  simp only [natChars] at hc
  by_cases hn : n = 0
  · simp [hn] at hc
    simp [hc]
    decide
  · simp only [if_neg hn, List.mem_reverse, List.mem_map] at hc
    obtain ⟨d, hd, rfl⟩ := hc
    have hd10 : d < 10 := by
      rw [toDigitsLE_eq n n (le_refl n)] at hd
      exact Nat.digits_lt_base (by norm_num) hd
    simpa using noQ_digitChar d hd10

theorem countQ_intToString (n : Int) : countQ (intToString n) = 0 := by
  cases n with
  | ofNat m => simpa [intToString, countQ_mk] using countQ_natChars m
  | negSucc m =>
    simp only [intToString, countQ_mk, List.countP_cons]
    have := countQ_natChars (m + 1)
    simp [this]
    decide

theorem countQ_joinSep (sep : String) (l : List String) (hsep : countQ sep = 0) :
    countQ (joinSep sep l) = (l.map countQ).sum := by
  match l with
  | [] => simp [joinSep, countQ]
  | [x] => simp [joinSep]
  | x :: y :: rest =>
    have ih := countQ_joinSep sep (y :: rest) hsep
    simp only [joinSep, countQ_append, hsep, List.map_cons, List.sum_cons] at *
    omega

/-! ## Helper lemmas about the where compiler -/
theorem str_eq_iff_data (s t : String) : s = t ↔ s.data = t.data := by
  constructor
  · intro h; rw [h]
  · intro h; cases s; cases t; exact congrArg String.mk h

theorem append_ne_empty_right (s t : String) (h : t ≠ "") : s ++ t ≠ "" := by
  intro he
  apply h
  rw [str_eq_iff_data] at he ⊢
  rw [String.data_append] at he
  exact (List.append_eq_nil.mp he).2

theorem countQ_placeholders_rep (n : Nat) :
    countQ (joinSep (", ") (List.replicate n ("?"))) = n := by
  rw [countQ_joinSep _ _ (by decide)]
  have hq : countQ ("?") = 1 := by decide
  simp [List.map_replicate, hq, List.sum_replicate]

theorem bwcOp1_ne (col op : String) (ov : OpVal) :
    ∀ s ∈ (bwcOp1 col op ov).1, s ≠ "" := by
  intro s hs
  cases ov <;> cases hk : classifyOp op <;>
    simp only [bwcOp1, hk] at hs <;>
    (try split at hs) <;>
    (try simp only [List.mem_singleton, List.not_mem_nil] at hs) <;>
    first
      | exact hs.elim
      | (subst hs; exact append_ne_empty_right _ _ (by decide))

theorem bwcOp1_empty (col op : String) (ov : OpVal)
    (h : (bwcOp1 col op ov).1 = []) : (bwcOp1 col op ov).2 = [] := by
  cases ov <;> cases hk : classifyOp op <;>
    simp only [bwcOp1, hk] at h ⊢ <;>
    (try split at h) <;> simp_all

theorem bwcOp1_spec (col op : String) (ov : OpVal) :
    (bwcOp1 col op ov).2 = specOp1 op ov := by
  cases ov <;> cases hk : classifyOp op <;>
    simp [bwcOp1, specOp1, hk] <;>
    (try (split <;> rfl))

theorem bwcOp1_count (col op : String) (ov : OpVal) (hcol : countQ col = 0) :
    ((bwcOp1 col op ov).1.map countQ).sum = (bwcOp1 col op ov).2.length := by
  cases ov <;> cases hk : classifyOp op <;>
    simp only [bwcOp1, hk] <;>
    (try split) <;>
    simp [countQ_append, hcol, countQ_placeholders_rep,
          countQ_of_noQ (" IN (") (by decide), countQ_of_noQ (" NOT IN (") (by decide),
          countQ_of_noQ (")") (by decide)] <;>
    (try decide)

theorem bwcOps_ne (col : String) (ps : List (String × OpVal)) :
    ∀ s ∈ (bwcOps col ps).1, s ≠ "" := by
  induction ps with
  | nil => simp [bwcOps]
  | cons p rest ih =>
    obtain ⟨op, ov⟩ := p
    intro s hs
    simp only [bwcOps, List.mem_append] at hs
    rcases hs with hs | hs
    · exact bwcOp1_ne col op ov s hs
    · exact ih s hs

theorem bwcOps_empty (col : String) (ps : List (String × OpVal))
    (h : (bwcOps col ps).1 = []) : (bwcOps col ps).2 = [] := by
  induction ps with
  | nil => simp [bwcOps]
  | cons p rest ih =>
    obtain ⟨op, ov⟩ := p
    simp only [bwcOps, List.append_eq_nil] at h ⊢
    exact ⟨bwcOp1_empty col op ov h.1, ih h.2⟩

theorem bwcOps_spec (col : String) (ps : List (String × OpVal)) :
    (bwcOps col ps).2 = specOps ps := by
  induction ps with
  | nil => simp [bwcOps, specOps]
  | cons p rest ih =>
    obtain ⟨op, ov⟩ := p
    simp only [bwcOps, specOps]
    rw [bwcOp1_spec, ih]

theorem bwcOps_count (col : String) (ps : List (String × OpVal)) (hcol : countQ col = 0) :
    ((bwcOps col ps).1.map countQ).sum = (bwcOps col ps).2.length := by
  induction ps with
  | nil => simp [bwcOps]
  | cons p rest ih =>
    obtain ⟨op, ov⟩ := p
    simp only [bwcOps, List.map_append, List.sum_append, List.length_append]
    rw [bwcOp1_count col op ov hcol, ih]

theorem joinSep_eq_empty (sep : String) (l : List String)
    (hne : ∀ s ∈ l, s ≠ "") (he : joinSep sep l = "") : l = [] := by
  match l with
  | [] => rfl
  | [x] => exact absurd he (hne x (by simp))
  | x :: y :: rest =>
    exfalso
    simp only [joinSep] at he
    rw [str_eq_iff_data, String.data_append, String.data_append] at he
    simp only [List.append_eq_nil] at he
    exact hne x (by simp) (by rw [str_eq_iff_data]; simpa using he.1.1)

theorem mem_splitChars_sub (needle : List Char) :
    ∀ (fuel : Nat) (cs : List Char), ∀ p ∈ splitChars needle fuel cs, ∀ c ∈ p, c ∈ cs := by
  intro fuel
  induction fuel with
  | zero =>
    intro cs p hp c hc
    cases cs with
    | nil => simp [splitChars] at hp; subst hp; simp at hc
    | cons x rest =>
      simp [splitChars] at hp
      subst hp
      exact hc
  | succ f ih =>
    intro cs p hp c hc
    cases cs with
    | nil => simp [splitChars] at hp; subst hp; simp at hc
    | cons x rest =>
      simp only [splitChars] at hp
      split_ifs at hp with hpre
      · rcases List.mem_cons.mp hp with rfl | hp
        · simp at hc
        · exact List.mem_of_mem_drop (ih _ p hp c hc)
      · rcases hrec : splitChars needle f rest with _ | ⟨h0, t0⟩
        · rw [hrec] at hp
          simp at hp
          subst hp
          simp at hc
          simp [hc]
        · rw [hrec] at hp
          rcases List.mem_cons.mp hp with rfl | hp
          · rcases List.mem_cons.mp hc with rfl | hc
            · simp
            · have : h0 ∈ splitChars needle f rest := by
                rw [hrec]; exact List.mem_cons_self h0 t0
              exact List.mem_cons_of_mem x (ih rest h0 this c hc)
          · have : p ∈ splitChars needle f rest := by
              rw [hrec]; exact List.mem_cons_of_mem h0 hp
            exact List.mem_cons_of_mem x (ih rest p this c hc)

theorem noQ_of_subchars (part k : String)
    (hsub : ∀ c ∈ part.data, c ∈ k.data) (h : noQ k = true) : noQ part = true := by
  simp only [noQ, List.all_eq_true] at *
  intro c hc
  exact h c (hsub c hc)

theorem countQ_of_mem_jsSplitDot (k part : String) (h : noQ k = true)
    (hm : part ∈ jsSplitDot k) : countQ part = 0 := by
  simp only [jsSplitDot, List.mem_map] at hm
  obtain ⟨p, hp, rfl⟩ := hm
  rw [countQ_mk, List.countP_eq_zero]
  intro c hc
  have hck : c ∈ k.data := mem_splitChars_sub _ _ k.data p hp c hc
  simp only [noQ, List.all_eq_true] at h
  simpa using h c hck

theorem countQ_of_mem_jsSplitAs (k part : String) (h : noQ k = true)
    (hm : part ∈ jsSplitAs k) : countQ part = 0 := by
  simp only [jsSplitAs, List.mem_map] at hm
  obtain ⟨p, hp, rfl⟩ := hm
  rw [countQ_mk, List.countP_eq_zero]
  intro c hc
  have hck : c ∈ k.data := mem_splitChars_sub _ _ k.data p hp c hc
  simp only [noQ, List.all_eq_true] at h
  simpa using h c hck

theorem countQ_jsTrim (s : String) (h : countQ s = 0) : countQ (jsTrim s) = 0 := by
  simp only [jsTrim, countQ_mk, countQ] at *
  rw [List.countP_eq_zero] at *
  intro c hc
  apply h c
  simp only [List.mem_reverse] at hc
  have h1 := List.dropWhile_sublist (l := (s.data.dropWhile (fun c => c.isWhitespace)).reverse)
    (p := fun c => c.isWhitespace)
  have h2 := List.dropWhile_sublist (l := s.data) (p := fun c => c.isWhitespace)
  have hm1 := h1.mem hc
  simp only [List.mem_reverse] at hm1
  exact h2.mem hm1

theorem countQ_quoteIdent (s : String) : countQ (quoteIdent s) = countQ s := by
  have hb : (btick == qmark) = false := by decide
  simp [quoteIdent, countQ_mk, List.countP_cons, List.countP_append, hb, countQ]

theorem countQ_fmtColKey (k : String) (h : noQ k = true) : countQ (fmtColKey k) = 0 := by
  have hk0 : countQ k = 0 := countQ_of_noQ k h
  unfold fmtColKey
  split_ifs with hi
  · rcases hsp : jsSplitDot k with _ | ⟨t, _ | ⟨c2, _ | _⟩⟩
    · exact hk0
    · exact hk0
    · show countQ (quoteIdent t ++ "." ++ quoteIdent c2) = 0
      have ht : countQ t = 0 := countQ_of_mem_jsSplitDot k t h (by rw [hsp]; simp)
      have hc : countQ c2 = 0 := countQ_of_mem_jsSplitDot k c2 h (by rw [hsp]; simp)
      have hd : countQ (".") = 0 := by decide
      simp [countQ_append, countQ_quoteIdent, ht, hc, hd]
    · exact hk0
  · rw [countQ_quoteIdent]
    exact hk0

theorem bwcFieldsNeAux : ∀ n : Nat, ∀ e : EntryList, sizeOf e ≤ n →
    ∀ s ∈ (bwcFields e).1, s ≠ "" := by
  intro n
  induction n with
  | zero => intro e he; exfalso; cases e <;> simp at he
  | succ n ih =>
    intro e he
    cases e with
    | nil => simp [bwcFields]
    | cons k v rest =>
      have hr : sizeOf rest ≤ n := by simp at he; omega
      cases v with
      | branches ws =>
        intro s hs
        simp only [bwcFields] at hs
        by_cases hk : (k == ("and") || k == ("or")) = true
        · rw [if_pos hk] at hs
          exact ih rest hr s hs
        · rw [if_neg hk] at hs
          exact ih rest hr s hs
      | field c =>
        cases c with
        | lit sv =>
          intro s hs
          simp only [bwcFields] at hs
          by_cases hk : (k == ("and") || k == ("or")) = true
          · rw [if_pos hk] at hs
            exact ih rest hr s hs
          · rw [if_neg hk] at hs
            rcases List.mem_cons.mp hs with rfl | hs
            · exact append_ne_empty_right _ _ (by decide)
            · exact ih rest hr s hs
        | ops ps =>
          intro s hs
          simp only [bwcFields] at hs
          by_cases hk : (k == ("and") || k == ("or")) = true
          · rw [if_pos hk] at hs
            exact ih rest hr s hs
          · rw [if_neg hk] at hs
            rcases List.mem_append.mp hs with hs | hs
            · exact bwcOps_ne _ ps s hs
            · exact ih rest hr s hs

theorem bwcFields_ne (e : EntryList) : ∀ s ∈ (bwcFields e).1, s ≠ "" :=
  bwcFieldsNeAux (sizeOf e) e le_rfl

theorem bwc_conds_ne (entries : EntryList) :
    ∀ s ∈ (((if (bwcGroup ("and") entries).1.isEmpty then ([] : List String)
             else [("(") ++ joinSep (" AND ") (bwcGroup ("and") entries).1 ++ (")")]) ++
            (if (bwcGroup ("or") entries).1.isEmpty then ([] : List String)
             else [("(") ++ joinSep (" OR ") (bwcGroup ("or") entries).1 ++ (")")])) ++
           (bwcFields entries).1), s ≠ "" := by
  intro s hs
  rcases List.mem_append.mp hs with hs | hs
  · rcases List.mem_append.mp hs with hs | hs <;>
      (split_ifs at hs
       · exact absurd hs (by simp)
       · rcases List.mem_singleton.mp hs with rfl
         exact append_ne_empty_right _ _ (by decide))
  · exact bwcFields_ne entries s hs

theorem bwcEmptyAll : ∀ n : Nat,
    (∀ w : WhereNode, sizeOf w ≤ n → ((bwc w).1 = "" → (bwc w).2 = [])) ∧
    (∀ l : NodeList, sizeOf l ≤ n → ((bwcChildren l).1 = [] → (bwcChildren l).2 = [])) ∧
    (∀ (k : String) (e : EntryList), sizeOf e ≤ n →
      ((bwcGroup k e).1 = [] → (bwcGroup k e).2 = [])) ∧
    (∀ e : EntryList, sizeOf e ≤ n → ((bwcFields e).1 = [] → (bwcFields e).2 = [])) := by
  intro n
  induction n with
  | zero =>
    refine ⟨?_, ?_, ?_, ?_⟩
    · intro w hw; exfalso; cases w; simp at hw
    · intro l hl; exfalso; cases l <;> simp at hl
    · intro k e he; exfalso; cases e <;> simp at he
    · intro e he; exfalso; cases e <;> simp at he
  | succ n ih =>
    obtain ⟨ihW, ihL, ihG, ihF⟩ := ih
    refine ⟨?_, ?_, ?_, ?_⟩
    · intro w hw
      cases w with
      | node entries =>
        have hes : sizeOf entries ≤ n := by simp at hw; omega
        simp only [bwc]
        intro h
        have hce := joinSep_eq_empty _ _ (bwc_conds_ne entries) h
        rw [List.append_eq_nil] at hce
        obtain ⟨hAB, hC⟩ := hce
        rw [List.append_eq_nil] at hAB
        obtain ⟨hA, hB⟩ := hAB
        have hag : (bwcGroup ("and") entries).1 = [] := by
          by_cases hie : (bwcGroup ("and") entries).1.isEmpty = true
          · exact List.isEmpty_iff.mp hie
          · rw [if_neg hie] at hA; exact absurd hA (by simp)
        have hog : (bwcGroup ("or") entries).1 = [] := by
          by_cases hie : (bwcGroup ("or") entries).1.isEmpty = true
          · exact List.isEmpty_iff.mp hie
          · rw [if_neg hie] at hB; exact absurd hB (by simp)
        rw [ihG ("and") entries hes hag, ihG ("or") entries hes hog, ihF entries hes hC]
        rfl
    · intro l hl
      cases l with
      | nil => intro _; rfl
      | cons w rest =>
        have hw : sizeOf w ≤ n := by simp at hl; omega
        have hr : sizeOf rest ≤ n := by simp at hl; omega
        simp only [bwcChildren]
        by_cases hbw : ((bwc w).1 == ("")) = true
        · rw [if_pos hbw]
          exact ihL rest hr
        · rw [if_neg hbw]
          intro h
          exact absurd h (by simp)
    · intro k e he
      cases e with
      | nil => intro _; rfl
      | cons k2 v rest =>
        have hr : sizeOf rest ≤ n := by simp at he; omega
        cases v with
        | branches ws =>
          have hws : sizeOf ws ≤ n := by simp at he; omega
          simp only [bwcGroup]
          by_cases hk : (k2 == k) = true
          · rw [if_pos hk]
            exact ihL ws hws
          · rw [if_neg hk]
            exact ihG k rest hr
        | field c =>
          simp only [bwcGroup]
          by_cases hk : (k2 == k) = true
          · rw [if_pos hk]
            intro _; rfl
          · rw [if_neg hk]
            exact ihG k rest hr
    · intro e he
      cases e with
      | nil => intro _; rfl
      | cons k v rest =>
        have hr : sizeOf rest ≤ n := by simp at he; omega
        cases v with
        | branches ws =>
          simp only [bwcFields]
          by_cases hk : (k == ("and") || k == ("or")) = true
          · rw [if_pos hk]; exact ihF rest hr
          · rw [if_neg hk]; exact ihF rest hr
        | field c =>
          cases c with
          | lit sv =>
            simp only [bwcFields]
            by_cases hk : (k == ("and") || k == ("or")) = true
            · rw [if_pos hk]; exact ihF rest hr
            · rw [if_neg hk]
              intro h; exact absurd h (by simp)
          | ops ps =>
            simp only [bwcFields]
            by_cases hk : (k == ("and") || k == ("or")) = true
            · rw [if_pos hk]; exact ihF rest hr
            · rw [if_neg hk]
              intro h
              simp only [List.append_eq_nil] at h ⊢
              exact ⟨bwcOps_empty _ ps h.1, ihF rest hr h.2⟩

theorem bwc_empty (w : WhereNode) : (bwc w).1 = "" → (bwc w).2 = [] :=
  (bwcEmptyAll (sizeOf w)).1 w le_rfl

theorem bwcGroup_empty (k : String) (e : EntryList) :
    (bwcGroup k e).1 = [] → (bwcGroup k e).2 = [] :=
  (bwcEmptyAll (sizeOf e)).2.2.1 k e le_rfl

theorem bwcFields_empty (e : EntryList) :
    (bwcFields e).1 = [] → (bwcFields e).2 = [] :=
  (bwcEmptyAll (sizeOf e)).2.2.2 e le_rfl

theorem bwcSpecAll : ∀ n : Nat,
    (∀ w : WhereNode, sizeOf w ≤ n → (bwc w).2 = specDfs w) ∧
    (∀ l : NodeList, sizeOf l ≤ n → (bwcChildren l).2 = specDfsChildren l) ∧
    (∀ (k : String) (e : EntryList), sizeOf e ≤ n → (bwcGroup k e).2 = specDfsGroup k e) ∧
    (∀ e : EntryList, sizeOf e ≤ n → (bwcFields e).2 = specDfsFields e) := by
  intro n
  induction n with
  | zero =>
    refine ⟨?_, ?_, ?_, ?_⟩
    · intro w hw; exfalso; cases w; simp at hw
    · intro l hl; exfalso; cases l <;> simp at hl
    · intro k e he; exfalso; cases e <;> simp at he
    · intro e he; exfalso; cases e <;> simp at he
  | succ n ih =>
    obtain ⟨ihW, ihL, ihG, ihF⟩ := ih
    refine ⟨?_, ?_, ?_, ?_⟩
    · intro w hw
      cases w with
      | node entries =>
        have hes : sizeOf entries ≤ n := by simp at hw; omega
        simp only [bwc, specDfs]
        rw [ihG ("and") entries hes, ihG ("or") entries hes, ihF entries hes]
    · intro l hl
      cases l with
      | nil => rfl
      | cons w rest =>
        have hw : sizeOf w ≤ n := by simp at hl; omega
        have hr : sizeOf rest ≤ n := by simp at hl; omega
        simp only [bwcChildren, specDfsChildren]
        by_cases hbw : ((bwc w).1 == ("")) = true
        · rw [if_pos hbw]
          have hwe : (bwc w).2 = [] := bwc_empty w (by simpa using hbw)
          rw [ihL rest hr, ← ihW w hw, hwe]
          rfl
        · rw [if_neg hbw]
          rw [ihW w hw, ihL rest hr]
    · intro k e he
      cases e with
      | nil => rfl
      | cons k2 v rest =>
        have hr : sizeOf rest ≤ n := by simp at he; omega
        cases v with
        | branches ws =>
          have hws : sizeOf ws ≤ n := by simp at he; omega
          simp only [bwcGroup, specDfsGroup]
          by_cases hk : (k2 == k) = true
          · rw [if_pos hk, if_pos hk]
            exact ihL ws hws
          · rw [if_neg hk, if_neg hk]
            exact ihG k rest hr
        | field c =>
          simp only [bwcGroup, specDfsGroup]
          by_cases hk : (k2 == k) = true
          · rw [if_pos hk, if_pos hk]
          · rw [if_neg hk, if_neg hk]
            exact ihG k rest hr
    · intro e he
      cases e with
      | nil => rfl
      | cons k v rest =>
        have hr : sizeOf rest ≤ n := by simp at he; omega
        cases v with
        | branches ws =>
          simp only [bwcFields, specDfsFields]
          by_cases hk : (k == ("and") || k == ("or")) = true
          · rw [if_pos hk, if_pos hk]
            exact ihF rest hr
          · rw [if_neg hk, if_neg hk]
            exact ihF rest hr
        | field c =>
          cases c with
          | lit sv =>
            simp only [bwcFields, specDfsFields]
            by_cases hk : (k == ("and") || k == ("or")) = true
            · rw [if_pos hk, if_pos hk]
              exact ihF rest hr
            · rw [if_neg hk, if_neg hk]
              rw [ihF rest hr]
          | ops ps =>
            simp only [bwcFields, specDfsFields]
            by_cases hk : (k == ("and") || k == ("or")) = true
            · rw [if_pos hk, if_pos hk]
              exact ihF rest hr
            · rw [if_neg hk, if_neg hk]
              rw [bwcOps_spec, ihF rest hr]

/-- The binding list produced by `buildWhereClause` is exactly the depth-first
leaf-operand list, for every tree. -/
theorem bwc_spec (w : WhereNode) : (bwc w).2 = specDfs w :=
  (bwcSpecAll (sizeOf w)).1 w le_rfl

theorem bwcCountAll : ∀ n : Nat,
    (∀ w : WhereNode, sizeOf w ≤ n → noQKeysW w = true →
      countQ (bwc w).1 = (bwc w).2.length) ∧
    (∀ l : NodeList, sizeOf l ≤ n → noQKeysL l = true →
      ((bwcChildren l).1.map countQ).sum = (bwcChildren l).2.length) ∧
    (∀ (k : String) (e : EntryList), sizeOf e ≤ n → noQKeysE e = true →
      ((bwcGroup k e).1.map countQ).sum = (bwcGroup k e).2.length) ∧
    (∀ e : EntryList, sizeOf e ≤ n → noQKeysE e = true →
      ((bwcFields e).1.map countQ).sum = (bwcFields e).2.length) := by
  intro n
  induction n with
  | zero =>
    refine ⟨?_, ?_, ?_, ?_⟩
    · intro w hw; exfalso; cases w; simp at hw
    · intro l hl; exfalso; cases l <;> simp at hl
    · intro k e he; exfalso; cases e <;> simp at he
    · intro e he; exfalso; cases e <;> simp at he
  | succ n ih =>
    obtain ⟨ihW, ihL, ihG, ihF⟩ := ih
    refine ⟨?_, ?_, ?_, ?_⟩
    · intro w hw hq
      cases w with
      | node entries =>
        have hes : sizeOf entries ≤ n := by simp at hw; omega
        have hqe : noQKeysE entries = true := hq
        simp only [bwc]
        rw [countQ_joinSep _ _ (by decide)]
        simp only [List.map_append, List.sum_append, List.length_append]
        have hA : ((if (bwcGroup ("and") entries).1.isEmpty then ([] : List String)
              else [("(") ++ joinSep (" AND ") (bwcGroup ("and") entries).1 ++ (")")]).map
                countQ).sum = (bwcGroup ("and") entries).2.length := by
          by_cases hie : (bwcGroup ("and") entries).1.isEmpty = true
          · rw [if_pos hie]
            rw [bwcGroup_empty ("and") entries (List.isEmpty_iff.mp hie)]
            rfl
          · rw [if_neg hie]
            simp only [List.map_cons, List.map_nil, List.sum_cons, List.sum_nil]
            rw [countQ_append, countQ_append, countQ_joinSep _ _ (by decide),
              ihG ("and") entries hes hqe]
            have h1 : countQ ("(") = 0 := by decide
            have h2 : countQ (")") = 0 := by decide
            omega
        have hB : ((if (bwcGroup ("or") entries).1.isEmpty then ([] : List String)
              else [("(") ++ joinSep (" OR ") (bwcGroup ("or") entries).1 ++ (")")]).map
                countQ).sum = (bwcGroup ("or") entries).2.length := by
          by_cases hie : (bwcGroup ("or") entries).1.isEmpty = true
          · rw [if_pos hie]
            rw [bwcGroup_empty ("or") entries (List.isEmpty_iff.mp hie)]
            rfl
          · rw [if_neg hie]
            simp only [List.map_cons, List.map_nil, List.sum_cons, List.sum_nil]
            rw [countQ_append, countQ_append, countQ_joinSep _ _ (by decide),
              ihG ("or") entries hes hqe]
            have h1 : countQ ("(") = 0 := by decide
            have h2 : countQ (")") = 0 := by decide
            omega
        rw [hA, hB, ihF entries hes hqe]
    · intro l hl hq
      cases l with
      | nil => rfl
      | cons w rest =>
        have hw : sizeOf w ≤ n := by simp at hl; omega
        have hr : sizeOf rest ≤ n := by simp at hl; omega
        simp only [noQKeysL, Bool.and_eq_true] at hq
        simp only [bwcChildren]
        by_cases hbw : ((bwc w).1 == ("")) = true
        · rw [if_pos hbw]
          exact ihL rest hr hq.2
        · rw [if_neg hbw]
          simp only [List.map_cons, List.sum_cons, List.length_append]
          rw [ihW w hw hq.1, ihL rest hr hq.2]
    · intro k e he hq
      cases e with
      | nil => rfl
      | cons k2 v rest =>
        have hr : sizeOf rest ≤ n := by simp at he; omega
        simp only [noQKeysE, Bool.and_eq_true] at hq
        cases v with
        | branches ws =>
          have hws : sizeOf ws ≤ n := by simp at he; omega
          simp only [bwcGroup]
          by_cases hk : (k2 == k) = true
          · rw [if_pos hk]
            exact ihL ws hws hq.1.2
          · rw [if_neg hk]
            exact ihG k rest hr hq.2
        | field c =>
          simp only [bwcGroup]
          by_cases hk : (k2 == k) = true
          · rw [if_pos hk]; rfl
          · rw [if_neg hk]
            exact ihG k rest hr hq.2
    · intro e he hq
      cases e with
      | nil => rfl
      | cons k v rest =>
        have hr : sizeOf rest ≤ n := by simp at he; omega
        simp only [noQKeysE, Bool.and_eq_true] at hq
        have hfk : countQ (fmtColKey k) = 0 := countQ_fmtColKey k hq.1.1
        cases v with
        | branches ws =>
          simp only [bwcFields]
          by_cases hk : (k == ("and") || k == ("or")) = true
          · rw [if_pos hk]; exact ihF rest hr hq.2
          · rw [if_neg hk]; exact ihF rest hr hq.2
        | field c =>
          cases c with
          | lit sv =>
            simp only [bwcFields]
            by_cases hk : (k == ("and") || k == ("or")) = true
            · rw [if_pos hk]; exact ihF rest hr hq.2
            · rw [if_neg hk]
              simp only [List.map_cons, List.sum_cons, List.length_cons]
              rw [countQ_append, hfk, ihF rest hr hq.2]
              have h1 : countQ (" = ?") = 1 := by decide
              omega
          | ops ps =>
            simp only [bwcFields]
            by_cases hk : (k == ("and") || k == ("or")) = true
            · rw [if_pos hk]; exact ihF rest hr hq.2
            · rw [if_neg hk]
              simp only [List.map_append, List.sum_append, List.length_append]
              rw [bwcOps_count _ ps hfk, ihF rest hr hq.2]

/-- The number of `?` placeholders in the clause emitted by
`buildWhereClause` equals the number of bindings, whenever the tree's keys
are placeholder-free identifiers. -/
theorem bwc_count (w : WhereNode) (hq : noQKeysW w = true) :
    countQ (bwc w).1 = (bwc w).2.length :=
  (bwcCountAll (sizeOf w)).1 w le_rfl hq

theorem noQ_of_mem_jsSplitDot (k part : String) (h : noQ k = true)
    (hm : part ∈ jsSplitDot k) : noQ part = true := by
  simp only [jsSplitDot, List.mem_map] at hm
  obtain ⟨p, hp, rfl⟩ := hm
  exact noQ_of_subchars _ k (fun c hc => mem_splitChars_sub _ _ k.data p hp c hc) h

theorem noQ_of_mem_jsSplitAs (k part : String) (h : noQ k = true)
    (hm : part ∈ jsSplitAs k) : noQ part = true := by
  simp only [jsSplitAs, List.mem_map] at hm
  obtain ⟨p, hp, rfl⟩ := hm
  exact noQ_of_subchars _ k (fun c hc => mem_splitChars_sub _ _ k.data p hp c hc) h

theorem countQ_fmtSelectCol (col : String) (h : noQ col = true) :
    countQ (fmtSelectCol col) = 0 := by
  simp only [fmtSelectCol]
  split_ifs with h1
  · rcases hsp : jsSplitAs col with _ | ⟨cp, _ | ⟨ap, rest⟩⟩
    · exact countQ_of_noQ col h
    · exact countQ_of_noQ col h
    · have hcp : noQ cp = true := noQ_of_mem_jsSplitAs col cp h (by rw [hsp]; simp)
      have hap : noQ ap = true := noQ_of_mem_jsSplitAs col ap h (by rw [hsp]; simp)
      show countQ (fmtColKey cp ++ " AS " ++ jsTrim ap) = 0
      rw [countQ_append, countQ_append, countQ_fmtColKey cp hcp,
        countQ_jsTrim ap (countQ_of_noQ ap hap)]
      decide
  · exact countQ_fmtColKey col h

theorem countQ_fmtFromClause (f : String) (h : noQ f = true) :
    countQ (fmtFromClause f) = 0 := by
  simp only [fmtFromClause]
  split_ifs with h1
  · rcases hsp : jsSplitAs f with _ | ⟨t, _ | ⟨a, rest⟩⟩
    · rw [countQ_append, countQ_quoteIdent, countQ_of_noQ f h]; decide
    · rw [countQ_append, countQ_quoteIdent, countQ_of_noQ f h]; decide
    · have ht : noQ t = true := noQ_of_mem_jsSplitAs f t h (by rw [hsp]; simp)
      have ha : noQ a = true := noQ_of_mem_jsSplitAs f a h (by rw [hsp]; simp)
      show countQ (" FROM " ++ quoteIdent (jsTrim t) ++ " AS " ++ quoteIdent (jsTrim a)) = 0
      rw [countQ_append, countQ_append, countQ_append, countQ_quoteIdent, countQ_quoteIdent,
        countQ_jsTrim t (countQ_of_noQ t ht), countQ_jsTrim a (countQ_of_noQ a ha)]
      decide
  · rw [countQ_append, countQ_quoteIdent, countQ_of_noQ f h]; decide

theorem countQ_fmtJoinTable (jf : String) (h : noQ jf = true) :
    countQ (fmtJoinTable jf) = 0 := by
  simp only [fmtJoinTable]
  split_ifs with h1
  · rcases hsp : jsSplitAs jf with _ | ⟨t, _ | ⟨a, rest⟩⟩
    · rw [countQ_quoteIdent]; exact countQ_of_noQ jf h
    · rw [countQ_quoteIdent]; exact countQ_of_noQ jf h
    · have ht : noQ t = true := noQ_of_mem_jsSplitAs jf t h (by rw [hsp]; simp)
      have ha : noQ a = true := noQ_of_mem_jsSplitAs jf a h (by rw [hsp]; simp)
      show countQ (quoteIdent (jsTrim t) ++ " AS " ++ quoteIdent (jsTrim a)) = 0
      rw [countQ_append, countQ_append, countQ_quoteIdent, countQ_quoteIdent,
        countQ_jsTrim t (countQ_of_noQ t ht), countQ_jsTrim a (countQ_of_noQ a ha)]
      decide
  · rw [countQ_quoteIdent]; exact countQ_of_noQ jf h

theorem countQ_fmtJoinOn (onPairs : List (String × String))
    (h : ∀ p ∈ onPairs, noQ p.1 = true ∧ noQ p.2 = true) :
    countQ (fmtJoinOn onPairs) = 0 := by
  have hall : ∀ s ∈ onPairs.map (fun p => quoteIdent p.1 ++ "." ++ quoteIdent p.2),
      countQ s = 0 := by
    intro s hs
    simp only [List.mem_map] at hs
    obtain ⟨p, hp, rfl⟩ := hs
    rw [countQ_append, countQ_append, countQ_quoteIdent, countQ_quoteIdent,
      countQ_of_noQ p.1 (h p hp).1, countQ_of_noQ p.2 (h p hp).2]
    decide
  simp only [fmtJoinOn]
  rcases hm : onPairs.map (fun p => quoteIdent p.1 ++ "." ++ quoteIdent p.2)
    with _ | ⟨a, _ | ⟨b, rest⟩⟩ <;> rw [hm]
  · decide
  · show countQ a = 0
    exact hall a (by rw [hm]; simp)
  · rcases rest with _ | ⟨c, rest2⟩
    · show countQ (a ++ " = " ++ b) = 0
      rw [countQ_append, countQ_append, hall a (by rw [hm]; simp), hall b (by rw [hm]; simp)]
      decide
    · show countQ (joinSep (" AND ") (a :: b :: c :: rest2)) = 0
      rw [countQ_joinSep _ _ (by decide)]
      apply List.sum_eq_zero
      rintro x hx
      simp only [List.mem_map] at hx
      obtain ⟨y, hy, rfl⟩ := hx
      exact hall y (by rw [hm]; exact hy)

theorem countQ_compileJoins (joins : List JoinOn)
    (h : ∀ j ∈ joins, noQ j.joinFrom = true ∧
      ∀ p ∈ j.onPairs, noQ p.1 = true ∧ noQ p.2 = true) :
    countQ (compileJoins joins) = 0 := by
  have haux : ∀ js : List JoinOn,
      (∀ j ∈ js, noQ j.joinFrom = true ∧ ∀ p ∈ j.onPairs, noQ p.1 = true ∧ noQ p.2 = true) →
      ∀ acc : String, countQ acc = 0 →
      countQ (js.foldl
        (fun acc j => acc ++ " LEFT OUTER JOIN " ++ fmtJoinTable j.joinFrom ++ " ON " ++
          fmtJoinOn j.onPairs) acc) = 0 := by
    intro js
    induction js with
    | nil => intro _ acc hacc; simpa using hacc
    | cons j rest ih =>
      intro hh acc hacc
      simp only [List.foldl_cons]
      apply ih (fun j2 hj2 => hh j2 (List.mem_cons_of_mem j hj2))
      simp [countQ_append, hacc, countQ_fmtJoinTable _ (hh j (by simp)).1,
        countQ_fmtJoinOn _ (hh j (by simp)).2,
        countQ_of_noQ (" LEFT OUTER JOIN ") (by decide), countQ_of_noQ (" ON ") (by decide)]
  exact haux joins h ("") (by decide)

theorem countQ_fmtOrderItem (it : OrderItem)
    (h : match it with | .ostr s => noQ s = true | .okey k _ => noQ k = true) :
    countQ (fmtOrderItem it) = 0 := by
  cases it with
  | ostr s =>
    simp only [fmtOrderItem]
    rw [countQ_append, countQ_quoteIdent, countQ_of_noQ s h]
    decide
  | okey k dir =>
    simp only [fmtOrderItem]
    rw [countQ_append, countQ_append, countQ_quoteIdent, countQ_of_noQ k h]
    split_ifs <;> decide

theorem countQ_fmtOrderClause (orderBy : Option (List OrderItem))
    (h : ∀ items, orderBy = some items → ∀ it ∈ items,
      match it with | OrderItem.ostr s => noQ s = true | OrderItem.okey k _ => noQ k = true) :
    countQ (fmtOrderClause orderBy) = 0 := by
  cases orderBy with
  | none => rfl
  | some items =>
    simp only [fmtOrderClause]
    split_ifs with hlen
    · rw [countQ_append, countQ_joinSep _ _ (by decide)]
      have : ∀ x ∈ (items.map fmtOrderItem).map countQ, x = 0 := by
        rintro x hx
        simp only [List.map_map, List.mem_map] at hx
        obtain ⟨it, hit, rfl⟩ := hx
        exact countQ_fmtOrderItem it (h items rfl it hit)
      rw [List.sum_eq_zero this]
      decide
    · rfl

theorem whereResOf_spec (wc : Option WhereNode) :
    (whereResOf wc).2 = (match wc with | some w => specDfs w | none => []) := by
  cases wc with
  | none => rfl
  | some w =>
    simp only [whereResOf, buildWhereClause]
    by_cases hbw : ((bwc w).1 == ("")) = true
    · rw [if_pos hbw]
      rw [← bwc_spec w, bwc_empty w (by simpa using hbw)]
    · rw [if_neg hbw]
      exact bwc_spec w

theorem compileBase_spec (st : BaseStmt) : (compileBase st).2 = baseSpecDfs st := by
  obtain ⟨sel, sf, joins, wc, ob, lim, sk⟩ := st
  cases sel with
  | none => rfl
  | some cols =>
    simp only [compileBase, baseSpecDfs]
    exact whereResOf_spec wc

theorem compileBase_count (st : BaseStmt) (h : baseNoQ st = true) :
    countQ (compileBase st).1 = (compileBase st).2.length := by
  obtain ⟨sel, sf, joins, wc, ob, lim, sk⟩ := st
  simp only [baseNoQ, Bool.and_eq_true] at h
  obtain ⟨⟨⟨⟨hsel, hf⟩, hjoins⟩, hwc⟩, hob⟩ := h
  cases sel with
  | none => rfl
  | some cols =>
    simp only at hsel
    have hselq : countQ (selectClauseOf cols) = 0 := by
      rw [selectClauseOf]
      split_ifs
      · rw [countQ_append, countQ_joinSep _ _ (by decide)]
        have : ∀ x ∈ (cols.map fmtSelectCol).map countQ, x = 0 := by
          intro x hx
          simp only [List.map_map, List.mem_map] at hx
          obtain ⟨c, hc, rfl⟩ := hx
          simp only [List.all_eq_true] at hsel
          exact countQ_fmtSelectCol c (hsel c hc)
        rw [List.sum_eq_zero this]
        decide
      · decide
    have hfq : countQ (fromClauseOf sf) = 0 := by
      cases sf with
      | none => decide
      | some f =>
        simp only at hf
        exact countQ_fmtFromClause f hf
    have hjq : countQ (compileJoins joins) = 0 := by
      apply countQ_compileJoins
      intro j hj
      simp only [List.all_eq_true] at hjoins
      have := hjoins j hj
      simp only [Bool.and_eq_true, List.all_eq_true] at this
      exact ⟨this.1, fun p hp => by
        have hpp := this.2 p hp
        simpa [Bool.and_eq_true] using hpp⟩
    have hoq : countQ (fmtOrderClause ob) = 0 := by
      apply countQ_fmtOrderClause
      intro items hitems it hit
      subst hitems
      simp only [List.all_eq_true] at hob
      have := hob it hit
      cases it <;> simpa using this
    have hlq : countQ (limitClauseOf lim) = 0 := by
      cases lim with
      | none => decide
      | some nv => rw [limitClauseOf, countQ_append, countQ_intToString]; decide
    have hsq : countQ (skipClauseOf sk) = 0 := by
      cases sk with
      | none => decide
      | some nv => rw [skipClauseOf, countQ_append, countQ_intToString]; decide
    have hwq : countQ (whereResOf wc).1 = (whereResOf wc).2.length := by
      cases wc with
      | none => rfl
      | some w =>
        simp only at hwc
        simp only [whereResOf, buildWhereClause]
        by_cases hbw : ((bwc w).1 == ("")) = true
        · rw [if_pos hbw]; rfl
        · rw [if_neg hbw]
          show countQ (" WHERE " ++ (bwc w).1) = (bwc w).2.length
          rw [countQ_append, bwc_count w hwc]
          have : countQ (" WHERE ") = 0 := by decide
          omega
    simp only [compileBase]
    rw [countQ_append, countQ_append, countQ_append, countQ_append, countQ_append,
      countQ_append, hselq, hfq, hjq, hoq, hlq, hsq, hwq]
    omega

theorem baseNoQ_strip (m : BaseStmt) (h : baseNoQ m = true) :
    baseNoQ { m with orderBy := none, limit := none, skip := none } = true := by
  obtain ⟨sel, sf, joins, wc, ob, lim, sk⟩ := m
  simp only [baseNoQ, Bool.and_eq_true] at h ⊢
  exact ⟨h.1, trivial⟩

theorem baseSpecDfs_strip (m : BaseStmt) :
    baseSpecDfs { m with orderBy := none, limit := none, skip := none } = baseSpecDfs m := by
  obtain ⟨sel, sf, joins, wc, ob, lim, sk⟩ := m
  rfl

theorem findFirstOrderBy_noQ (ms : List BaseStmt) (h : ∀ m ∈ ms, baseNoQ m = true) :
    ∀ items, findFirstOrderBy ms = some items → ∀ it ∈ items,
      (match it with | OrderItem.ostr s => noQ s = true | OrderItem.okey k _ => noQ k = true) := by
  induction ms with
  | nil => intro items hit; simp [findFirstOrderBy] at hit
  | cons m rest ih =>
    intro items hit it hmem
    simp only [findFirstOrderBy] at hit
    rcases hob : m.orderBy with _ | obItems
    · rw [hob] at hit
      exact ih (fun m2 hm2 => h m2 (List.mem_cons_of_mem m hm2)) items hit it hmem
    · rw [hob] at hit
      have hm := h m (by simp)
      simp only [baseNoQ, Bool.and_eq_true] at hm
      have hords := hm.2
      rw [hob] at hords
      simp only [List.all_eq_true] at hords
      cases hit
      have := hords it hmem
      cases it <;> simpa using this

theorem compileStatement_count (st : Statement) (h : stmtNoQ st = true) :
    countQ (compileStatement st).1 = (compileStatement st).2.length := by
  cases st with
  | base b => exact compileBase_count b h
  | unionAll ms =>
    simp only [stmtNoQ, List.all_eq_true] at h
    simp only [compileStatement]
    rw [countQ_append, countQ_joinSep _ _ (by decide)]
    rw [countQ_fmtOrderClause _ (findFirstOrderBy_noQ ms h)]
    have hmain : ∀ l : List BaseStmt, (∀ m ∈ l, baseNoQ m = true) →
        (((l.map (fun m => compileBase
            { m with orderBy := none, limit := none, skip := none })).map Prod.fst).map
              countQ).sum =
        ((l.map (fun m => compileBase
            { m with orderBy := none, limit := none, skip := none })).map Prod.snd).flatten.length := by
      intro l
      induction l with
      | nil => intro _; rfl
      | cons m rest ih =>
        intro hl
        simp only [List.map_cons, List.sum_cons, List.flatten_cons, List.length_append]
        rw [compileBase_count _ (baseNoQ_strip m (hl m (by simp))),
          ih (fun m2 hm2 => hl m2 (List.mem_cons_of_mem m hm2))]
    rw [hmain ms h]
    ring

theorem compileStatement_spec (st : Statement) :
    (compileStatement st).2 = stmtSpecDfs st := by
  cases st with
  | base b => exact compileBase_spec b
  | unionAll ms =>
    simp only [compileStatement, stmtSpecDfs]
    induction ms with
    | nil => rfl
    | cons m rest ih =>
      simp only [List.map_cons, List.flatten_cons]
      rw [compileBase_spec, baseSpecDfs_strip]
      congr 1

theorem bwcOp1_erase (col op : String) (ov : OpVal) :
    (bwcOp1 col op (eraseOpVal ov)).1 = (bwcOp1 col op ov).1 := by
  cases ov <;> cases hk : classifyOp op <;>
    simp [bwcOp1, hk, eraseOpVal] <;>
    (try split) <;> simp_all

theorem bwcOps_erase (col : String) (ps : List (String × OpVal)) :
    (bwcOps col (ps.map (fun p => (p.1, eraseOpVal p.2)))).1 = (bwcOps col ps).1 := by
  induction ps with
  | nil => rfl
  | cons p rest ih =>
    obtain ⟨op, ov⟩ := p
    simp only [List.map_cons, bwcOps]
    rw [bwcOp1_erase, ih]

theorem bwcEraseAll : ∀ n : Nat,
    (∀ w : WhereNode, sizeOf w ≤ n → (bwc (eraseW w)).1 = (bwc w).1) ∧
    (∀ l : NodeList, sizeOf l ≤ n → (bwcChildren (eraseL l)).1 = (bwcChildren l).1) ∧
    (∀ (k : String) (e : EntryList), sizeOf e ≤ n →
      (bwcGroup k (eraseE e)).1 = (bwcGroup k e).1) ∧
    (∀ e : EntryList, sizeOf e ≤ n → (bwcFields (eraseE e)).1 = (bwcFields e).1) := by
  intro n
  induction n with
  | zero =>
    refine ⟨?_, ?_, ?_, ?_⟩
    · intro w hw; exfalso; cases w; simp at hw
    · intro l hl; exfalso; cases l <;> simp at hl
    · intro k e he; exfalso; cases e <;> simp at he
    · intro e he; exfalso; cases e <;> simp at he
  | succ n ih =>
    obtain ⟨ihW, ihL, ihG, ihF⟩ := ih
    refine ⟨?_, ?_, ?_, ?_⟩
    · intro w hw
      cases w with
      | node entries =>
        have hes : sizeOf entries ≤ n := by simp at hw; omega
        simp only [eraseW, bwc]
        rw [ihG ("and") entries hes, ihG ("or") entries hes, ihF entries hes]
    · intro l hl
      cases l with
      | nil => rfl
      | cons w rest =>
        have hw : sizeOf w ≤ n := by simp at hl; omega
        have hr : sizeOf rest ≤ n := by simp at hl; omega
        simp only [eraseL, bwcChildren]
        rw [ihW w hw]
        by_cases hbw : ((bwc w).1 == ("")) = true
        · rw [if_pos hbw, if_pos hbw]
          exact ihL rest hr
        · rw [if_neg hbw, if_neg hbw]
          show (bwc w).1 :: (bwcChildren (eraseL rest)).1 = (bwc w).1 :: (bwcChildren rest).1
          rw [ihL rest hr]
    · intro k e he
      cases e with
      | nil => rfl
      | cons k2 v rest =>
        have hr : sizeOf rest ≤ n := by simp at he; omega
        cases v with
        | branches ws =>
          have hws : sizeOf ws ≤ n := by simp at he; omega
          simp only [eraseE, eraseV, bwcGroup]
          by_cases hk : (k2 == k) = true
          · rw [if_pos hk, if_pos hk]
            exact ihL ws hws
          · rw [if_neg hk, if_neg hk]
            exact ihG k rest hr
        | field c =>
          simp only [eraseE, eraseV, bwcGroup]
          by_cases hk : (k2 == k) = true
          · rw [if_pos hk, if_pos hk]
          · rw [if_neg hk, if_neg hk]
            exact ihG k rest hr
    · intro e he
      cases e with
      | nil => rfl
      | cons k v rest =>
        have hr : sizeOf rest ≤ n := by simp at he; omega
        cases v with
        | branches ws =>
          simp only [eraseE, eraseV, bwcFields]
          by_cases hk : (k == ("and") || k == ("or")) = true
          · rw [if_pos hk, if_pos hk]
            exact ihF rest hr
          · rw [if_neg hk, if_neg hk]
            exact ihF rest hr
        | field c =>
          cases c with
          | lit sv =>
            simp only [eraseE, eraseV, eraseFieldVal, bwcFields]
            by_cases hk : (k == ("and") || k == ("or")) = true
            · rw [if_pos hk, if_pos hk]
              exact ihF rest hr
            · rw [if_neg hk, if_neg hk]
              rw [ihF rest hr]
          | ops ps =>
            simp only [eraseE, eraseV, eraseFieldVal, bwcFields]
            by_cases hk : (k == ("and") || k == ("or")) = true
            · rw [if_pos hk, if_pos hk]
              exact ihF rest hr
            · rw [if_neg hk, if_neg hk]
              rw [bwcOps_erase, ihF rest hr]

theorem bwc_erase (w : WhereNode) : (bwc (eraseW w)).1 = (bwc w).1 :=
  (bwcEraseAll (sizeOf w)).1 w le_rfl

theorem whereResOf_erase (wc : Option WhereNode) :
    (whereResOf (wc.map eraseW)).1 = (whereResOf wc).1 := by
  cases wc with
  | none => rfl
  | some w =>
    simp only [Option.map, whereResOf, buildWhereClause]
    rw [bwc_erase w]
    by_cases hbw : ((bwc w).1 == ("")) = true
    · rw [if_pos hbw, if_pos hbw]
    · rw [if_neg hbw, if_neg hbw]

theorem compileBase_erase (st : BaseStmt) :
    (compileBase (eraseBase st)).1 = (compileBase st).1 := by
  obtain ⟨sel, sf, joins, wc, ob, lim, sk⟩ := st
  cases sel with
  | none => rfl
  | some cols =>
    simp only [eraseBase, compileBase]
    rw [whereResOf_erase wc]

theorem compileStatement_erase (st : Statement) :
    (compileStatement (eraseStmt st)).1 = (compileStatement st).1 := by
  cases st with
  | base b => exact compileBase_erase b
  | unionAll ms =>
    simp only [eraseStmt, compileStatement]
    have hfo : findFirstOrderBy (ms.map eraseBase) = findFirstOrderBy ms := by
      induction ms with
      | nil => rfl
      | cons m rest ih =>
        obtain ⟨sel, sf, joins, wc, ob, lim, sk⟩ := m
        simp only [List.map_cons, findFirstOrderBy, eraseBase]
        cases ob with
        | none => exact ih
        | some items => rfl
    rw [hfo]
    have hms : ∀ l : List BaseStmt,
        ((l.map eraseBase).map (fun m => compileBase
          { m with orderBy := none, limit := none, skip := none })).map Prod.fst =
        (l.map (fun m => compileBase
          { m with orderBy := none, limit := none, skip := none })).map Prod.fst := by
      intro l
      induction l with
      | nil => rfl
      | cons m rest ih =>
        simp only [List.map_cons, List.cons.injEq]
        constructor
        · obtain ⟨sel, sf, joins, wc, ob, lim, sk⟩ := m
          exact compileBase_erase ⟨sel, sf, joins, wc, none, none, none⟩
        · exact ih
    rw [hms ms]

/-- C1: for every statement whose predicate tree is built only from the
supported operators, with validated (placeholder-free) identifiers,
`compileStatement` produces a binding list whose length equals the number of
`?` placeholders in the emitted SQL, and the bindings are exactly the leaf
operands in depth-first visit order. -/
theorem claim1_compileStatement_bindings (st : Statement)
    (hsupp : stmtSupported st = true) (hq : stmtNoQ st = true) :
    countQ (compileStatement st).1 = (compileStatement st).2.length ∧
    (compileStatement st).2 = stmtSpecDfs st :=
  ⟨compileStatement_count st hq, compileStatement_spec st⟩

/-- Witness for C1 at a concrete nested statement. -/
theorem claim1_witness :
    stmtSupported exampleStmt1 = true ∧ stmtNoQ exampleStmt1 = true ∧
    (countQ (compileStatement exampleStmt1).1 = (compileStatement exampleStmt1).2.length ∧
     (compileStatement exampleStmt1).2 = stmtSpecDfs exampleStmt1) :=
  ⟨by decide, by decide, claim1_compileStatement_bindings exampleStmt1 (by decide) (by decide)⟩

/-- C2 counterexample: the adapter's simple CRUD paths compile criteria via
`buildSqliteWhereClause`, which interpolates the caller-controlled operand
value directly into the emitted SQL text (here the operand string appears
verbatim in the SQL), contradicting the claim that values only ever travel
through the binding list. -/
theorem claim2_counterexample :
    buildSqliteWhereClause
      (.node (.cons ("name") (.field (.lit (.vstr ("bob")))) .nil)) none =
      .ok ("name = \x27bob\x27") ∧
    jsIncludes ("name = \x27bob\x27") ("bob") = true := by
  constructor
  · decide
  · decide

/-- C2 (amended): statements compiled by `compileStatement` never
interpolate operand values into the SQL text — the emitted text is invariant
under erasing every operand value, so values travel only in the positional
binding list; the simple CRUD paths using `buildSqliteWhereClause` do
interpolate operand values, but only after escaping via `sqliteEscape`,
which doubles every single quote of a string operand. -/
theorem claim2_amended :
    (∀ st : Statement, (compileStatement (eraseStmt st)).1 = (compileStatement st).1) ∧
    (∀ cs : List Char,
      (escQuotes cs).countP (fun c => c == squote) = 2 * cs.countP (fun c => c == squote)) := by
  constructor
  · exact compileStatement_erase
  · intro cs
    induction cs with
    | nil => rfl
    | cons c rest ih =>
      by_cases hc : c = squote
      · subst hc
        simp [escQuotes, List.countP_cons, ih]
        omega
      · have : (c == squote) = false := by simpa using hc
        simp [escQuotes, List.countP_cons, ih, hc, this]

/-- C3 counterexample: compiling a `find`-shaped statement whose only
constraint is an `in` with an empty operand list silently drops the leaf:
the emitted SQL has no WHERE clause at all and no bindings, rather than a
special-cased never-matching clause. -/
theorem claim3_counterexample :
    compileStatement (.base
      { select := some []
        seFrom := some ("t")
        leftOuterJoin := []
        whereC := some (.node (.cons ("c") (.field (.ops [(("in"), .arrv [])])) .nil))
        orderBy := none
        limit := none
        skip := none }) = ("SELECT * FROM \x60t\x60", []) := by decide

/-- C3 (amended): the interpolating builder `buildConstraint` compiles an
empty `in`/`nin` operand to `IN ()` / `NOT IN ()` (never-matching /
always-matching clauses in SQLite), but `compileStatement`'s where-builder
silently drops an empty `in`/`nin` leaf from the emitted WHERE clause. -/
theorem claim3_amended :
    (∀ (col : String) (meta : Option QMeta),
      buildConstraint col (.ops [(("in"), .arrv [])]) meta = .ok (col ++ " IN ()")) ∧
    (∀ (col : String) (meta : Option QMeta),
      buildConstraint col (.ops [(("nin"), .arrv [])]) meta = .ok (col ++ " NOT IN ()")) ∧
    (∀ col : String,
      buildWhereClause (.node (.cons col (.field (.ops [(("in"), .arrv [])])) .nil)) = ("", []) ∧
      buildWhereClause (.node (.cons col (.field (.ops [(("nin"), .arrv [])])) .nil)) = ("", [])) := by
  have hin : part3Classify ("in") = P3Kind.inK := by decide
  have hnin : part3Classify ("nin") = P3Kind.ninK := by decide
  refine ⟨fun col meta => ?_, fun col meta => ?_, fun col => ⟨?_, ?_⟩⟩
  · simp only [buildConstraint, hin]
    congr 1
    rw [str_eq_iff_data]
    simp only [String.data_append, List.append_assoc, List.map_nil, joinSep]
    congr 1
  · simp only [buildConstraint, hnin]
    congr 1
    rw [str_eq_iff_data]
    simp only [String.data_append, List.append_assoc, List.map_nil, joinSep]
    congr 1
  all_goals
    · simp only [buildWhereClause, bwc, bwcGroup, bwcFields, bwcOps, bwcOp1, classifyOp]
      by_cases h1 : (col == ("and")) = true <;>
        by_cases h2 : (col == ("or")) = true <;>
          simp [h1, h2, joinSep]

/-- C4 counterexample: `compileStatement`'s where-builder does not raise on
the unknown operator `foo`; it silently compiles the leaf as an equality
comparison, binding the operand. -/
theorem claim4_counterexample :
    buildWhereClause (.node (.cons ("c")
      (.field (.ops [(("foo"), .scalar (.vint 5))])) .nil)) =
    ("\x60c\x60 = ?", [.scalar (.vint 5)]) := by decide

/-- C4 (amended): the interpolating builder `buildConstraint` raises a
fatal consistency violation for any modifier outside its case list, as the
claim states; but `compileStatement`'s where-builder instead falls through
to its default case and silently compiles an unknown operator as an
equality comparison that binds the operand. -/
theorem claim4_amended :
    (∀ (col op : String) (ov : OpVal) (ps : List (String × OpVal)) (meta : Option QMeta),
      part3Classify op = .otherK →
      buildConstraint col (.ops ((op, ov) :: ps)) meta = .error (p3ConsistencyMsg op)) ∧
    (∀ (col op : String) (v : SqlVal),
      classifyOp op = .otherK → (col == ("and")) = false → (col == ("or")) = false →
      buildWhereClause (.node (.cons col (.field (.ops [(op, .scalar v)])) .nil)) =
        (fmtColKey col ++ " = ?", [.scalar v])) := by
  constructor
  · intro col op ov ps meta hk
    simp only [buildConstraint, hk]
  · intro col op v hk h1 h2
    simp only [buildWhereClause, bwc, bwcGroup, bwcFields, bwcOps, bwcOp1, hk, h1, h2]
    simp [joinSep, h1, h2]

/-- Witness for C4's amended theorem at the concrete unknown operator
`frobnicate` and column `c`. -/
theorem claim4_witness :
    part3Classify ("frobnicate") = .otherK ∧
    buildConstraint ("c") (.ops [(("frobnicate"), .scalar (.vint 5))]) none =
      .error (p3ConsistencyMsg ("frobnicate")) ∧
    classifyOp ("frobnicate") = .otherK ∧
    buildWhereClause (.node (.cons ("c")
      (.field (.ops [(("frobnicate"), .scalar (.vint 5))])) .nil)) =
      (fmtColKey ("c") ++ " = ?", [.scalar (.vint 5)]) :=
  ⟨by decide,
   (claim4_amended.1 ("c") ("frobnicate") (.scalar (.vint 5)) [] none (by decide)),
   by decide,
   (claim4_amended.2 ("c") ("frobnicate") (.vint 5) (by decide) (by decide) (by decide))⟩

theorem mk_data (s : String) : String.mk s.data = s := by cases s; rfl

theorem psc_quote (rest : List Char) : parseStrChars (dquoteC :: rest) = some ([], rest) := by
  rw [parseStrChars]
  rw [if_pos rfl]

theorem psc_esc (e : Char) (rest : List Char) :
    parseStrChars (bslashC :: e :: rest) =
      (match parseStrChars rest with
       | some (s, r) => some (e :: s, r)
       | none => none) := by
  rw [parseStrChars, if_neg (by decide), if_pos rfl, pscEsc]

theorem psc_plain (c : Char) (rest : List Char) (h1 : ¬c = dquoteC) (h2 : ¬c = bslashC) :
    parseStrChars (c :: rest) =
      (match parseStrChars rest with
       | some (s, r) => some (c :: s, r)
       | none => none) := by
  rw [parseStrChars, if_neg h1, if_neg h2]

theorem parseStrChars_round (cs rest : List Char) :
    parseStrChars (escJson cs ++ (dquoteC :: rest)) = some (cs, rest) := by
  induction cs with
  | nil =>
    show parseStrChars (dquoteC :: rest) = some ([], rest)
    exact psc_quote rest
  | cons c cs2 ih =>
    by_cases hq : c = dquoteC
    · subst hq
      have hesc : escJson (dquoteC :: cs2) = bslashC :: dquoteC :: escJson cs2 := by
        rw [escJson, if_pos rfl]
      rw [hesc, List.cons_append, List.cons_append, psc_esc, ih]
    · by_cases hb : c = bslashC
      · subst hb
        have hesc : escJson (bslashC :: cs2) = bslashC :: bslashC :: escJson cs2 := by
          rw [escJson, if_neg (by decide), if_pos rfl]
        rw [hesc, List.cons_append, List.cons_append, psc_esc, ih]
      · have hesc : escJson (c :: cs2) = c :: escJson cs2 := by
          rw [escJson, if_neg hq, if_neg hb]
        rw [hesc, List.cons_append, psc_plain c _ hq hb, ih]

theorem digitChar_isDigit (d : Nat) (hd : d < 10) : (Nat.digitChar d).isDigit = true := by
  interval_cases d <;> decide

theorem charVal_digitChar (d : Nat) (hd : d < 10) : charVal (Nat.digitChar d) = d := by
  interval_cases d <;> decide

theorem natChars_digits (m : Nat) : ∀ c ∈ natChars m, c.isDigit = true := by
  intro c hc
  simp only [natChars] at hc
  by_cases hm : m = 0
  · rw [if_pos hm] at hc
    simp at hc
    subst hc
    decide
  · rw [if_neg hm] at hc
    simp only [List.mem_reverse, List.mem_map] at hc
    obtain ⟨d, hd, rfl⟩ := hc
    rw [toDigitsLE_eq m m le_rfl] at hd
    exact digitChar_isDigit d (Nat.digits_lt_base (by norm_num) hd)

theorem natChars_ne_nil (m : Nat) : natChars m ≠ [] := by
  simp only [natChars]
  by_cases hm : m = 0
  · rw [if_pos hm]; simp
  · rw [if_neg hm]
    simp only [ne_eq, List.reverse_eq_nil_iff, List.map_eq_nil_iff]
    rw [toDigitsLE_eq m m le_rfl]
    exact Nat.digits_ne_nil_iff_ne_zero.mpr hm

theorem natChars_val (m : Nat) :
    Nat.ofDigits 10 (((natChars m).map charVal).reverse) = m := by
  simp only [natChars]
  by_cases hm : m = 0
  · rw [if_pos hm]
    subst hm
    decide
  · rw [if_neg hm, toDigitsLE_eq m m le_rfl]
    rw [← List.map_reverse, List.reverse_reverse, List.map_map]
    have : (Nat.digits 10 m).map (charVal ∘ Nat.digitChar) = Nat.digits 10 m := by
      conv_rhs => rw [show Nat.digits 10 m = (Nat.digits 10 m).map id from (List.map_id _).symm]
      apply List.map_congr_left
      intro d hd
      simpa using charVal_digitChar d (Nat.digits_lt_base (by norm_num) hd)
    rw [this, Nat.ofDigits_digits]

theorem takeWhile_digit_run (run rest : List Char)
    (hrun : ∀ c ∈ run, c.isDigit = true) (hrest : headNotDigit rest) :
    (run ++ rest).takeWhile (fun d => d.isDigit) = run ∧
    (run ++ rest).dropWhile (fun d => d.isDigit) = rest := by
  induction run with
  | nil =>
    cases rest with
    | nil => exact ⟨rfl, rfl⟩
    | cons c t =>
      simp only [headNotDigit] at hrest
      simp [List.takeWhile, List.dropWhile, hrest]
  | cons c run2 ih =>
    have hc : c.isDigit = true := hrun c (by simp)
    have ih2 := ih (fun d hd => hrun d (List.mem_cons_of_mem c hd))
    simp only [List.cons_append, List.takeWhile, List.dropWhile, hc, List.append_eq]
    exact ⟨by rw [ih2.1], by rw [ih2.2]⟩

theorem digit_ne (c x : Char) (h : c.isDigit = true) (hx : x.isDigit = false) : ¬(c = x) := by
  intro he
  subst he
  rw [h] at hx
  exact absurd hx (by simp)

theorem parseJ_cons (fuel : Nat) (c : Char) (rest : List Char) :
    parseJ (fuel + 1) (c :: rest) =
      (if c = nC then
        if [Char.ofNat 117, Char.ofNat 108, Char.ofNat 108].isPrefixOf rest then
          some (.jnull, rest.drop 3)
        else none
      else if c = tC then
        if [Char.ofNat 114, Char.ofNat 117, Char.ofNat 101].isPrefixOf rest then
          some (.jbool true, rest.drop 3)
        else none
      else if c = fC then
        if [Char.ofNat 97, Char.ofNat 108, Char.ofNat 115, Char.ofNat 101].isPrefixOf rest then
          some (.jbool false, rest.drop 4)
        else none
      else if c = dquoteC then
        match parseStrChars rest with
        | some (s, r) => some (.jstr (String.mk s), r)
        | none => none
      else if c = lbrackC then
        match rest with
        | [] => none
        | d :: r2 =>
            if d = rbrackC then some (.jarr .anil, r2)
            else
              match parseJ fuel rest with
              | some (v, r1) =>
                  match parseArrRest fuel r1 with
                  | some (a, r3) => some (.jarr (.acons v a), r3)
                  | none => none
              | none => none
      else if c = lbraceC then
        match rest with
        | [] => none
        | d :: r2 =>
            if d = rbraceC then some (.jobj .onil, r2)
            else if d = dquoteC then
              match parseStrChars r2 with
              | some (k, r3) =>
                  match r3 with
                  | e :: r4 =>
                      if e = colonC then
                        match parseJ fuel r4 with
                        | some (v, r5) =>
                            match parseObjRest fuel r5 with
                            | some (o, r6) => some (.jobj (.ocons (String.mk k) v o), r6)
                            | none => none
                        | none => none
                      else none
                  | [] => none
              | none => none
            else none
      else if c = minusC then
        let run := rest.takeWhile (fun d => d.isDigit)
        if run.isEmpty then none
        else
          some (.jnum (Int.negOfNat (Nat.ofDigits 10 ((run.map charVal).reverse))),
            rest.dropWhile (fun d => d.isDigit))
      else if c.isDigit then
        let run := (c :: rest).takeWhile (fun d => d.isDigit)
        some (.jnum (Int.ofNat (Nat.ofDigits 10 ((run.map charVal).reverse))),
          (c :: rest).dropWhile (fun d => d.isDigit))
      else none) := rfl

theorem parseJ_str (fuel : Nat) (rest : List Char) :
    parseJ (fuel + 1) (dquoteC :: rest) =
      (match parseStrChars rest with
       | some (s, r) => some (.jstr (String.mk s), r)
       | none => none) := rfl

theorem parseJ_arrNil (fuel : Nat) (rest : List Char) :
    parseJ (fuel + 1) (lbrackC :: rbrackC :: rest) = some (.jarr .anil, rest) := rfl

theorem parseJ_arrCons (fuel : Nat) (d : Char) (r2 : List Char) :
    parseJ (fuel + 1) (lbrackC :: d :: r2) =
      (if d = rbrackC then some (.jarr .anil, r2)
       else
         match parseJ fuel (d :: r2) with
         | some (v, r1) =>
             match parseArrRest fuel r1 with
             | some (a, r3) => some (.jarr (.acons v a), r3)
             | none => none
         | none => none) := rfl

theorem parseJ_objNil (fuel : Nat) (rest : List Char) :
    parseJ (fuel + 1) (lbraceC :: rbraceC :: rest) = some (.jobj .onil, rest) := rfl

theorem parseJ_objKey (fuel : Nat) (r2 : List Char) :
    parseJ (fuel + 1) (lbraceC :: dquoteC :: r2) =
      (match parseStrChars r2 with
       | some (k, r3) =>
           match r3 with
           | e :: r4 =>
               if e = colonC then
                 match parseJ fuel r4 with
                 | some (v, r5) =>
                     match parseObjRest fuel r5 with
                     | some (o, r6) => some (.jobj (.ocons (String.mk k) v o), r6)
                     | none => none
                 | none => none
               else none
           | [] => none
       | none => none) := rfl

theorem parseJ_minus (fuel : Nat) (rest : List Char) :
    parseJ (fuel + 1) (minusC :: rest) =
      (if (rest.takeWhile (fun d => d.isDigit)).isEmpty then none
       else
         some (.jnum (Int.negOfNat
             (Nat.ofDigits 10 (((rest.takeWhile (fun d => d.isDigit)).map charVal).reverse))),
           rest.dropWhile (fun d => d.isDigit))) := rfl

theorem parseArr_rb (fuel : Nat) (rest : List Char) :
    parseArrRest (fuel + 1) (rbrackC :: rest) = some (.anil, rest) := rfl

theorem parseArr_comma (fuel : Nat) (rest : List Char) :
    parseArrRest (fuel + 1) (commaC :: rest) =
      (match parseJ fuel rest with
       | some (v, r1) =>
           match parseArrRest fuel r1 with
           | some (a, r2) => some (.acons v a, r2)
           | none => none
       | none => none) := rfl

theorem parseObj_rb (fuel : Nat) (rest : List Char) :
    parseObjRest (fuel + 1) (rbraceC :: rest) = some (.onil, rest) := rfl

theorem parseObj_comma (fuel : Nat) (r2 : List Char) :
    parseObjRest (fuel + 1) (commaC :: dquoteC :: r2) =
      (match parseStrChars r2 with
       | some (k, r3) =>
           match r3 with
           | e :: r4 =>
               if e = colonC then
                 match parseJ fuel r4 with
                 | some (v, r5) =>
                     match parseObjRest fuel r5 with
                     | some (o, r6) => some (.ocons (String.mk k) v o, r6)
                     | none => none
                 | none => none
               else none
           | [] => none
       | none => none) := rfl

theorem parseJ_num (fuel : Nat) (c : Char) (rest : List Char) (hc : c.isDigit = true) :
    parseJ (fuel + 1) (c :: rest) =
      some (.jnum (Int.ofNat
          (Nat.ofDigits 10 ((((c :: rest).takeWhile (fun d => d.isDigit)).map charVal).reverse))),
        (c :: rest).dropWhile (fun d => d.isDigit)) := by
  rw [parseJ_cons]
  rw [if_neg (digit_ne c nC hc (by decide)), if_neg (digit_ne c tC hc (by decide)),
    if_neg (digit_ne c fC hc (by decide)), if_neg (digit_ne c dquoteC hc (by decide)),
    if_neg (digit_ne c lbrackC hc (by decide)), if_neg (digit_ne c lbraceC hc (by decide)),
    if_neg (digit_ne c minusC hc (by decide)), if_pos hc]

theorem parse_num_pos (fuel m : Nat) (rest : List Char) (hrest : headNotDigit rest) :
    parseJ (fuel + 1) (natChars m ++ rest) = some (.jnum (Int.ofNat m), rest) := by
  obtain ⟨c, t, hct⟩ : ∃ c t, natChars m = c :: t := by
    cases h : natChars m with
    | nil => exact absurd h (natChars_ne_nil m)
    | cons c t => exact ⟨c, t, rfl⟩
  have hcd : c.isDigit = true := natChars_digits m c (by rw [hct]; simp)
  have hrun := takeWhile_digit_run (natChars m) rest (natChars_digits m) hrest
  rw [hct, List.cons_append, parseJ_num fuel c (t ++ rest) hcd, ← List.cons_append, ← hct,
    hrun.1, hrun.2, natChars_val]

theorem parse_num_neg (fuel m : Nat) (rest : List Char) (hrest : headNotDigit rest) :
    parseJ (fuel + 1) ((minusC :: natChars (m + 1)) ++ rest) =
      some (.jnum (Int.negSucc m), rest) := by
  rw [List.cons_append, parseJ_minus]
  have hrun := takeWhile_digit_run (natChars (m + 1)) rest (natChars_digits (m + 1)) hrest
  rw [hrun.1, hrun.2, natChars_val]
  rw [if_neg (by simp [List.isEmpty_iff, natChars_ne_nil])]
  rfl

theorem intChars_ne_nil (n : Int) : intChars n ≠ [] := by
  cases n with
  | ofNat m => simpa [intChars] using natChars_ne_nil m
  | negSucc m => simp [intChars]

theorem emitJ_ne_nil (v : JVal) : emitJ v ≠ [] := by
  cases v with
  | jnull => simp [emitJ]
  | jbool b => cases b <;> simp [emitJ]
  | jnum n => simpa [emitJ] using intChars_ne_nil n
  | jstr s => simp [emitJ]
  | jarr a => simp [emitJ]
  | jobj o => simp [emitJ]

theorem emitArrRest_ne_nil (a : JArr) : emitArrRest a ≠ [] := by
  cases a <;> simp [emitArrRest]

theorem emitObjRest_ne_nil (o : JObj) : emitObjRest o ≠ [] := by
  cases o <;> simp [emitObjRest]

theorem emitJ_head_ne_rbrack (v : JVal) (d : Char) (t : List Char)
    (h : emitJ v = d :: t) : ¬(d = rbrackC) := by
  cases v with
  | jnull => rw [emitJ] at h; injection h with h1 _; rw [← h1]; decide
  | jbool b =>
      cases b <;> rw [emitJ] at h <;> injection h with h1 _ <;> rw [← h1] <;> decide
  | jnum n =>
      cases n with
      | ofNat m =>
          have hm : natChars m = d :: t := h
          have hd : d.isDigit = true := natChars_digits m d (by rw [hm]; simp)
          exact digit_ne d rbrackC hd (by decide)
      | negSucc m =>
          rw [show emitJ (.jnum (Int.negSucc m)) = minusC :: natChars (m + 1) from rfl] at h
          injection h with h1 _
          rw [← h1]; decide
  | jstr s => rw [emitJ] at h; injection h with h1 _; rw [← h1]; decide
  | jarr a => rw [emitJ] at h; injection h with h1 _; rw [← h1]; decide
  | jobj o => rw [emitJ] at h; injection h with h1 _; rw [← h1]; decide

theorem emitArrRest_hnd (a : JArr) (rest : List Char) :
    headNotDigit (emitArrRest a ++ rest) := by
  cases a with
  | anil => exact (show rbrackC.isDigit = false by decide)
  | acons v r => exact (show commaC.isDigit = false by decide)

theorem emitObjRest_hnd (o : JObj) (rest : List Char) :
    headNotDigit (emitObjRest o ++ rest) := by
  cases o with
  | onil => exact (show rbraceC.isDigit = false by decide)
  | ocons k v r => exact (show commaC.isDigit = false by decide)

theorem numFollowOk_of (v : JVal) (r : List Char) (h : headNotDigit r) :
    numFollowOk v r := by
  cases v <;> first
    | exact h
    | trivial

theorem sizeJ_pos (v : JVal) : 1 ≤ sizeJ v := by
  cases v <;> simp [sizeJ] <;> omega

theorem sizeA_pos (a : JArr) : 1 ≤ sizeA a := by
  cases a <;> simp [sizeA] <;> omega

theorem sizeO_pos (o : JObj) : 1 ≤ sizeO o := by
  cases o <;> simp [sizeO] <;> omega

theorem parseJ_null (fuel : Nat) (rest : List Char) :
    parseJ (fuel + 1)
      (nC :: Char.ofNat 117 :: Char.ofNat 108 :: Char.ofNat 108 :: rest) =
      some (.jnull, rest) := by
  rw [parseJ_cons, if_pos rfl]
  rw [if_pos (show ([Char.ofNat 117, Char.ofNat 108, Char.ofNat 108]).isPrefixOf
      (Char.ofNat 117 :: Char.ofNat 108 :: Char.ofNat 108 :: rest) = true by
    simp [List.isPrefixOf])]
  simp [List.drop]

theorem parseJ_true (fuel : Nat) (rest : List Char) :
    parseJ (fuel + 1)
      (tC :: Char.ofNat 114 :: Char.ofNat 117 :: Char.ofNat 101 :: rest) =
      some (.jbool true, rest) := by
  rw [parseJ_cons, if_neg (by decide), if_pos rfl]
  rw [if_pos (show ([Char.ofNat 114, Char.ofNat 117, Char.ofNat 101]).isPrefixOf
      (Char.ofNat 114 :: Char.ofNat 117 :: Char.ofNat 101 :: rest) = true by
    simp [List.isPrefixOf])]
  simp [List.drop]

theorem parseJ_false (fuel : Nat) (rest : List Char) :
    parseJ (fuel + 1)
      (fC :: Char.ofNat 97 :: Char.ofNat 108 :: Char.ofNat 115 :: Char.ofNat 101 :: rest) =
      some (.jbool false, rest) := by
  rw [parseJ_cons, if_neg (by decide), if_neg (by decide), if_pos rfl]
  rw [if_pos (show ([Char.ofNat 97, Char.ofNat 108, Char.ofNat 115, Char.ofNat 101]).isPrefixOf
      (Char.ofNat 97 :: Char.ofNat 108 :: Char.ofNat 115 :: Char.ofNat 101 :: rest) = true by
    simp [List.isPrefixOf])]
  simp [List.drop]

theorem jsonRoundAll : ∀ n : Nat,
    (∀ v : JVal, ∀ rest : List Char, ∀ f : Nat, sizeJ v ≤ n → (emitJ v).length < f →
        numFollowOk v rest → parseJ f (emitJ v ++ rest) = some (v, rest)) ∧
    (∀ a : JArr, ∀ rest : List Char, ∀ f : Nat, sizeA a ≤ n → (emitArrRest a).length < f →
        parseArrRest f (emitArrRest a ++ rest) = some (a, rest)) ∧
    (∀ o : JObj, ∀ rest : List Char, ∀ f : Nat, sizeO o ≤ n → (emitObjRest o).length < f →
        parseObjRest f (emitObjRest o ++ rest) = some (o, rest)) := by
  intro n
  induction n with
  | zero =>
      refine ⟨fun v rest f hn _ _ => absurd hn (by have := sizeJ_pos v; omega),
        fun a rest f hn _ => absurd hn (by have := sizeA_pos a; omega),
        fun o rest f hn _ => absurd hn (by have := sizeO_pos o; omega)⟩
  | succ n ih =>
      obtain ⟨ihJ, ihA, ihO⟩ := ih
      refine ⟨?_, ?_, ?_⟩
      · intro v rest f hn hf hfol
        cases f with
        | zero => omega
        | succ f' =>
          cases v with
          | jnull => exact parseJ_null f' rest
          | jbool b =>
              cases b with
              | true => exact parseJ_true f' rest
              | false => exact parseJ_false f' rest
          | jnum i =>
              cases i with
              | ofNat m => exact parse_num_pos f' m rest hfol
              | negSucc m => exact parse_num_neg f' m rest hfol
          | jstr s =>
              have h1 : emitJ (.jstr s) ++ rest
                  = dquoteC :: (escJson s.data ++ (dquoteC :: rest)) := by
                show dquoteC :: ((escJson s.data ++ [dquoteC]) ++ rest) = _
                rw [List.append_assoc]
                rfl
              rw [h1, parseJ_str, parseStrChars_round]
          | jarr a =>
              cases a with
              | anil => exact rfl
              | acons v2 a2 =>
                  obtain ⟨d, t, hdt⟩ : ∃ d t, emitJ v2 = d :: t := by
                    cases h : emitJ v2 with
                    | nil => exact absurd h (emitJ_ne_nil v2)
                    | cons d t => exact ⟨d, t, rfl⟩
                  have hsz : sizeJ (.jarr (.acons v2 a2)) = 1 + (1 + sizeJ v2 + sizeA a2) := rfl
                  have hlen : emitJ (.jarr (.acons v2 a2))
                      = lbrackC :: (emitJ v2 ++ emitArrRest a2) := rfl
                  rw [hsz] at hn
                  rw [hlen] at hf
                  simp only [List.length_cons, List.length_append] at hf
                  have hA1 : 1 ≤ (emitArrRest a2).length :=
                    List.length_pos.mpr (emitArrRest_ne_nil a2)
                  have hJ1 : 1 ≤ (emitJ v2).length := List.length_pos.mpr (emitJ_ne_nil v2)
                  have h1 : emitJ (.jarr (.acons v2 a2)) ++ rest
                      = lbrackC :: (d :: (t ++ (emitArrRest a2 ++ rest))) := by
                    show lbrackC :: ((emitJ v2 ++ emitArrRest a2) ++ rest) = _
                    rw [List.append_assoc, hdt, List.cons_append]
                  have hJrec : parseJ f' (emitJ v2 ++ (emitArrRest a2 ++ rest))
                      = some (v2, emitArrRest a2 ++ rest) := by
                    apply ihJ v2 _ f' (by omega) (by omega)
                    exact numFollowOk_of v2 _ (emitArrRest_hnd a2 rest)
                  have hArec : parseArrRest f' (emitArrRest a2 ++ rest) = some (a2, rest) :=
                    ihA a2 rest f' (by omega) (by omega)
                  rw [h1, parseJ_arrCons, if_neg (emitJ_head_ne_rbrack v2 d t hdt),
                    ← List.cons_append, ← hdt]
                  simp only [hJrec, hArec]
          | jobj o =>
              cases o with
              | onil => exact rfl
              | ocons k v2 o2 =>
                  have hsz : sizeJ (.jobj (.ocons k v2 o2)) = 1 + (1 + sizeJ v2 + sizeO o2) := rfl
                  have hlen : emitJ (.jobj (.ocons k v2 o2))
                      = lbraceC :: ((dquoteC :: (escJson k.data ++ [dquoteC])) ++
                          (colonC :: (emitJ v2 ++ emitObjRest o2))) := rfl
                  rw [hsz] at hn
                  rw [hlen] at hf
                  simp only [List.length_cons, List.length_append] at hf
                  have hO1 : 1 ≤ (emitObjRest o2).length :=
                    List.length_pos.mpr (emitObjRest_ne_nil o2)
                  have hJ1 : 1 ≤ (emitJ v2).length := List.length_pos.mpr (emitJ_ne_nil v2)
                  have h1 : emitJ (.jobj (.ocons k v2 o2)) ++ rest
                      = lbraceC :: (dquoteC :: (escJson k.data ++
                          (dquoteC :: (colonC :: (emitJ v2 ++ (emitObjRest o2 ++ rest)))))) := by
                    show lbraceC :: (((dquoteC :: (escJson k.data ++ [dquoteC])) ++
                        (colonC :: (emitJ v2 ++ emitObjRest o2))) ++ rest) = _
                    simp [List.append_assoc]
                  have hJrec : parseJ f' (emitJ v2 ++ (emitObjRest o2 ++ rest))
                      = some (v2, emitObjRest o2 ++ rest) := by
                    apply ihJ v2 _ f' (by omega) (by omega)
                    exact numFollowOk_of v2 _ (emitObjRest_hnd o2 rest)
                  have hOrec : parseObjRest f' (emitObjRest o2 ++ rest) = some (o2, rest) :=
                    ihO o2 rest f' (by omega) (by omega)
                  rw [h1, parseJ_objKey, parseStrChars_round]
                  simp only [hJrec, hOrec, reduceIte, mk_data]
      · intro a rest f hn hf
        cases f with
        | zero => omega
        | succ f' =>
          cases a with
          | anil => exact rfl
          | acons v2 a2 =>
              have hsz : sizeA (.acons v2 a2) = 1 + sizeJ v2 + sizeA a2 := rfl
              have hlen : emitArrRest (.acons v2 a2)
                  = commaC :: (emitJ v2 ++ emitArrRest a2) := rfl
              rw [hsz] at hn
              rw [hlen] at hf
              simp only [List.length_cons, List.length_append] at hf
              have hA1 : 1 ≤ (emitArrRest a2).length :=
                List.length_pos.mpr (emitArrRest_ne_nil a2)
              have hJ1 : 1 ≤ (emitJ v2).length := List.length_pos.mpr (emitJ_ne_nil v2)
              have h1 : emitArrRest (.acons v2 a2) ++ rest
                  = commaC :: (emitJ v2 ++ (emitArrRest a2 ++ rest)) := by
                show commaC :: ((emitJ v2 ++ emitArrRest a2) ++ rest) = _
                rw [List.append_assoc]
              have hJrec : parseJ f' (emitJ v2 ++ (emitArrRest a2 ++ rest))
                  = some (v2, emitArrRest a2 ++ rest) := by
                apply ihJ v2 _ f' (by omega) (by omega)
                exact numFollowOk_of v2 _ (emitArrRest_hnd a2 rest)
              have hArec : parseArrRest f' (emitArrRest a2 ++ rest) = some (a2, rest) :=
                ihA a2 rest f' (by omega) (by omega)
              rw [h1, parseArr_comma]
              simp only [hJrec, hArec]
      · intro o rest f hn hf
        cases f with
        | zero => omega
        | succ f' =>
          cases o with
          | onil => exact rfl
          | ocons k v2 o2 =>
              have hsz : sizeO (.ocons k v2 o2) = 1 + sizeJ v2 + sizeO o2 := rfl
              have hlen : emitObjRest (.ocons k v2 o2)
                  = commaC :: ((dquoteC :: (escJson k.data ++ [dquoteC])) ++
                      (colonC :: (emitJ v2 ++ emitObjRest o2))) := rfl
              rw [hsz] at hn
              rw [hlen] at hf
              simp only [List.length_cons, List.length_append] at hf
              have hO1 : 1 ≤ (emitObjRest o2).length :=
                List.length_pos.mpr (emitObjRest_ne_nil o2)
              have hJ1 : 1 ≤ (emitJ v2).length := List.length_pos.mpr (emitJ_ne_nil v2)
              have h1 : emitObjRest (.ocons k v2 o2) ++ rest
                  = commaC :: (dquoteC :: (escJson k.data ++
                      (dquoteC :: (colonC :: (emitJ v2 ++ (emitObjRest o2 ++ rest)))))) := by
                show commaC :: (((dquoteC :: (escJson k.data ++ [dquoteC])) ++
                    (colonC :: (emitJ v2 ++ emitObjRest o2))) ++ rest) = _
                simp [List.append_assoc]
              have hJrec : parseJ f' (emitJ v2 ++ (emitObjRest o2 ++ rest))
                  = some (v2, emitObjRest o2 ++ rest) := by
                apply ihJ v2 _ f' (by omega) (by omega)
                exact numFollowOk_of v2 _ (emitObjRest_hnd o2 rest)
              have hOrec : parseObjRest f' (emitObjRest o2 ++ rest) = some (o2, rest) :=
                ihO o2 rest f' (by omega) (by omega)
              rw [h1, parseObj_comma, parseStrChars_round]
              simp only [hJrec, hOrec, reduceIte, mk_data]

theorem jsonParse_stringify (v : JVal) : jsonParse (jsonStringify v) = some v := by
  have h := (jsonRoundAll (sizeJ v)).1 v [] ((emitJ v).length + 1) le_rfl (by omega)
    (numFollowOk_of v [] trivial)
  rw [List.append_nil] at h
  simp only [jsonParse, jsonStringify]
  rw [h]

theorem getVal_setVal_self (r : List (String × RVal)) (k : String) (v : RVal) :
    getVal (setVal r k v) k = some v := by
  induction r with
  | nil => simp [setVal, getVal]
  | cons p rest ih =>
      obtain ⟨k1, w⟩ := p
      by_cases h : k1 = k
      · subst h; simp [setVal, getVal]
      · simp [setVal, getVal, h, ih]

theorem getVal_setVal_ne (r : List (String × RVal)) (k k2 : String) (v : RVal)
    (h : ¬(k = k2)) : getVal (setVal r k v) k2 = getVal r k2 := by
  induction r with
  | nil => simp [setVal, getVal, h]
  | cons p rest ih =>
      obtain ⟨k1, w⟩ := p
      by_cases h1 : k1 = k
      · subst h1; simp [setVal, getVal, h]
      · simp only [setVal, if_neg h1, getVal]
        by_cases h2 : k1 = k2
        · simp [h2]
        · simp [h2, ih]

theorem setVal_setVal (r : List (String × RVal)) (k : String) (a b : RVal) :
    setVal (setVal r k a) k b = setVal r k b := by
  induction r with
  | nil => simp [setVal]
  | cons p rest ih =>
      obtain ⟨k1, w⟩ := p
      by_cases h : k1 = k
      · subst h; simp [setVal]
      · simp [setVal, h, ih]

theorem setVal_get_self (r : List (String × RVal)) (k : String) (v : RVal)
    (h : getVal r k = some v) : setVal r k v = r := by
  induction r with
  | nil => simp [getVal] at h
  | cons p rest ih =>
      obtain ⟨k1, w⟩ := p
      by_cases h1 : k1 = k
      · subst h1
        rw [getVal, if_pos rfl] at h
        injection h with h
        simp [setVal, h]
      · simp only [getVal, if_neg h1] at h
        simp [setVal, h1, ih h]

theorem setVal_comm (r : List (String × RVal)) (k1 k2 : String) (a b u : RVal)
    (h : ¬(k1 = k2)) (hp : getVal r k1 = some u) :
    setVal (setVal r k1 a) k2 b = setVal (setVal r k2 b) k1 a := by
  induction r with
  | nil => simp [getVal] at hp
  | cons p rest ih =>
      obtain ⟨k, w⟩ := p
      by_cases e1 : k = k1
      · subst e1
        have e2 : ¬(k = k2) := h
        simp [setVal, e2, if_pos rfl]
      · rw [getVal, if_neg e1] at hp
        by_cases e2 : k = k2
        · subst e2
          simp [setVal, e1, if_pos rfl]
        · simp [setVal, e1, e2, ih hp]

theorem reifyAttr_absent (vts : List (String × RVal)) (an : String) (ad : AttrDef)
    (hv : getVal vts (jsOrStr ad.columnName an) = none) :
    reifyAttr vts an ad = vts := by
  simp only [reifyAttr, hv]

theorem reifyAttr_number (vts : List (String × RVal)) (an : String) (ad : AttrDef)
    (hj : ¬(ad.type = "json")) (hr : ¬(ad.type = "ref")) (hb : ¬(ad.type = "boolean")) :
    reifyAttr vts an ad = vts := by
  simp only [reifyAttr]
  cases hv : getVal vts (jsOrStr ad.columnName an) with
  | none => rfl
  | some v0 =>
      have hc : ¬(ad.type = "json" ∧ ¬(v0 = RVal.js JVal.jnull)) := fun hh => hj hh.1
      simp only [if_neg hc, if_neg hr, if_neg hb]

theorem reifyAttr_bool (vts : List (String × RVal)) (an : String) (ad : AttrDef)
    (ht : ad.type = "boolean") (v : RVal)
    (hv : getVal vts (jsOrStr ad.columnName an) = some v) :
    reifyAttr vts an ad
      = setVal vts (jsOrStr ad.columnName an) (.js (.jnum (if jsTruthy v then 1 else 0))) := by
  have hj : ¬(ad.type = "json") := by rw [ht]; decide
  have hr : ¬(ad.type = "ref") := by rw [ht]; decide
  have hc : ¬(ad.type = "json" ∧ ¬(v = RVal.js JVal.jnull)) := fun hh => hj hh.1
  simp only [reifyAttr, hv, if_neg hc, if_neg hr, if_pos ht, Option.getD_some]

theorem reifyAttr_json_val (vts : List (String × RVal)) (an : String) (ad : AttrDef)
    (ht : ad.type = "json") (v : RVal)
    (hv : getVal vts (jsOrStr ad.columnName an) = some v) (hnn : ¬(v = .js .jnull)) :
    reifyAttr vts an ad
      = setVal vts (jsOrStr ad.columnName an) (.js (.jstr (jsonStringifyR v))) := by
  have hr : ¬(ad.type = "ref") := by rw [ht]; decide
  have hb : ¬(ad.type = "boolean") := by rw [ht]; decide
  simp only [reifyAttr, hv, if_pos (And.intro ht hnn), if_neg hr, if_neg hb,
    getVal_setVal_self, Option.getD_some]

theorem reifyAttr_json_null (vts : List (String × RVal)) (an : String) (ad : AttrDef)
    (ht : ad.type = "json")
    (hv : getVal vts (jsOrStr ad.columnName an) = some (.js .jnull)) :
    reifyAttr vts an ad = vts := by
  have hr : ¬(ad.type = "ref") := by rw [ht]; decide
  have hb : ¬(ad.type = "boolean") := by rw [ht]; decide
  simp only [reifyAttr, hv]
  simp [hr, hb]

theorem colOf_eq (p : String × AttrDef) (c : String) (hc : p.2.columnName = some c)
    (hne : ¬(c = "")) : colOf p = c := by
  simp [colOf, jsOrStr, hc, hne]

theorem processAttr_other (rec : List (String × RVal)) (ad : AttrDef)
    (hj : ¬(ad.type = "json")) (hr : ¬(ad.type = "ref")) (hb : ¬(ad.type = "boolean"))
    (hm : ad.model = none) (hf : ad.foreignKey = false) :
    processAttr rec ad = .ok rec := by
  simp only [processAttr, if_neg hj, if_neg hr, if_neg hb, hm, hf]
  rfl

theorem processAttr_bool (rec : List (String × RVal)) (ad : AttrDef)
    (ht : ad.type = "boolean") (hm : ad.model = none) (hf : ad.foreignKey = false)
    (cn : String) (hc : ad.columnName = some cn) (v : RVal)
    (hv : getVal rec cn = some v) :
    processAttr rec ad = .ok (setVal rec cn (.js (.jbool (jsTruthy v)))) := by
  have hj : ¬(ad.type = "json") := by rw [ht]; decide
  have hr : ¬(ad.type = "ref") := by rw [ht]; decide
  simp only [processAttr, hc, if_neg hj, if_neg hr, if_pos ht, hv, hm, hf]
  rfl

theorem processAttr_json_str (rec : List (String × RVal)) (ad : AttrDef)
    (ht : ad.type = "json") (hm : ad.model = none) (hf : ad.foreignKey = false)
    (cn : String) (hc : ad.columnName = some cn) (s : String)
    (hv : getVal rec cn = some (.js (.jstr s))) :
    processAttr rec ad = .ok
      (match jsonParse s with
       | some j => setVal rec cn (.js j)
       | none => rec) := by
  have hr : ¬(ad.type = "ref") := by rw [ht]; decide
  have hb : ¬(ad.type = "boolean") := by rw [ht]; decide
  simp only [processAttr, hc, if_pos ht, hv, if_neg hr, if_neg hb, hm, hf]
  cases hp : jsonParse s with
  | some j =>
      simp only [hp]
      rfl
  | none =>
      simp only [hp, hv]
      rfl

theorem processAttr_json_nonstr (rec : List (String × RVal)) (ad : AttrDef)
    (ht : ad.type = "json") (hm : ad.model = none) (hf : ad.foreignKey = false)
    (cn : String) (hc : ad.columnName = some cn) (v : RVal)
    (hv : getVal rec cn = some v) (hns : ∀ s, ¬(v = .js (.jstr s))) :
    processAttr rec ad = .ok rec := by
  have hr : ¬(ad.type = "ref") := by rw [ht]; decide
  have hb : ¬(ad.type = "boolean") := by rw [ht]; decide
  simp only [processAttr, hc, if_pos ht, hv, if_neg hr, if_neg hb, hm, hf]
  cases v with
  | date d => rfl
  | js j =>
      cases j with
      | jstr s => exact absurd rfl (hns s)
      | jnull => rfl
      | jbool b => rfl
      | jnum n => rfl
      | jarr a => rfl
      | jobj o => rfl

theorem processAttr_json_absent (rec : List (String × RVal)) (ad : AttrDef)
    (ht : ad.type = "json") (hm : ad.model = none) (hf : ad.foreignKey = false)
    (cn : String) (hc : ad.columnName = some cn)
    (hv : getVal rec cn = none) :
    processAttr rec ad = .ok rec := by
  have hr : ¬(ad.type = "ref") := by rw [ht]; decide
  have hb : ¬(ad.type = "boolean") := by rw [ht]; decide
  simp only [processAttr, hc, if_pos ht, hv, if_neg hr, if_neg hb, hm, hf]
  rfl

theorem processAttr_bool_absent (rec : List (String × RVal)) (ad : AttrDef)
    (ht : ad.type = "boolean") (hm : ad.model = none) (hf : ad.foreignKey = false)
    (cn : String) (hc : ad.columnName = some cn)
    (hv : getVal rec cn = none) :
    processAttr rec ad = .ok (setVal rec cn (.js (.jbool false))) := by
  have hj : ¬(ad.type = "json") := by rw [ht]; decide
  have hr : ¬(ad.type = "ref") := by rw [ht]; decide
  simp only [processAttr, hc, if_neg hj, if_neg hr, if_pos ht, hv, hm, hf]
  rfl

theorem reifyAttrs_cons (an : String) (ad : AttrDef) (rest : List (String × AttrDef))
    (w : List (String × RVal)) :
    reifyAttrs ((an, ad) :: rest) w = reifyAttrs rest (reifyAttr w an ad) := rfl

theorem processAttrs_cons (an : String) (ad : AttrDef) (rest : List (String × AttrDef))
    (w : List (String × RVal)) :
    processAttrs ((an, ad) :: rest) w =
      (match processAttr w ad with
       | .error e => .error e
       | .ok r2 => processAttrs rest r2) := rfl

theorem reifyAttr_shape (w : List (String × RVal)) (an : String) (ad : AttrDef)
    (hg : goodAttrDef (an, ad)) :
    reifyAttr w an ad = w ∨
      ∃ u, reifyAttr w an ad = setVal w (jsOrStr ad.columnName an) u := by
  obtain ⟨c, hc, hne, hm, hf, ht⟩ := hg
  rcases ht with ht | ht | ht
  · exact Or.inl (reifyAttr_number w an ad (by rw [ht]; decide) (by rw [ht]; decide)
      (by rw [ht]; decide))
  · cases hv : getVal w (jsOrStr ad.columnName an) with
    | none => exact Or.inl (reifyAttr_absent w an ad hv)
    | some v => exact Or.inr ⟨_, reifyAttr_bool w an ad ht v hv⟩
  · cases hv : getVal w (jsOrStr ad.columnName an) with
    | none => exact Or.inl (reifyAttr_absent w an ad hv)
    | some v =>
        by_cases hnn : v = .js .jnull
        · subst hnn
          exact Or.inl (reifyAttr_json_null w an ad ht hv)
        · exact Or.inr ⟨_, reifyAttr_json_val w an ad ht v hv hnn⟩

theorem reifyAttrs_frame (attrs : List (String × AttrDef)) (w : List (String × RVal))
    (cn : String) (hg : ∀ p ∈ attrs, goodAttrDef p)
    (hcn : ∀ p ∈ attrs, ¬(colOf p = cn)) :
    getVal (reifyAttrs attrs w) cn = getVal w cn := by
  induction attrs generalizing w with
  | nil => rfl
  | cons p rest ih =>
      obtain ⟨an, ad⟩ := p
      rw [reifyAttrs_cons]
      have hne : ¬(jsOrStr ad.columnName an = cn) := hcn (an, ad) (List.mem_cons_self _ _)
      have hgr : ∀ q ∈ rest, goodAttrDef q := fun q hq => hg q (List.mem_cons_of_mem _ hq)
      have hcr : ∀ q ∈ rest, ¬(colOf q = cn) := fun q hq => hcn q (List.mem_cons_of_mem _ hq)
      rcases reifyAttr_shape w an ad (hg (an, ad) (List.mem_cons_self _ _)) with h | ⟨u, h⟩
      · rw [h, ih w hgr hcr]
      · rw [h, ih (setVal w (jsOrStr ad.columnName an) u) hgr hcr,
          getVal_setVal_ne _ _ _ _ hne]

theorem reifyAttrs_setVal (attrs : List (String × AttrDef)) (w : List (String × RVal))
    (cn : String) (v : RVal)
    (hg : ∀ p ∈ attrs, goodAttrDef p) (hcn : ∀ p ∈ attrs, ¬(colOf p = cn)) :
    reifyAttrs attrs (setVal w cn v) = setVal (reifyAttrs attrs w) cn v := by
  induction attrs generalizing w with
  | nil => rfl
  | cons p rest ih =>
      obtain ⟨an, ad⟩ := p
      obtain ⟨c, hc0, hne0, hm0, hf0, ht0⟩ := hg (an, ad) (List.mem_cons_self _ _)
      have hc : ad.columnName = some c := hc0
      have ht : ad.type = "number" ∨ ad.type = "boolean" ∨ ad.type = "json" := ht0
      have hcol : jsOrStr ad.columnName an = c := by simp [jsOrStr, hc, hne0]
      have hne : ¬(c = cn) := by
        have := hcn (an, ad) (List.mem_cons_self _ _)
        rw [show colOf (an, ad) = jsOrStr ad.columnName an from rfl, hcol] at this
        exact this
      have hgr : ∀ q ∈ rest, goodAttrDef q := fun q hq => hg q (List.mem_cons_of_mem _ hq)
      have hcr : ∀ q ∈ rest, ¬(colOf q = cn) := fun q hq => hcn q (List.mem_cons_of_mem _ hq)
      rw [reifyAttrs_cons, reifyAttrs_cons]
      rcases ht with ht | ht | ht
      · rw [reifyAttr_number (setVal w cn v) an ad (by rw [ht]; decide) (by rw [ht]; decide)
          (by rw [ht]; decide),
          reifyAttr_number w an ad (by rw [ht]; decide) (by rw [ht]; decide)
          (by rw [ht]; decide)]
        exact ih w hgr hcr
      · cases hv : getVal w (jsOrStr ad.columnName an) with
        | none =>
            have hv2 : getVal (setVal w cn v) (jsOrStr ad.columnName an) = none := by
              rw [hcol] at hv ⊢
              rw [getVal_setVal_ne _ _ _ _ (fun hh => hne hh.symm), hv]
            rw [reifyAttr_absent _ an ad hv2, reifyAttr_absent _ an ad hv]
            exact ih w hgr hcr
        | some v0 =>
            have hv2 : getVal (setVal w cn v) (jsOrStr ad.columnName an) = some v0 := by
              rw [hcol] at hv ⊢
              rw [getVal_setVal_ne _ _ _ _ (fun hh => hne hh.symm), hv]
            rw [reifyAttr_bool _ an ad ht v0 hv2, reifyAttr_bool w an ad ht v0 hv]
            rw [hcol] at hv ⊢
            rw [(setVal_comm w c cn _ v v0 hne hv).symm]
            exact ih (setVal w c (.js (.jnum (if jsTruthy v0 then 1 else 0)))) hgr hcr
      · cases hv : getVal w (jsOrStr ad.columnName an) with
        | none =>
            have hv2 : getVal (setVal w cn v) (jsOrStr ad.columnName an) = none := by
              rw [hcol] at hv ⊢
              rw [getVal_setVal_ne _ _ _ _ (fun hh => hne hh.symm), hv]
            rw [reifyAttr_absent _ an ad hv2, reifyAttr_absent _ an ad hv]
            exact ih w hgr hcr
        | some v0 =>
            by_cases hnn : v0 = .js .jnull
            · subst hnn
              have hv2 : getVal (setVal w cn v) (jsOrStr ad.columnName an)
                  = some (.js .jnull) := by
                rw [hcol] at hv ⊢
                rw [getVal_setVal_ne _ _ _ _ (fun hh => hne hh.symm), hv]
              rw [reifyAttr_json_null _ an ad ht hv2, reifyAttr_json_null w an ad ht hv]
              exact ih w hgr hcr
            · have hv2 : getVal (setVal w cn v) (jsOrStr ad.columnName an) = some v0 := by
                rw [hcol] at hv ⊢
                rw [getVal_setVal_ne _ _ _ _ (fun hh => hne hh.symm), hv]
              rw [reifyAttr_json_val _ an ad ht v0 hv2 hnn,
                reifyAttr_json_val w an ad ht v0 hv hnn]
              rw [hcol] at hv ⊢
              rw [(setVal_comm w c cn _ v v0 hne hv).symm]
              exact ih (setVal w c (.js (.jstr (jsonStringifyR v0)))) hgr hcr

theorem processAttrs_setVal (attrs : List (String × AttrDef))
    (w w' : List (String × RVal)) (cn : String) (v u0 : RVal)
    (hg : ∀ p ∈ attrs, goodAttrDef p) (hcn : ∀ p ∈ attrs, ¬(colOf p = cn))
    (hpres : getVal w cn = some u0)
    (hw : processAttrs attrs w = .ok w') :
    processAttrs attrs (setVal w cn v) = .ok (setVal w' cn v) := by
  induction attrs generalizing w w' with
  | nil =>
      simp only [processAttrs] at hw ⊢
      injection hw with hw
      rw [hw]
  | cons p rest ih =>
      obtain ⟨an, ad⟩ := p
      obtain ⟨c, hc0, hne0, hm0, hf0, ht0⟩ := hg (an, ad) (List.mem_cons_self _ _)
      have hc : ad.columnName = some c := hc0
      have hm : ad.model = none := hm0
      have hf : ad.foreignKey = false := hf0
      have ht : ad.type = "number" ∨ ad.type = "boolean" ∨ ad.type = "json" := ht0
      have hcol : jsOrStr ad.columnName an = c := by simp [jsOrStr, hc, hne0]
      have hne : ¬(c = cn) := by
        have := hcn (an, ad) (List.mem_cons_self _ _)
        rw [show colOf (an, ad) = jsOrStr ad.columnName an from rfl, hcol] at this
        exact this
      have hgr : ∀ q ∈ rest, goodAttrDef q := fun q hq => hg q (List.mem_cons_of_mem _ hq)
      have hcr : ∀ q ∈ rest, ¬(colOf q = cn) := fun q hq => hcn q (List.mem_cons_of_mem _ hq)
      rw [processAttrs_cons] at hw ⊢
      rcases ht with ht | ht | ht
      · rw [processAttr_other w ad (by rw [ht]; decide) (by rw [ht]; decide)
          (by rw [ht]; decide) hm hf] at hw
        rw [processAttr_other (setVal w cn v) ad (by rw [ht]; decide) (by rw [ht]; decide)
          (by rw [ht]; decide) hm hf]
        exact ih w w' hgr hcr hpres hw
      · cases hv : getVal w c with
        | none =>
            have hv2 : getVal (setVal w cn v) c = none := by
              rw [getVal_setVal_ne _ _ _ _ (fun hh => hne hh.symm), hv]
            rw [processAttr_bool_absent w ad ht hm hf c hc hv] at hw
            rw [processAttr_bool_absent (setVal w cn v) ad ht hm hf c hc hv2]
            rw [setVal_comm w cn c v (.js (.jbool false)) u0 (fun hh => hne hh.symm) hpres]
            exact ih (setVal w c (.js (.jbool false))) w' hgr hcr
              (by rw [getVal_setVal_ne _ _ _ _ hne, hpres]) hw
        | some v0 =>
            have hv2 : getVal (setVal w cn v) c = some v0 := by
              rw [getVal_setVal_ne _ _ _ _ (fun hh => hne hh.symm), hv]
            rw [processAttr_bool w ad ht hm hf c hc v0 hv] at hw
            rw [processAttr_bool (setVal w cn v) ad ht hm hf c hc v0 hv2]
            rw [(setVal_comm w c cn (.js (.jbool (jsTruthy v0))) v v0 hne hv).symm]
            exact ih (setVal w c (.js (.jbool (jsTruthy v0)))) w' hgr hcr
              (by rw [getVal_setVal_ne _ _ _ _ hne, hpres]) hw
      · cases hv : getVal w c with
        | none =>
            have hv2 : getVal (setVal w cn v) c = none := by
              rw [getVal_setVal_ne _ _ _ _ (fun hh => hne hh.symm), hv]
            rw [processAttr_json_absent w ad ht hm hf c hc hv] at hw
            rw [processAttr_json_absent (setVal w cn v) ad ht hm hf c hc hv2]
            exact ih w w' hgr hcr hpres hw
        | some v0 =>
            have hv2 : getVal (setVal w cn v) c = some v0 := by
              rw [getVal_setVal_ne _ _ _ _ (fun hh => hne hh.symm), hv]
            by_cases hs : ∃ s, v0 = .js (.jstr s)
            · obtain ⟨s, rfl⟩ := hs
              rw [processAttr_json_str w ad ht hm hf c hc s hv] at hw
              rw [processAttr_json_str (setVal w cn v) ad ht hm hf c hc s hv2]
              cases hp : jsonParse s with
              | some j =>
                  simp only [hp] at hw ⊢
                  rw [(setVal_comm w c cn (.js j) v _ hne hv).symm]
                  exact ih (setVal w c (.js j)) w' hgr hcr
                    (by rw [getVal_setVal_ne _ _ _ _ hne, hpres]) hw
              | none =>
                  simp only [hp] at hw ⊢
                  exact ih w w' hgr hcr hpres hw
            · have hns : ∀ s, ¬(v0 = .js (.jstr s)) := fun s hh => hs ⟨s, hh⟩
              rw [processAttr_json_nonstr w ad ht hm hf c hc v0 hv hns] at hw
              rw [processAttr_json_nonstr (setVal w cn v) ad ht hm hf c hc v0 hv2 hns]
              exact ih w w' hgr hcr hpres hw

theorem jsTruthy_reified_bool (b : Bool) :
    jsTruthy (.js (.jnum (if jsTruthy (.js (.jbool b)) then 1 else 0))) = b := by
  cases b <;> rfl

theorem marshalRound (attrs : List (String × AttrDef)) (r : List (String × RVal))
    (hg : ∀ p ∈ attrs, goodAttrDef p) (hvs : ∀ p ∈ attrs, goodVal r p)
    (hnd : (attrs.map colOf).Nodup) :
    processAttrs attrs (reifyAttrs attrs r) = .ok r := by
  induction attrs with
  | nil => rfl
  | cons p rest ih =>
      obtain ⟨an, ad⟩ := p
      obtain ⟨c, hc0, hne0, hm0, hf0, ht0⟩ := hg (an, ad) (List.mem_cons_self _ _)
      have hc : ad.columnName = some c := hc0
      have hm : ad.model = none := hm0
      have hf : ad.foreignKey = false := hf0
      have ht : ad.type = "number" ∨ ad.type = "boolean" ∨ ad.type = "json" := ht0
      have hcol : jsOrStr ad.columnName an = c := by simp [jsOrStr, hc, hne0]
      have hgr : ∀ q ∈ rest, goodAttrDef q := fun q hq => hg q (List.mem_cons_of_mem _ hq)
      have hvr : ∀ q ∈ rest, goodVal r q := fun q hq => hvs q (List.mem_cons_of_mem _ hq)
      have hndr : (rest.map colOf).Nodup := (List.nodup_cons.mp hnd).2
      have hcr : ∀ q ∈ rest, ¬(colOf q = c) := by
        intro q hq hqe
        have hmem : colOf (an, ad) ∈ rest.map colOf := by
          rw [show colOf (an, ad) = jsOrStr ad.columnName an from rfl, hcol, ← hqe]
          exact List.mem_map_of_mem colOf hq
        exact (List.nodup_cons.mp hnd).1 hmem
      have hval := hvs (an, ad) (List.mem_cons_self _ _)
      have ihr := ih hgr hvr hndr
      rw [reifyAttrs_cons, processAttrs_cons]
      rcases ht with ht | ht | ht
      · rw [reifyAttr_number r an ad (by rw [ht]; decide) (by rw [ht]; decide)
          (by rw [ht]; decide)]
        rw [processAttr_other (reifyAttrs rest r) ad (by rw [ht]; decide)
          (by rw [ht]; decide) (by rw [ht]; decide) hm hf]
        exact ihr
      · obtain ⟨b, hb⟩ := hval.2.1 ht
        rw [show colOf (an, ad) = jsOrStr ad.columnName an from rfl, hcol] at hb
        have hbv : getVal r (jsOrStr ad.columnName an) = some (.js (.jbool b)) := by
          rw [hcol]; exact hb
        rw [reifyAttr_bool r an ad ht _ hbv, hcol,
          reifyAttrs_setVal rest r c _ hgr hcr]
        have hgv : getVal (setVal (reifyAttrs rest r) c
            (.js (.jnum (if jsTruthy (.js (.jbool b)) then 1 else 0)))) c
            = some (.js (.jnum (if jsTruthy (.js (.jbool b)) then 1 else 0))) :=
          getVal_setVal_self _ _ _
        rw [processAttr_bool _ ad ht hm hf c hc _ hgv, setVal_setVal,
          jsTruthy_reified_bool]
        have hpres : getVal (reifyAttrs rest r) c = some (.js (.jbool b)) := by
          rw [reifyAttrs_frame rest r c hgr hcr]
          exact hb
        show processAttrs rest (setVal (reifyAttrs rest r) c (.js (.jbool b))) = .ok r
        rw [processAttrs_setVal rest _ r c _ _ hgr hcr hpres ihr,
          setVal_get_self r c _ hb]
      · obtain ⟨j, hj⟩ := hval.2.2 ht
        rw [show colOf (an, ad) = jsOrStr ad.columnName an from rfl, hcol] at hj
        have hjv : getVal r (jsOrStr ad.columnName an) = some (.js j) := by
          rw [hcol]; exact hj
        by_cases hnn : j = .jnull
        · subst hnn
          rw [reifyAttr_json_null r an ad ht hjv]
          have hpres : getVal (reifyAttrs rest r) c = some (.js .jnull) := by
            rw [reifyAttrs_frame rest r c hgr hcr]
            exact hj
          rw [processAttr_json_nonstr _ ad ht hm hf c hc _ hpres
            (fun s hh => by cases hh)]
          exact ihr
        · have hnn2 : ¬((.js j : RVal) = .js .jnull) := by
            intro hh
            injection hh with hh
            exact hnn hh
          rw [reifyAttr_json_val r an ad ht _ hjv hnn2, hcol,
            reifyAttrs_setVal rest r c _ hgr hcr]
          have hgv : getVal (setVal (reifyAttrs rest r) c
              (.js (.jstr (jsonStringifyR (.js j))))) c
              = some (.js (.jstr (jsonStringifyR (.js j)))) := getVal_setVal_self _ _ _
          rw [processAttr_json_str _ ad ht hm hf c hc _ hgv]
          rw [show jsonStringifyR (.js j) = jsonStringify j from rfl,
            jsonParse_stringify j]
          have hpres : getVal (reifyAttrs rest r) c = some (.js j) := by
            rw [reifyAttrs_frame rest r c hgr hcr]
            exact hj
          show processAttrs rest (setVal (setVal (reifyAttrs rest r) c
              (.js (.jstr (jsonStringify j)))) c (.js j)) = .ok r
          rw [setVal_setVal]
          rw [processAttrs_setVal rest _ r c _ _ hgr hcr hpres ihr,
            setVal_get_self r c _ hj]

theorem lookupAttr_mem (attrs : List (String × AttrDef)) (k : String) (d : AttrDef)
    (h : lookupAttr attrs k = some d) : (k, d) ∈ attrs := by
  induction attrs with
  | nil => simp [lookupAttr] at h
  | cons p rest ih =>
      obtain ⟨k1, d1⟩ := p
      by_cases he : k1 = k
      · subst he
        rw [lookupAttr, if_pos rfl] at h
        injection h with h
        subst h
        exact List.mem_cons_self _ _
      · rw [lookupAttr, if_neg he] at h
        exact List.mem_cons_of_mem _ (ih h)

/-- C6: on a record whose attributes all have boolean, JSON or numeric
logical type (with matching values, named distinct columns and no foreign
keys), marshaling to native form (`reifyValuesToSet`) and back to logical
form (`processNativeRecord`) returns the original record. -/
theorem claim6_marshal_roundtrip (model : WLModelM) (r : List (String × RVal))
    (hg : ∀ p ∈ model.attributes, goodAttrDef p)
    (hvs : ∀ p ∈ model.attributes, goodVal r p)
    (hnd : (model.attributes.map colOf).Nodup)
    (hpk : pkNumeric model = true) :
    ∃ native, reifyValuesToSet r model = .ok native ∧
      processNativeRecord native model = .ok r := by
  refine ⟨reifyAttrs model.attributes r, ?_, ?_⟩
  · by_cases hpk0 : model.primaryKey = ""
    · simp [reifyValuesToSet, hpk0]
    · cases hlk : lookupAttr model.attributes model.primaryKey with
      | none => simp [reifyValuesToSet, hpk0, hlk]
      | some pkDef =>
          have hmem := lookupAttr_mem _ _ _ hlk
          obtain ⟨c, hc0, hne0, hm0, hf0, ht0⟩ := hg _ hmem
          have hc : pkDef.columnName = some c := hc0
          have htype : pkDef.type = "number" := by
            simp only [pkNumeric, hlk, beq_iff_eq] at hpk
            exact hpk
          have hval := hvs _ hmem
          obtain ⟨n, hn⟩ := hval.1 htype
          have hn2 : getVal r (jsOrStr pkDef.columnName model.primaryKey)
              = some (.js (.jnum n)) := hn
          simp only [reifyValuesToSet, if_pos hpk0, hlk, hn2]
  · exact marshalRound model.attributes r hg hvs hnd

/-- Witness for C6 at a concrete model and record: a numeric primary key, a
`true` boolean and a nested JSON object survive the native round trip. -/
theorem claim6_witness :
    ∃ native, reifyValuesToSet wit6Rec wit6Model = .ok native ∧
      processNativeRecord native wit6Model = .ok wit6Rec :=
  claim6_marshal_roundtrip wit6Model wit6Rec
    (by
      intro p hp
      simp only [wit6Model, List.mem_cons, List.not_mem_nil, or_false] at hp
      rcases hp with rfl | rfl | rfl
      · exact ⟨"id", rfl, by decide, rfl, rfl, Or.inl rfl⟩
      · exact ⟨"ok", rfl, by decide, rfl, rfl, Or.inr (Or.inl rfl)⟩
      · exact ⟨"blob", rfl, by decide, rfl, rfl, Or.inr (Or.inr rfl)⟩)
    (by
      intro p hp
      simp only [wit6Model, List.mem_cons, List.not_mem_nil, or_false] at hp
      rcases hp with rfl | rfl | rfl
      · exact ⟨fun _ => ⟨7, by decide⟩, fun ht => absurd ht (by decide),
          fun ht => absurd ht (by decide)⟩
      · exact ⟨fun ht => absurd ht (by decide), fun _ => ⟨true, by decide⟩,
          fun ht => absurd ht (by decide)⟩
      · exact ⟨fun ht => absurd ht (by decide), fun ht => absurd ht (by decide),
          fun _ => ⟨.jobj (.ocons "a" (.jnum (-2)) (.ocons "b" (.jstr "x\"y") .onil)),
            by decide⟩⟩)
    (by decide)
    (by decide)

theorem takeWhile_run (p : Char → Bool) (run rest : List Char)
    (hrun : ∀ c ∈ run, p c = true)
    (hrest : ∀ c, rest.head? = some c → p c = false) :
    (run ++ rest).takeWhile p = run ∧ (run ++ rest).dropWhile p = rest := by
  induction run with
  | nil =>
      cases rest with
      | nil => exact ⟨rfl, rfl⟩
      | cons c t =>
          have hc := hrest c rfl
          simp [List.takeWhile, List.dropWhile, hc]
  | cons c run2 ih =>
      have hc : p c = true := hrun c (by simp)
      have ih2 := ih (fun d hd => hrun d (List.mem_cons_of_mem c hd))
      simp only [List.cons_append, List.takeWhile, List.dropWhile, hc, List.append_eq]
      exact ⟨by rw [ih2.1], by rw [ih2.2]⟩

theorem isPrefixOf_append_self (l r : List Char) : l.isPrefixOf (l ++ r) = true := by
  induction l with
  | nil => simp [List.isPrefixOf]
  | cons c t ih => simp [List.isPrefixOf, ih]

theorem matchUniqueAt_wellformed (tbl col : List Char)
    (hne1 : ¬(tbl = [])) (hne2 : ¬(col = []))
    (hw1 : ∀ c ∈ tbl, isWordChar c = true) (hw2 : ∀ c ∈ col, isWordChar c = true) :
    matchUniqueAt (uniqLit ++ (tbl ++ (Char.ofNat 46 :: col))) = some (String.mk col) := by
  have hrun1 := takeWhile_run isWordChar tbl (Char.ofNat 46 :: col) hw1
    (by intro c hc; injection hc with hc; rw [← hc]; decide)
  have hrun2 := takeWhile_run isWordChar col [] hw2 (by intro c hc; cases hc)
  rw [List.append_nil] at hrun2
  rw [matchUniqueAt, if_pos (isPrefixOf_append_self _ _)]
  rw [show (uniqLit ++ (tbl ++ (Char.ofNat 46 :: col))).drop uniqLit.length
      = tbl ++ (Char.ofNat 46 :: col) from List.drop_left _ _]
  have he1 : tbl.isEmpty = false := by simp [List.isEmpty_iff, hne1]
  have he2 : col.isEmpty = false := by simp [List.isEmpty_iff, hne2]
  simp only [hrun1.1, hrun1.2, hrun2.1, he1, he2]
  simp

theorem scanUnique_head (cs : List Char) (k : String) (h : matchUniqueAt cs = some k)
    (hne : ¬(cs = [])) : scanUnique cs = some k := by
  cases cs with
  | nil => exact absurd rfl hne
  | cons c rest =>
      rw [scanUnique, h]

/-- C7: a native uniqueness-constraint error (the dedicated unique-constraint
code, or the generic constraint code whose message mentions a failed UNIQUE
constraint) normalizes to a `notUnique` footprint — never the generic
`violation` — carrying the column name extracted from the message, or an
empty key list when extraction fails; on the driver's well-formed message
shape the extracted key is exactly the violated column name. -/
theorem claim7_notUnique (err : NativeErr) (hfp : err.hasFootprint = false)
    (huniq : err.code = "SQLITE_CONSTRAINT_UNIQUE" ∨
      (err.code = "SQLITE_CONSTRAINT" ∧
        jsIncludes err.message ("UNIQUE constraint failed") = true)) :
    processNativeError err
      = .flav "UsageError" "E_UNIQUE" err.message (.notUnique (uniqueKeys err.message)) ∧
    (∀ tbl col : List Char,
      err.message.data = uniqLit ++ (tbl ++ (Char.ofNat 46 :: col)) →
      ¬(tbl = []) → ¬(col = []) →
      (∀ c ∈ tbl, isWordChar c = true) → (∀ c ∈ col, isWordChar c = true) →
      uniqueKeys err.message = [String.mk col]) := by
  constructor
  · have h1 : ¬(err.hasFootprint = true) := by rw [hfp]; decide
    rw [processNativeError, if_neg h1]
    rcases huniq with hu | ⟨hc, hm⟩
    · rw [if_pos (Or.inr hu), if_pos (Or.inl hu)]
    · rw [if_pos (Or.inl hc), if_pos (Or.inr hm)]
  · intro tbl col hmsg hne1 hne2 hw1 hw2
    rw [uniqueKeys, hmsg,
      scanUnique_head _ _ (matchUniqueAt_wellformed tbl col hne1 hne2 hw1 hw2)
        (by simp [uniqLit])]

/-- Witness for C7: the canonical driver message for a duplicate `email`
yields a `notUnique` footprint naming exactly that column. -/
theorem claim7_witness :
    processNativeError wit7Err
      = .flav "UsageError" "E_UNIQUE" ("UNIQUE constraint failed: user.email")
          (.notUnique ["email"]) := by
  have h := claim7_notUnique wit7Err rfl (Or.inl rfl)
  rw [h.1, h.2 ("user".data) ("email".data) (by decide) (by decide) (by decide)
    (by decide) (by decide)]
  rfl

theorem listHasSub_append_left (needle pre post : List Char)
    (h : listHasSub needle post = true) : listHasSub needle (pre ++ post) = true := by
  induction pre with
  | nil => exact h
  | cons c t ih =>
      rw [List.cons_append, listHasSub]
      rw [Bool.or_eq_true]
      exact Or.inr ih

theorem listHasSub_self_append (needle rest : List Char) :
    listHasSub needle (needle ++ rest) = true := by
  cases hc : needle ++ rest with
  | nil =>
      have : needle = [] := by
        cases needle with
        | nil => rfl
        | cons c t => simp at hc
      rw [listHasSub, this]
      rfl
  | cons c t =>
      rw [listHasSub, Bool.or_eq_true]
      rw [← hc]
      exact Or.inl (isPrefixOf_append_self needle rest)

/-- C10: a sum whose criteria match zero rows succeeds with the scalar 0 —
not null and not an error — and its query text wraps the aggregate in
`COALESCE(SUM(...), 0)`. -/
theorem claim10_sum_zero (models : List DryModel) (tableName field : String)
    (w : WhereNode) (meta : Option QMeta) (rows : List Row) (m : DryModel)
    (hfind : findModel models tableName = some m)
    (wc : String) (hwc : buildSqliteWhereClause w meta = .ok wc)
    (hmatch : rows.filter (fun r => rowMatchesW r w) = []) :
    ∃ q, sumFn models tableName field w meta rows = .ok (q, 0) ∧
      jsIncludes q ("COALESCE(SUM(") = true := by
  have hsplit : ("SELECT COALESCE(SUM(`" : String) = "SELECT " ++ "COALESCE(SUM(`" := by
    decide
  have hbase : ∀ tail : String,
      jsIncludes ("SELECT COALESCE(SUM(`" ++ tail) ("COALESCE(SUM(") = true := by
    intro tail
    rw [hsplit, jsIncludes]
    rw [String.data_append, String.data_append, List.append_assoc]
    apply listHasSub_append_left
    rw [show ("COALESCE(SUM(`" : String).data
        = ("COALESCE(SUM(" : String).data ++ [btick] from by decide]
    rw [List.append_assoc]
    exact listHasSub_self_append _ _
  by_cases hwcE : wc = ""
  · refine ⟨"SELECT COALESCE(SUM(`" ++ field ++ "`), 0) as total FROM `"
        ++ tableName ++ "`", ?_, ?_⟩
    · rw [sumFn, hfind, hwc]
      simp only [hmatch, hwcE, if_pos rfl]
      rfl
    · rw [show ("SELECT COALESCE(SUM(`" ++ field ++ "`), 0) as total FROM `"
          ++ tableName ++ "`" : String)
          = "SELECT COALESCE(SUM(`" ++ (field ++ "`), 0) as total FROM `"
            ++ tableName ++ "`") from by simp [String.append_assoc]]
      exact hbase _
  · refine ⟨"SELECT COALESCE(SUM(`" ++ field ++ "`), 0) as total FROM `"
        ++ tableName ++ "`" ++ " WHERE " ++ wc, ?_, ?_⟩
    · rw [sumFn, hfind, hwc]
      simp only [hmatch, if_neg hwcE]
      rfl
    · rw [show ("SELECT COALESCE(SUM(`" ++ field ++ "`), 0) as total FROM `"
          ++ tableName ++ "`" ++ " WHERE " ++ wc : String)
          = "SELECT COALESCE(SUM(`" ++ (field ++ "`), 0) as total FROM `"
            ++ tableName ++ "`" ++ " WHERE " ++ wc) from by simp [String.append_assoc]]
      exact hbase _

/-- Witness for C10: with two rows, none named `bob`, the sum of `age`
under `name = bob` succeeds with 0 and the query text uses
`COALESCE(SUM(...), 0)`. -/
theorem claim10_witness :
    ∃ q, sumFn [⟨"pets"⟩] ("pets") ("age") wit10Where none wit10Rows = .ok (q, 0) ∧
      jsIncludes q ("COALESCE(SUM(") = true :=
  claim10_sum_zero [⟨"pets"⟩] ("pets") ("age") wit10Where none wit10Rows ⟨"pets"⟩
    (by decide) ("name = \x27bob\x27") (by decide) (by decide)

/-- C5: a join whose primary statement returns zero rows executes no child
statements — the query trace holds only the parent query — and returns the
empty list, whatever the child phase would do. -/
theorem claim5_join_empty_parent (hasJoins : Bool) (parentStatement : Statement)
    (db : String → List OpVal → List Row)
    (childPhase : List Row → List Row × List String)
    (hempty : db (compileStatement parentStatement).1
        (compileStatement parentStatement).2 = []) :
    joinFn hasJoins parentStatement db childPhase
      = ([], [(compileStatement parentStatement).1]) := by
  rw [joinFn]
  simp [hempty]

/-- Witness for C5: an empty table makes the join return no records and run
only the parent query, even though the child phase would have produced
records and queries. -/
theorem claim5_witness :
    joinFn true exampleStmt1 (fun _ _ => [])
        (fun _ => ([[("x", .vint 1)]], ["SELECT child"]))
      = ([], [(compileStatement exampleStmt1).1]) :=
  claim5_join_empty_parent true exampleStmt1 (fun _ _ => [])
    (fun _ => ([[("x", .vint 1)]], ["SELECT child"])) rfl

theorem engineInsertAll_pkCol (e : Engine) (rs : List (List (String × RVal))) :
    (engineInsertAll e rs).pkCol = e.pkCol := by
  induction rs generalizing e with
  | nil => rfl
  | cons r rest ih => rw [engineInsertAll, ih]; rfl

theorem engineInsertAll_nextRowid (e : Engine) (rs : List (List (String × RVal))) :
    (engineInsertAll e rs).nextRowid = e.nextRowid + rs.length := by
  induction rs generalizing e with
  | nil => simp [engineInsertAll]
  | cons r rest ih =>
      rw [engineInsertAll, ih]
      simp [engineInsertOne]
      omega

theorem engineInsertAll_rows (e : Engine) (rs : List (List (String × RVal))) :
    (engineInsertAll e rs).rows = e.rows ++ storedList e.pkCol e.nextRowid rs := by
  induction rs generalizing e with
  | nil => simp [engineInsertAll, storedList]
  | cons r rest ih =>
      rw [engineInsertAll, ih]
      simp [engineInsertOne, storedList]

theorem storedList_length (pkCol : String) (rid : Int) (rs : List (List (String × RVal))) :
    (storedList pkCol rid rs).length = rs.length := by
  induction rs generalizing rid with
  | nil => rfl
  | cons r rest ih => simp [storedList, ih]

theorem storedList_bounds (pkCol : String) (rid : Int) (rs : List (List (String × RVal))) :
    ∀ p ∈ storedList pkCol rid rs, rid ≤ p.1 ∧ p.1 < rid + rs.length := by
  induction rs generalizing rid with
  | nil => intro p hp; cases hp
  | cons r rest ih =>
      intro p hp
      rw [storedList] at hp
      rcases List.mem_cons.mp hp with rfl | hp2
      · refine ⟨le_refl _, ?_⟩
        simp only [List.length_cons]
        omega
      · have := ih (rid + 1) p hp2
        refine ⟨by omega, ?_⟩
        simp only [List.length_cons]
        omega

theorem filter_old_nil (rows : List (Int × List (String × RVal))) (a b : Int)
    (hwf : ∀ p ∈ rows, p.1 < a) :
    rows.filter (fun p => decide (a ≤ p.1) && decide (p.1 ≤ b)) = [] := by
  rw [List.filter_eq_nil_iff]
  intro p hp
  have := hwf p hp
  simp only [Bool.and_eq_true, decide_eq_true_eq]
  intro hcon
  omega

theorem filter_new_all (pkCol : String) (rid : Int) (rs : List (List (String × RVal)))
    (b : Int) (hb : rid + rs.length - 1 ≤ b) :
    (storedList pkCol rid rs).filter (fun p => decide (rid ≤ p.1) && decide (p.1 ≤ b))
      = storedList pkCol rid rs := by
  rw [List.filter_eq_self]
  intro p hp
  have h := storedList_bounds pkCol rid rs p hp
  have hlen : (1 : Int) ≤ rs.length := by
    cases rs with
    | nil => cases hp
    | cons x xs => simp
  simp only [Bool.and_eq_true, decide_eq_true_eq]
  omega

theorem stored_pks (pkCol : String) (rid : Int) (rs : List (List (String × RVal)))
    (hpk : ∀ r ∈ rs, getVal r pkCol = none) :
    ∀ i, (h : i < ((storedList pkCol rid rs).map Prod.snd).length) →
      getVal (((storedList pkCol rid rs).map Prod.snd).get ⟨i, h⟩) pkCol
        = some (.js (.jnum (rid + i))) := by
  induction rs generalizing rid with
  | nil => intro i h; simp [storedList] at h
  | cons r rest ih =>
      intro i h
      cases i with
      | zero =>
          simp only [storedList, List.map_cons, List.get]
          rw [storeWithPk, hpk r (by simp)]
          simp [getVal_setVal_self]
      | succ i2 =>
          simp only [storedList, List.map_cons, List.get]
          have hlen1 : ∀ (r2 : Int) (rs2 : List (List (String × RVal))),
              ((storedList pkCol r2 rs2).map Prod.snd).length = rs2.length := by
            intro r2 rs2
            rw [List.length_map, storedList_length]
          have h2 : i2 < ((storedList pkCol (rid + 1) rest).map Prod.snd).length := by
            rw [hlen1] at h ⊢
            simp only [List.length_cons] at h
            omega
          rw [ih (rid + 1) (fun q hq => hpk q (List.mem_cons_of_mem _ hq)) i2 h2]
          have hcast : rid + 1 + (i2 : Int) = rid + ((i2 + 1 : Nat) : Int) := by
            push_cast
            ring
          rw [hcast]

theorem reifyEach_length (wl : WLModelM) (rs recs : List (List (String × RVal)))
    (h : reifyEach wl rs = .ok recs) : recs.length = rs.length := by
  induction rs generalizing recs with
  | nil =>
      simp only [reifyEach] at h
      injection h with h
      rw [← h]
  | cons r rest ih =>
      rw [reifyEach] at h
      cases h1 : reifyValuesToSet r wl with
      | error e => rw [h1] at h; cases h
      | ok r2 =>
          rw [h1] at h
          cases h2 : reifyEach wl rest with
          | error e => rw [h2] at h; cases h
          | ok rest2 =>
              rw [h2] at h
              injection h with h
              rw [← h]
              simp [ih rest2 h2]

theorem processAttr_ok (rec : List (String × RVal)) (ad : AttrDef)
    (hm : ad.model = none) (hf : ad.foreignKey = false) :
    ∃ out, processAttr rec ad = .ok out := by
  unfold processAttr
  rw [hm, hf]
  exact ⟨_, rfl⟩

theorem processAttrs_ok (attrs : List (String × AttrDef)) (rec : List (String × RVal))
    (hg : ∀ p ∈ attrs, p.2.model = none ∧ p.2.foreignKey = false) :
    ∃ out, processAttrs attrs rec = .ok out := by
  induction attrs generalizing rec with
  | nil => exact ⟨rec, rfl⟩
  | cons p rest ih =>
      obtain ⟨an, ad⟩ := p
      obtain ⟨mid, hmid⟩ := processAttr_ok rec ad (hg (an, ad) (List.mem_cons_self _ _)).1
        (hg (an, ad) (List.mem_cons_self _ _)).2
      obtain ⟨out, hout⟩ := ih mid (fun q hq => hg q (List.mem_cons_of_mem _ hq))
      refine ⟨out, ?_⟩
      rw [processAttrs_cons, hmid]
      exact hout

theorem processAttr_frame (rec out : List (String × RVal)) (ad : AttrDef)
    (k c : String) (hc : ad.columnName = some c) (hm : ad.model = none)
    (hf : ad.foreignKey = false)
    (ht : ad.type = "number" ∨ ad.type = "boolean" ∨ ad.type = "json")
    (hok : processAttr rec ad = .ok out)
    (hk : ¬(c = k) ∨ ad.type = "number") :
    getVal out k = getVal rec k := by
  rcases ht with ht | ht | ht
  · rw [processAttr_other rec ad (by rw [ht]; decide) (by rw [ht]; decide)
      (by rw [ht]; decide) hm hf] at hok
    injection hok with hok
    rw [← hok]
  · have hck : ¬(c = k) := by
      rcases hk with hk | hk
      · exact hk
      · rw [ht] at hk; exact absurd hk (by decide)
    cases hv : getVal rec c with
    | none =>
        rw [processAttr_bool_absent rec ad ht hm hf c hc hv] at hok
        injection hok with hok
        rw [← hok, getVal_setVal_ne _ _ _ _ hck]
    | some v =>
        rw [processAttr_bool rec ad ht hm hf c hc v hv] at hok
        injection hok with hok
        rw [← hok, getVal_setVal_ne _ _ _ _ hck]
  · have hck : ¬(c = k) := by
      rcases hk with hk | hk
      · exact hk
      · rw [ht] at hk; exact absurd hk (by decide)
    cases hv : getVal rec c with
    | none =>
        rw [processAttr_json_absent rec ad ht hm hf c hc hv] at hok
        injection hok with hok
        rw [← hok]
    | some v =>
        by_cases hs : ∃ s, v = .js (.jstr s)
        · obtain ⟨s, rfl⟩ := hs
          rw [processAttr_json_str rec ad ht hm hf c hc s hv] at hok
          injection hok with hok
          cases hp : jsonParse s with
          | some j =>
              rw [hp] at hok
              rw [← hok, getVal_setVal_ne _ _ _ _ hck]
          | none =>
              rw [hp] at hok
              rw [← hok]
        · have hns : ∀ s, ¬(v = .js (.jstr s)) := fun s hh => hs ⟨s, hh⟩
          rw [processAttr_json_nonstr rec ad ht hm hf c hc v hv hns] at hok
          injection hok with hok
          rw [← hok]

theorem processAttrs_frame (attrs : List (String × AttrDef))
    (rec out : List (String × RVal)) (k : String)
    (hg : ∀ p ∈ attrs, goodAttrDef p)
    (hk : ∀ p ∈ attrs, ¬(colOf p = k) ∨ p.2.type = "number")
    (hok : processAttrs attrs rec = .ok out) :
    getVal out k = getVal rec k := by
  induction attrs generalizing rec with
  | nil =>
      simp only [processAttrs] at hok
      injection hok with hok
      rw [← hok]
  | cons p rest ih =>
      obtain ⟨an, ad⟩ := p
      obtain ⟨c, hc0, hne0, hm0, hf0, ht0⟩ := hg (an, ad) (List.mem_cons_self _ _)
      have hc : ad.columnName = some c := hc0
      have hcol : jsOrStr ad.columnName an = c := by simp [jsOrStr, hc, hne0]
      obtain ⟨mid, hmid⟩ := processAttr_ok rec ad hm0 hf0
      rw [processAttrs_cons, hmid] at hok
      have hk1 : ¬(c = k) ∨ ad.type = "number" := by
        rcases hk (an, ad) (List.mem_cons_self _ _) with hh | hh
        · rw [show colOf (an, ad) = jsOrStr ad.columnName an from rfl, hcol] at hh
          exact Or.inl hh
        · exact Or.inr hh
      rw [ih mid (fun q hq => hg q (List.mem_cons_of_mem _ hq))
        (fun q hq => hk q (List.mem_cons_of_mem _ hq)) hok,
        processAttr_frame rec mid ad k c hc hm0 hf0 ht0 hmid hk1]

theorem processEachRec_ok (wl : WLModelM) (phs : List (List (String × RVal)))
    (k : String)
    (hg : ∀ p ∈ wl.attributes, goodAttrDef p)
    (hk : ∀ p ∈ wl.attributes, ¬(colOf p = k) ∨ p.2.type = "number") :
    ∃ outs, processEachRec wl phs = .ok outs ∧ outs.length = phs.length ∧
      ∀ i, (h1 : i < outs.length) → (h2 : i < phs.length) →
        getVal (outs.get ⟨i, h1⟩) k = getVal (phs.get ⟨i, h2⟩) k := by
  induction phs with
  | nil => exact ⟨[], rfl, rfl, fun i h1 h2 => absurd h1 (by simp)⟩
  | cons r rest ih =>
      have hmf : ∀ p ∈ wl.attributes, p.2.model = none ∧ p.2.foreignKey = false := by
        intro p hp
        obtain ⟨c, _, _, hm0, hf0, _⟩ := hg p hp
        exact ⟨hm0, hf0⟩
      obtain ⟨mid, hmid⟩ := processAttrs_ok wl.attributes r hmf
      obtain ⟨outs, houts, hlen, hpt⟩ := ih
      refine ⟨mid :: outs, ?_, by simp [hlen], ?_⟩
      · rw [processEachRec, show processNativeRecord r wl = .ok mid from hmid, houts]
      · intro i h1 h2
        cases i with
        | zero =>
            simp only [List.get]
            exact processAttrs_frame wl.attributes r mid k hg hk hmid
        | succ i2 =>
            simp only [List.get]
            exact hpt i2 (by simp at h1; omega) (by simp at h2; omega)

/-- C8: with fetch enabled and a non-empty batch of same-column records, 
createEach issues one multi-row INSERT, re-selects exactly the rowid range
`[lastInsertRowid - N + 1, lastInsertRowid]`, and returns exactly N records
whose auto-increment primary keys are contiguous and increasing; and for
any re-select outcome of the wrong cardinality the operation raises the
consistency-violation error instead. -/
theorem claim8_createEach_fetch (models : List TModel) (tableName : String)
    (newRecords : List (List (String × RVal))) (e : Engine) (tm : TModel)
    (recs : List (List (String × RVal)))
    (hfind : findTModel models tableName = some tm)
    (hreify : reifyEach tm.wl newRecords = .ok recs)
    (hne : ¬(recs = []))
    (hcols : ceInvalid recs = false)
    (hg : ∀ p ∈ tm.wl.attributes, goodAttrDef p)
    (hkpk : ∀ p ∈ tm.wl.attributes, ¬(colOf p = e.pkCol) ∨ p.2.type = "number")
    (hpk : ∀ r ∈ recs, getVal r e.pkCol = none)
    (hwf : ∀ p ∈ e.rows, p.1 < e.nextRowid) :
    ∃ processed cols,
      (createEachFn models tableName newRecords true e
        = .ok (some processed, engineInsertAll e recs,
            [(ceInsertSql tableName cols recs.length, ceAllValues cols recs),
             (ceSelectSql tableName,
              [.js (.jnum e.nextRowid),
               .js (.jnum (e.nextRowid + recs.length - 1))])])) ∧
      processed.length = recs.length ∧
      (∀ i, (h : i < processed.length) →
        getVal (processed.get ⟨i, h⟩) e.pkCol = some (.js (.jnum (e.nextRowid + i)))) ∧
      (∀ phs : List (List (String × RVal)), ¬(phs.length = recs.length) →
        ceFetchCheck tm.wl recs.length phs
          = .error ("Consistency violation: Expected "
              ++ String.mk (natChars recs.length) ++ " records but retrieved "
              ++ String.mk (natChars phs.length))) := by
  cases recs with
  | nil => exact absurd rfl hne
  | cons first rest =>
      obtain ⟨outs, houts, hlen, hpt⟩ := processEachRec_ok tm.wl
        ((storedList e.pkCol e.nextRowid (first :: rest)).map Prod.snd) e.pkCol hg hkpk
      have hnext := engineInsertAll_nextRowid e (first :: rest)
      have harith1 : (engineInsertAll e (first :: rest)).nextRowid - 1
          - (((first :: rest).length : Nat) : Int) + 1 = e.nextRowid := by
        rw [hnext]; ring
      have harith2 : (engineInsertAll e (first :: rest)).nextRowid - 1
          = e.nextRowid + (((first :: rest).length : Nat) : Int) - 1 := by
        rw [hnext]
      have hsel : engineSelectRange (engineInsertAll e (first :: rest))
          ((engineInsertAll e (first :: rest)).nextRowid - 1
            - (((first :: rest).length : Nat) : Int) + 1)
          ((engineInsertAll e (first :: rest)).nextRowid - 1)
          = (storedList e.pkCol e.nextRowid (first :: rest)).map Prod.snd := by
        rw [harith1, harith2, engineSelectRange, engineInsertAll_rows, List.filter_append]
        rw [filter_old_nil e.rows _ _ hwf]
        rw [filter_new_all e.pkCol e.nextRowid _ _ (le_refl _)]
        simp
      have hleneq : ((storedList e.pkCol e.nextRowid (first :: rest)).map Prod.snd).length
          = (first :: rest).length := by
        rw [List.length_map, storedList_length]
      have hfc : ceFetchCheck tm.wl (first :: rest).length
          ((storedList e.pkCol e.nextRowid (first :: rest)).map Prod.snd) = .ok outs := by
        rw [ceFetchCheck, if_neg (by rw [hleneq]; exact not_not_intro rfl)]
        exact houts
      refine ⟨outs, recKeys first, ?_, ?_, ?_, ?_⟩
      · simp only [createEachFn, hfind, hreify, hcols, Bool.false_eq_true, if_false,
          Bool.not_true, hsel, hfc]
        rw [harith1, harith2]
        rfl
      · rw [hlen, hleneq]
      · intro i h
        have h2 : i < ((storedList e.pkCol e.nextRowid (first :: rest)).map Prod.snd).length := by
          rw [hleneq]
          rw [hlen, hleneq] at h
          exact h
        rw [hpt i h h2]
        have := stored_pks e.pkCol e.nextRowid (first :: rest) hpk i h2
        rw [this]
      · intro phs hphs
        rw [ceFetchCheck, if_pos hphs]

/-- Witness for C8: two records batch-inserted into an empty table with
fetch enabled come back as two records with primary keys 1 and 2, via a
single INSERT and one rowid-range re-select. -/
theorem claim8_witness :
    ∃ processed cols,
      (createEachFn [⟨"pets", wit6Model⟩] ("pets") wit8New true wit8E
        = .ok (some processed, engineInsertAll wit8E wit8Recs,
            [(ceInsertSql ("pets") cols wit8Recs.length, ceAllValues cols wit8Recs),
             (ceSelectSql ("pets"),
              [.js (.jnum wit8E.nextRowid),
               .js (.jnum (wit8E.nextRowid + wit8Recs.length - 1))])])) ∧
      processed.length = wit8Recs.length ∧
      (∀ i, (h : i < processed.length) →
        getVal (processed.get ⟨i, h⟩) wit8E.pkCol
          = some (.js (.jnum (wit8E.nextRowid + i)))) ∧
      (∀ phs : List (List (String × RVal)), ¬(phs.length = wit8Recs.length) →
        ceFetchCheck wit6Model wit8Recs.length phs
          = .error ("Consistency violation: Expected "
              ++ String.mk (natChars wit8Recs.length) ++ " records but retrieved "
              ++ String.mk (natChars phs.length))) :=
  claim8_createEach_fetch [⟨"pets", wit6Model⟩] ("pets") wit8New wit8E ⟨"pets", wit6Model⟩
    wit8Recs rfl (by decide) (by decide) (by decide)
    (by
      intro p hp
      simp only [wit6Model, List.mem_cons, List.not_mem_nil, or_false] at hp
      rcases hp with rfl | rfl | rfl
      · exact ⟨"id", rfl, by decide, rfl, rfl, Or.inl rfl⟩
      · exact ⟨"ok", rfl, by decide, rfl, rfl, Or.inr (Or.inl rfl)⟩
      · exact ⟨"blob", rfl, by decide, rfl, rfl, Or.inr (Or.inr rfl)⟩)
    (by
      intro p hp
      simp only [wit6Model, List.mem_cons, List.not_mem_nil, or_false] at hp
      rcases hp with rfl | rfl | rfl
      · exact Or.inr rfl
      · exact Or.inl (by decide)
      · exact Or.inl (by decide))
    (by decide)
    (by intro p hp; cases hp)

/-- C9 counterexample: with fetch disabled, an update whose criteria
(`type = \x27cat\x27`) match two rows and whose values assign the primary
key succeeds and commits, leaving both stored rows with the same primary
key value — the adapter\x27s consistency check never fires on this path. -/
theorem claim9_counterexample :
    updateFn [⟨"pets", ⟨"id", [("id", ⟨some "id", "number", none, false⟩)]⟩⟩] ("pets")
        [("id", RVal.js (.jnum 9))]
        (.node (.cons "type" (.field (.lit (.vstr "cat"))) .nil)) none false
        [[("id", RVal.js (.jnum 1)), ("type", RVal.js (.jstr "cat"))],
         [("id", RVal.js (.jnum 2)), ("type", RVal.js (.jstr "cat"))]]
      = (.ok none,
         [[("id", RVal.js (.jnum 9)), ("type", RVal.js (.jstr "cat"))],
          [("id", RVal.js (.jnum 9)), ("type", RVal.js (.jstr "cat"))]],
         ["BEGIN TRANSACTION", "COMMIT"]) := by decide

/-- C9 amended: the multiple-rows primary-key consistency check fires only
on the fetch-enabled path: with fetch enabled, when the criteria compile
to a non-empty WHERE clause and match two or more rows while the (reified)
values to set assign the primary-key column, update fails with exactly the
consistency-violation error, the stored rows are unchanged, and the
transaction ends in ROLLBACK. -/
theorem claim9_amended (models : List UModel) (tableName : String)
    (valuesToSet : List (String × RVal)) (whereC : WhereNode) (meta : Option QMeta)
    (rows : List (List (String × RVal))) (um : UModel) (pkDef : AttrDef) (c : String)
    (vts : List (String × RVal)) (wc : String)
    (hfind : findUModel models tableName = some um)
    (hpkattr : lookupAttr um.wl.attributes um.wl.primaryKey = some pkDef)
    (hc : pkDef.columnName = some c)
    (hreify : reifyValuesToSet valuesToSet um.wl = .ok vts)
    (hwc : buildSqliteWhereClause whereC meta = .ok wc)
    (hwcne : ¬(wc = ""))
    (hbind : vts.all (fun p => bindableR p.2) = true)
    (hpkset : ¬(getVal vts c = none))
    (hmatch : 2 ≤ (rows.filter (fun r => rowMatchesRW r whereC)).length) :
    updateFn models tableName valuesToSet whereC meta true rows
      = (.error "Consistency violation: Updated multiple records to have the same primary key value. (PK values should be unique!)",
         rows, ["BEGIN TRANSACTION", "ROLLBACK"]) := by
  have hafflen : ((rows.filter (fun r => rowMatchesRW r whereC)).map
      (fun r => getVal r c)).length
      = (rows.filter (fun r => rowMatchesRW r whereC)).length := List.length_map _ _
  simp only [updateFn, hfind, hpkattr, hc, hreify, hwc, if_pos rfl, if_true]
  rw [if_neg hwcne]
  rw [if_neg (not_not_intro hbind)]
  rw [if_neg (show ¬(¬(getVal vts c = none) ∧
      ((rows.filter (fun r => rowMatchesRW r whereC)).map
        (fun r => getVal r c)).length = 1) from by
    intro hcon
    rw [hafflen] at hcon
    omega)]
  rw [if_pos (show ¬(getVal vts c = none) ∧
      1 < ((rows.filter (fun r => rowMatchesRW r whereC)).map
        (fun r => getVal r c)).length from by
    rw [hafflen]
    exact ⟨hpkset, by omega⟩)]

/-- Witness for C9 amended: with fetch enabled, the same two-row
primary-key update under `type = \x27cat\x27` is rejected with the
consistency-violation error and the rows are left untouched. -/
theorem claim9_witness :
    updateFn [⟨"pets", ⟨"id", [("id", ⟨some "id", "number", none, false⟩)]⟩⟩] ("pets")
        [("id", RVal.js (.jnum 9))]
        (.node (.cons "type" (.field (.lit (.vstr "cat"))) .nil)) none true
        [[("id", RVal.js (.jnum 1)), ("type", RVal.js (.jstr "cat"))],
         [("id", RVal.js (.jnum 2)), ("type", RVal.js (.jstr "cat"))]]
      = (.error "Consistency violation: Updated multiple records to have the same primary key value. (PK values should be unique!)",
         [[("id", RVal.js (.jnum 1)), ("type", RVal.js (.jstr "cat"))],
          [("id", RVal.js (.jnum 2)), ("type", RVal.js (.jstr "cat"))]],
         ["BEGIN TRANSACTION", "ROLLBACK"]) :=
  claim9_amended [⟨"pets", ⟨"id", [("id", ⟨some "id", "number", none, false⟩)]⟩⟩] ("pets")
    [("id", RVal.js (.jnum 9))]
    (.node (.cons "type" (.field (.lit (.vstr "cat"))) .nil)) none
    [[("id", RVal.js (.jnum 1)), ("type", RVal.js (.jstr "cat"))],
     [("id", RVal.js (.jnum 2)), ("type", RVal.js (.jstr "cat"))]]
    ⟨"pets", ⟨"id", [("id", ⟨some "id", "number", none, false⟩)]⟩⟩
    ⟨some "id", "number", none, false⟩ ("id")
    [("id", RVal.js (.jnum 9))] ("type = \x27cat\x27") rfl rfl rfl (by decide)
    (by decide) (by decide) (by decide) (by decide) (by decide)
